import Mathlib

/-!
Verification of the `introb` grid-navigation suite: shallow embedding of the four
search strategies (`breadth_first.py`, `dijkstra.py`, `astar.py`,
`greedy_best_first.py`), the tabular agents' action-selection and epsilon
schedule (`q_learning.py`, `sarsa.py`), and the metrics aggregation
(`metrics_manager.py`), together with proofs of the specified properties.

Conventions of the embedding:
* Python `(x, y)` integer tuples become `Pos := Int × Int`.
* The game map is observed by the algorithms only through `width`, `height` and
  `grid[y][x] != MapSymbols.OBSTACLE`; it is modelled by the fields `width`,
  `height`, `obstacle` of `GameMap`.
* Python dictionaries become association lists (assignment prepends a binding,
  lookup takes the most recent binding); Python sets become lists with
  membership-guarded insertion.
* `heapq` on tuples `(priority, position)` pops the minimum under the
  lexicographic order that Python uses on such tuples; this is modelled by
  removing the minimum entry from the entry list.
* A Python `while` loop becomes a fuel-indexed recursion; the fuel is chosen
  large enough and proved sufficient.  A result of `none` marks a computation
  that Python would not complete normally (an uncaught exception such as
  `KeyError`, or — never actually reached — fuel exhaustion).
* `float('inf')` as a returned cost is modelled by `none : Option Int`.
-/

/-- A grid position: the Python tuple `(x, y)`. -/
abbrev Pos := Int × Int

/-- The part of the game map the algorithms read: `width`, `height`, and for
each cell whether `grid[y][x] == MapSymbols.OBSTACLE`. -/
structure GameMap where
  width : Int
  height : Int
  obstacle : Int → Int → Bool

/-- `map.is_valid_move(x, y)` from `environment/map.py`:
`0 <= x < width and 0 <= y < height and grid[y][x] != OBSTACLE`.
The identical inline test guards neighbour generation in all four search
files. -/
def GameMap.isValidMove (m : GameMap) (x y : Int) : Bool :=
  decide (0 ≤ x) && decide (x < m.width) && decide (0 ≤ y) && decide (y < m.height) &&
    !(m.obstacle x y)

/-- A cell (as a pair) that passes `is_valid_move`. -/
def GameMap.validPos (m : GameMap) (p : Pos) : Bool :=
  m.isValidMove p.1 p.2

/-- `get_neighbors(pos)`, identical in all four pathfinder classes: the
candidates `[(x+1,y), (x-1,y), (x,y+1), (x,y-1)]` filtered by the in-bounds
and non-obstacle test. -/
def getNeighbors (m : GameMap) (p : Pos) : List Pos :=
  [(p.1 + 1, p.2), (p.1 - 1, p.2), (p.1, p.2 + 1), (p.1, p.2 - 1)].filter
    fun q => m.validPos q

/-- `calculate_heuristic` of `astar.py` and `greedy_best_first.py`:
the Manhattan distance `abs(x1-x2) + abs(y1-y2)`. -/
def manhattan (a b : Pos) : Int :=
  |a.1 - b.1| + |a.2 - b.2|

/-! ### Association lists (Python `dict`) and list sets (Python `set`) -/

/-- Lookup of the most recent binding: Python `d[k]` / `d.get(k)`. -/
def alookup {α : Type} (l : List (Pos × α)) (p : Pos) : Option α :=
  match l with
  | [] => none
  | (q, v) :: rest => if q = p then some v else alookup rest p

/-- Key membership: Python `k in d`. -/
def akeys {α : Type} (l : List (Pos × α)) : List Pos := l.map (·.1)

/-- Python `heapq` entry comparison on `(priority, (x, y))` tuples:
lexicographic on the integer components. -/
def entryLt (a b : Int × Pos) : Bool :=
  decide (a.1 < b.1) ||
    (decide (a.1 = b.1) &&
      (decide (a.2.1 < b.2.1) || (decide (a.2.1 = b.2.1) && decide (a.2.2 < b.2.2))))

/-- Remove the first occurrence of an element from a list. -/
def eraseFirst : List (Int × Pos) → (Int × Pos) → List (Int × Pos)
  | [], _ => []
  | x :: xs, e => if x = e then xs else x :: eraseFirst xs e

/-- `heapq.heappop`: returns the minimum entry under the Python tuple order
together with the remaining entries.  Among equal entries (which are fully
identical tuples) which physical copy is removed is unobservable. -/
def heapPop (q : List (Int × Pos)) : Option ((Int × Pos) × List (Int × Pos)) :=
  match q with
  | [] => none
  | e :: es =>
    let m := es.foldl (fun b x => if entryLt x b then x else b) e
    some (m, eraseFirst q m)

/-! ### The common loop driver

Each Python `while queue:` loop is one step function iterated by `runLoop`.
`StepRes.done` is loop exit (empty frontier, or `break` at the goal),
`StepRes.cont` one completed iteration, `StepRes.fail` an uncaught exception
(`KeyError` on a dictionary access). -/

inductive StepRes (σ : Type) where
  | done (s : σ)
  | cont (s : σ)
  | fail

/-- Fuelled iteration of a loop body. -/
def runLoop {σ : Type} (f : σ → StepRes σ) : Nat → σ → Option σ
  | 0, _ => none
  | n + 1, s =>
    match f s with
    | .done t => some t
    | .cont t => runLoop f n t
    | .fail => none

/-- Path reconstruction, shared verbatim by the four `find_path` methods:
walk `came_from` from the goal until the `None` parent, collecting positions
in reverse order.  Returns the goal-to-start chain; `none` models the
`KeyError` that a missing binding would raise (never reached). -/
def walkBack (cf : List (Pos × Option Pos)) : Nat → Pos → Option (List Pos)
  | 0, _ => none
  | n + 1, cur =>
    match alookup cf cur with
    | none => none
    | some none => some [cur]
    | some (some q) => (walkBack cf n q).map (cur :: ·)

/-- Cells of the grid, used only to bound loop lengths. -/
def cellCount (m : GameMap) : Nat :=
  m.width.toNat * m.height.toNat

/-- Search output: the path, the cost (`none` = `float('inf')`), and the
number of `increment_nodes_explored()` calls made on the game-logic hook. -/
structure SearchOut where
  path : List Pos
  cost : Option Int
  explored : Nat
  deriving DecidableEq, Repr

/-- Direction selection shared verbatim by every `get_next_move`: `'idle'` for
a path of fewer than two positions, otherwise the sign of the first step. -/
def moveDir (path : List Pos) : String :=
  match path with
  | p1 :: p2 :: _ =>
    let dx := p2.1 - p1.1
    let dy := p2.2 - p1.2
    if dx > 0 then "right"
    else if dx < 0 then "left"
    else if dy > 0 then "down"
    else if dy < 0 then "up"
    else "idle"
  | _ => "idle"

/-! ### `BFSPathfinder.find_path` (`breadth_first.py`) -/

structure BFSState where
  queue : List Pos
  cameFrom : List (Pos × Option Pos)
  visited : List Pos
  explored : Nat

/-- The neighbour loop of one BFS iteration: enqueue, mark visited, record the
predecessor and count each not-yet-visited neighbour. -/
def bfsExpand (m : GameMap) (useLogic : Bool) (cur : Pos) (s : BFSState) : BFSState :=
  (getNeighbors m cur).foldl
    (fun t np =>
      if np ∈ t.visited then t
      else
        { queue := t.queue ++ [np]
          cameFrom := (np, some cur) :: t.cameFrom
          visited := np :: t.visited
          explored := t.explored + (if useLogic then 1 else 0) })
    s

/-- One iteration of the BFS `while queue:` loop. -/
def bfsStep (m : GameMap) (goal : Pos) (useLogic : Bool) (s : BFSState) : StepRes BFSState :=
  match s.queue with
  | [] => .done s
  | cur :: rest =>
    if cur = goal then .done { s with queue := rest }
    else .cont (bfsExpand m useLogic cur { s with queue := rest })

/-- Fuel bound for the BFS loop (each iteration removes one queue entry and
every enqueue is paired with a fresh visited cell). -/
def bfsFuel (m : GameMap) : Nat := 2 * cellCount m + 2

/-- `BFSPathfinder.find_path(start, goal)`.  `useLogic` is whether a game
logic was registered with `set_game_logic`; `explored` counts the
`increment_nodes_explored()` calls. -/
def bfsFindPath (m : GameMap) (useLogic : Bool) (start goal : Pos) : Option SearchOut :=
  if !(m.validPos start && m.validPos goal) then
    some ⟨[], none, 0⟩
  else
    let s0 : BFSState :=
      { queue := [start], cameFrom := [(start, none)], visited := [start]
        explored := if useLogic then 1 else 0 }
    match runLoop (bfsStep m goal useLogic) (bfsFuel m) s0 with
    | none => none
    | some s =>
      match alookup s.cameFrom goal with
      | none => some ⟨[], none, s.explored⟩
      | some _ =>
        match walkBack s.cameFrom (s.cameFrom.length + 1) goal with
        | none => none
        | some chain =>
          some ⟨chain.reverse,
                some ((chain.filter fun p => decide (p ≠ start)).length : Int),
                s.explored⟩

/-- `BFSPathfinder.get_next_move`. -/
def bfsGetNextMove (m : GameMap) (useLogic : Bool) (cur goal : Pos) : Option String :=
  (bfsFindPath m useLogic cur goal).map fun out => moveDir out.path

/-! ### `DijkstraPathfinder.find_path` (`dijkstra.py`) -/

structure DijkstraState where
  queue : List (Int × Pos)
  cameFrom : List (Pos × Option Pos)
  costSoFar : List (Pos × Int)
  visited : List Pos
  explored : Nat

/-- Relaxation of one neighbour: `new_cost = cost_so_far[current] + 1`
(`KeyError` modelled by `none`), improved entries are rewritten and pushed. -/
def dijkstraRelaxOne (cur : Pos) (t : Option DijkstraState) (np : Pos) :
    Option DijkstraState :=
  match t with
  | none => none
  | some s =>
    if np ∈ s.visited then some s
    else
      match alookup s.costSoFar cur with
      | none => none
      | some gc =>
        let newCost := gc + 1
        let improved :=
          match alookup s.costSoFar np with
          | none => true
          | some old => decide (newCost < old)
        if improved then
          some { s with
                 costSoFar := (np, newCost) :: s.costSoFar
                 cameFrom := (np, some cur) :: s.cameFrom
                 queue := s.queue ++ [(newCost, np)] }
        else some s

/-- One iteration of the Dijkstra `while queue:` loop. -/
def dijkstraStep (m : GameMap) (start goal : Pos) (useLogic : Bool)
    (s : DijkstraState) : StepRes DijkstraState :=
  match heapPop s.queue with
  | none => .done s
  | some ((_, cur), rest) =>
    if cur = goal then .done { s with queue := rest }
    else if cur ≠ start ∧ cur ∈ s.visited then .cont { s with queue := rest }
    else
      let s1 : DijkstraState :=
        if cur ∈ s.visited then { s with queue := rest }
        else
          { s with
            queue := rest
            visited := cur :: s.visited
            explored := s.explored + (if useLogic then 1 else 0) }
      match (getNeighbors m cur).foldl (dijkstraRelaxOne cur) (some s1) with
      | none => .fail
      | some s2 => .cont s2

/-- Fuel bound for the Dijkstra loop. -/
def dijkstraFuel (m : GameMap) : Nat := 6 * cellCount m + 6

/-- `DijkstraPathfinder.find_path(start, goal)`. -/
def dijkstraFindPath (m : GameMap) (useLogic : Bool) (start goal : Pos) :
    Option SearchOut :=
  if !(m.validPos start && m.validPos goal) then
    some ⟨[], none, 0⟩
  else
    let s0 : DijkstraState :=
      { queue := [(0, start)], cameFrom := [(start, none)], costSoFar := [(start, 0)]
        visited := if useLogic then [start] else []
        explored := if useLogic then 1 else 0 }
    match runLoop (dijkstraStep m start goal useLogic) (dijkstraFuel m) s0 with
    | none => none
    | some s =>
      match alookup s.cameFrom goal with
      | none => some ⟨[], none, s.explored⟩
      | some _ =>
        match walkBack s.cameFrom (s.cameFrom.length + 1) goal with
        | none => none
        | some chain =>
          match alookup s.costSoFar goal with
          | none => none
          | some c => some ⟨chain.reverse, some c, s.explored⟩

/-- `DijkstraPathfinder.get_next_move`. -/
def dijkstraGetNextMove (m : GameMap) (useLogic : Bool) (cur goal : Pos) :
    Option String :=
  (dijkstraFindPath m useLogic cur goal).map fun out => moveDir out.path

/-! ### `AStarPathfinder.find_path` (`astar.py`)

Note: `AStarPathfinder` has no `set_game_logic` method and performs no
`increment_nodes_explored()` calls, hence no `useLogic` parameter and no
`explored` component. -/

structure AStarState where
  queue : List (Int × Pos)
  cameFrom : List (Pos × Option Pos)
  gCosts : List (Pos × Int)
  visited : List Pos

structure AStarOut where
  path : List Pos
  cost : Option Int
  deriving DecidableEq, Repr

/-- A* relaxation of one neighbour; unlike Dijkstra there is no
`next_pos in visited` skip. -/
def astarRelaxOne (goal cur : Pos) (t : Option AStarState) (np : Pos) :
    Option AStarState :=
  match t with
  | none => none
  | some s =>
    match alookup s.gCosts cur with
    | none => none
    | some gc =>
      let newG := gc + 1
      let improved :=
        match alookup s.gCosts np with
        | none => true
        | some old => decide (newG < old)
      if improved then
        some { s with
               gCosts := (np, newG) :: s.gCosts
               cameFrom := (np, some cur) :: s.cameFrom
               queue := s.queue ++ [(newG + manhattan np goal, np)] }
      else some s

/-- One iteration of the A* `while queue:` loop. -/
def astarStep (m : GameMap) (goal : Pos) (s : AStarState) : StepRes AStarState :=
  match heapPop s.queue with
  | none => .done s
  | some ((_, cur), rest) =>
    if cur = goal then .done { s with queue := rest }
    else if cur ∈ s.visited then .cont { s with queue := rest }
    else
      let s1 : AStarState := { s with queue := rest, visited := cur :: s.visited }
      match (getNeighbors m cur).foldl (astarRelaxOne goal cur) (some s1) with
      | none => .fail
      | some s2 => .cont s2

/-- Fuel bound for the A* loop. -/
def astarFuel (m : GameMap) : Nat := 6 * cellCount m + 2

/-- `AStarPathfinder.find_path(start, goal)`. -/
def astarFindPath (m : GameMap) (start goal : Pos) : Option AStarOut :=
  if !(m.validPos start && m.validPos goal) then
    some ⟨[], none⟩
  else
    let s0 : AStarState :=
      { queue := [(manhattan start goal, start)], cameFrom := [(start, none)]
        gCosts := [(start, 0)], visited := [] }
    match runLoop (astarStep m goal) (astarFuel m) s0 with
    | none => none
    | some s =>
      match alookup s.cameFrom goal with
      | none => some ⟨[], none⟩
      | some _ =>
        match walkBack s.cameFrom (s.cameFrom.length + 1) goal with
        | none => none
        | some chain =>
          match alookup s.gCosts goal with
          | none => none
          | some c => some ⟨chain.reverse, some c⟩

/-- `AStarPathfinder.get_next_move`. -/
def astarGetNextMove (m : GameMap) (cur goal : Pos) : Option String :=
  (astarFindPath m cur goal).map fun out => moveDir out.path

/-! ### `GreedyBestFirstPathfinder.find_path` (`greedy_best_first.py`) -/

structure GreedyState where
  queue : List (Int × Pos)
  cameFrom : List (Pos × Option Pos)
  visited : List Pos
  explored : Nat

/-- Ascending insertion for `neighbors_with_costs.sort()` (Python's tuple
order; all entries are distinct, so the sorted list is unique). -/
def insertSorted (e : Int × Pos) : List (Int × Pos) → List (Int × Pos)
  | [] => [e]
  | x :: xs => if entryLt x e then x :: insertSorted e xs else e :: x :: xs

/-- `list.sort()` on `(heuristic, position)` entries. -/
def sortEntries (l : List (Int × Pos)) : List (Int × Pos) :=
  l.foldr insertSorted []

/-- One iteration of the greedy best-first `while queue:` loop. -/
def greedyStep (m : GameMap) (start goal : Pos) (useLogic : Bool)
    (s : GreedyState) : StepRes GreedyState :=
  match heapPop s.queue with
  | none => .done s
  | some ((_, cur), rest) =>
    if cur = goal then .done { s with queue := rest }
    else if cur ≠ start ∧ cur ∈ s.visited then .cont { s with queue := rest }
    else
      let s1 : GreedyState :=
        if cur ∈ s.visited then { s with queue := rest }
        else
          { s with
            queue := rest
            visited := cur :: s.visited
            explored := s.explored + (if useLogic then 1 else 0) }
      let nwc := ((getNeighbors m cur).filter fun np => decide (np ∉ s1.visited)).map
        fun np => (manhattan np goal, np)
      let s2 := (sortEntries nwc).foldl
        (fun t e =>
          let np := e.2
          if np ∉ t.visited ∧ np ∉ akeys t.cameFrom then
            { t with
              cameFrom := (np, some cur) :: t.cameFrom
              queue := t.queue ++ [(manhattan np goal, np)] }
          else t)
        s1
      .cont s2

/-- Fuel bound for the greedy best-first loop. -/
def greedyFuel (m : GameMap) : Nat := 3 * cellCount m + 2

/-- `GreedyBestFirstPathfinder.find_path(start, goal)`. -/
def greedyFindPath (m : GameMap) (useLogic : Bool) (start goal : Pos) :
    Option SearchOut :=
  if !(m.validPos start && m.validPos goal) then
    some ⟨[], none, 0⟩
  else
    let s0 : GreedyState :=
      { queue := [(manhattan start goal, start)], cameFrom := [(start, none)]
        visited := if useLogic then [start] else []
        explored := if useLogic then 1 else 0 }
    match runLoop (greedyStep m start goal useLogic) (greedyFuel m) s0 with
    | none => none
    | some s =>
      match alookup s.cameFrom goal with
      | none => some ⟨[], none, s.explored⟩
      | some _ =>
        match walkBack s.cameFrom (s.cameFrom.length + 1) goal with
        | none => none
        | some chain =>
          some ⟨chain.reverse,
                some ((chain.filter fun p => decide (p ≠ start)).length : Int),
                s.explored⟩

/-- `GreedyBestFirstPathfinder.get_next_move`. -/
def greedyGetNextMove (m : GameMap) (useLogic : Bool) (cur goal : Pos) :
    Option String :=
  (greedyFindPath m useLogic cur goal).map fun out => moveDir out.path

/-! ### `MetricsManager` (`game/metrics_manager.py`)

Python floats are modelled by `ℚ`, timestamps (`datetime.now()`) by a rational
clock value passed explicitly to the operations that read the clock.  The
nested `Dict[str, Dict[str, AlgorithmMetrics]]` keyed by the `.name` strings of
the two enums is modelled as one partial map keyed by the enums themselves
(the enum names are distinct, and an inner dict exists exactly when some run
for that maze was recorded or loaded). -/

/-- `config/types.py`: `AlgorithmType`. -/
inductive AlgorithmType where
  | manual | astar | dijkstra | gbfs | bfs | ql | dqn | sarsa
  deriving DecidableEq, Repr

/-- `config/types.py`: `TestScenario`. -/
inductive TestScenario where
  | diagonal | snake | openMaze | bottleneck
  deriving DecidableEq, Repr

/-- `RunMetrics` dataclass: one record per run, field for field. -/
structure RunMetrics where
  algorithm : AlgorithmType
  mazeType : TestScenario
  startTime : ℚ
  endTime : Option ℚ := none
  pathLength : Int := 0
  nodesExplored : Int := 0
  success : Bool := false
  score : ℚ := 0
  completionTime : ℚ := 0
  remainingTime : Int := 0
  totalTime : Int := 0
  timeTaken : ℚ := 0
  stepsPerSecond : ℚ := 0
  explorationEfficiency : ℚ := 0
  memoryStartMb : ℚ := 0
  memoryPeakMb : ℚ := 0
  memoryIncreaseMb : ℚ := 0
  deriving DecidableEq

/-- `AlgorithmMetrics` dataclass.  The `float('inf')` initial values of
`min_path_length` and `fastest_completion` are modelled by `none`. -/
structure AlgorithmMetrics where
  totalRuns : Int := 0
  successfulRuns : Int := 0
  avgPathLength : ℚ := 0
  avgCompletionTime : ℚ := 0
  avgNodesExplored : ℚ := 0
  avgScore : ℚ := 0
  avgStepsPerSecond : ℚ := 0
  avgExplorationEfficiency : ℚ := 0
  minPathLength : Option Int := none
  maxPathLength : Int := 0
  fastestCompletion : Option ℚ := none
  slowestCompletion : ℚ := 0
  bestScore : ℚ := 0
  memoryStartMb : ℚ := 0
  memoryPeakMb : ℚ := 0
  memoryIncreaseMb : ℚ := 0
  runs : List RunMetrics := []
  deriving DecidableEq

/-- `statistics.mean` (only ever applied to non-empty lists, guarded by
`if successful_runs:`). -/
def listMean (l : List ℚ) : ℚ := l.sum / l.length

/-- Python `min` over a non-empty list of ints (the empty case is unreachable
behind the same guard). -/
def intListMin : List Int → Int
  | [] => 0
  | x :: xs => xs.foldl min x

/-- Python `max` over a non-empty list of ints. -/
def intListMax : List Int → Int
  | [] => 0
  | x :: xs => xs.foldl max x

/-- Python `min` over a non-empty list of floats. -/
def ratListMin : List ℚ → ℚ
  | [] => 0
  | x :: xs => xs.foldl min x

/-- Python `max` over a non-empty list of floats. -/
def ratListMax : List ℚ → ℚ
  | [] => 0
  | x :: xs => xs.foldl max x

/-- Python `round` rounds half to even. -/
def roundHalfEven (q : ℚ) : Int :=
  let f := ⌊q⌋
  let r := q - f
  if r < 1 / 2 then f
  else if 1 / 2 < r then f + 1
  else if Even f then f else f + 1

/-- Python `round(x, 2)`. -/
def pyRound2 (q : ℚ) : ℚ := (roundHalfEven (q * 100) : ℚ) / 100

/-- `MetricsManager._update_averages`: recompute every aggregate field from
the successful subset of the stored runs; a no-op when no run succeeded. -/
def updateAverages (am : AlgorithmMetrics) : AlgorithmMetrics :=
  let succ := am.runs.filter (·.success)
  if succ.isEmpty then am
  else
    { am with
      avgPathLength := listMean (succ.map fun r => (r.pathLength : ℚ))
      avgCompletionTime := listMean (succ.map (·.completionTime))
      avgNodesExplored := listMean (succ.map fun r => (r.nodesExplored : ℚ))
      avgScore := listMean (succ.map (·.score))
      avgStepsPerSecond := listMean (succ.map (·.stepsPerSecond))
      avgExplorationEfficiency := listMean (succ.map (·.explorationEfficiency))
      minPathLength := some (intListMin (succ.map (·.pathLength)))
      maxPathLength := intListMax (succ.map (·.pathLength))
      fastestCompletion := some (ratListMin (succ.map (·.completionTime)))
      slowestCompletion := ratListMax (succ.map (·.completionTime))
      bestScore := ratListMax (succ.map (·.score))
      memoryStartMb := listMean (succ.map (·.memoryStartMb))
      memoryPeakMb := ratListMax (succ.map (·.memoryPeakMb))
      memoryIncreaseMb := listMean (succ.map (·.memoryIncreaseMb)) }

/-- The `MetricsManager` state: the aggregate table and the open run.
(`save_file` and the on-disk copy written by `save_metrics` do not influence
any in-memory behaviour and are not part of the state.) -/
structure MetricsManager where
  metrics : TestScenario → AlgorithmType → Option AlgorithmMetrics
  currentRun : Option RunMetrics

/-- The state `__init__` builds before `load_metrics` runs. -/
def emptyMetricsManager : MetricsManager :=
  { metrics := fun _ _ => none, currentRun := none }

/-- `MetricsManager.start_run`: open a fresh record stamped with the clock. -/
def MetricsManager.startRun (mm : MetricsManager) (algorithm : AlgorithmType)
    (mazeType : TestScenario) (now : ℚ) : MetricsManager :=
  { mm with currentRun := some { algorithm := algorithm, mazeType := mazeType, startTime := now } }

/-- `MetricsManager.update_run`: overwrite the open record's running fields
and recompute the derived ones. -/
def MetricsManager.updateRun (mm : MetricsManager) (nodesExplored pathLength : Int)
    (timeTaken : ℚ) (remainingTime totalTime : Int)
    (memoryStats : Option (ℚ × ℚ × ℚ)) : MetricsManager :=
  match mm.currentRun with
  | none => mm
  | some run =>
    let run := { run with
                 nodesExplored := nodesExplored
                 pathLength := pathLength
                 timeTaken := timeTaken
                 remainingTime := remainingTime
                 totalTime := totalTime }
    let run :=
      match memoryStats with
      | some (s, p, i) =>
        { run with memoryStartMb := s, memoryPeakMb := p, memoryIncreaseMb := i }
      | none => run
    let run :=
      if 0 < timeTaken then { run with stepsPerSecond := (pathLength : ℚ) / timeTaken }
      else run
    let run :=
      if 0 < nodesExplored then
        { run with
          explorationEfficiency := pyRound2 (((pathLength : ℚ) / (nodesExplored : ℚ)) * 1000) }
      else run
    { mm with currentRun := some run }

/-- `MetricsManager.end_run`: stamp and close the open record, append it to
the per-(maze, algorithm) history, bump the counters, recompute the
aggregates, and clear the open record.  (`save_metrics` then writes the file;
that write has no effect on the in-memory state.) -/
def MetricsManager.endRun (mm : MetricsManager) (success : Bool) (score : ℚ)
    (now : ℚ) : MetricsManager :=
  match mm.currentRun with
  | none => mm
  | some run =>
    let run := { run with
                 endTime := some now
                 success := success
                 score := score
                 completionTime := now - run.startTime }
    let am := (mm.metrics run.mazeType run.algorithm).getD {}
    let am := { am with totalRuns := am.totalRuns + 1 }
    let am := if success then { am with successfulRuns := am.successfulRuns + 1 } else am
    let am := updateAverages { am with runs := am.runs ++ [run] }
    { metrics := fun mz al =>
        if mz = run.mazeType ∧ al = run.algorithm then some am else mm.metrics mz al
      currentRun := none }

/-- `MetricsManager.get_algorithm_performance`:
`self.metrics.get(maze_key, {}).get(algo_key)`. -/
def MetricsManager.getAlgorithmPerformance (mm : MetricsManager)
    (algorithm : AlgorithmType) (mazeType : TestScenario) : Option AlgorithmMetrics :=
  mm.metrics mazeType algorithm

/-- One persisted JSON object for one (maze, algorithm) pair, as read back by
`load_metrics` (each `metrics_data.get(key, default)` becomes an optional
field). -/
structure SavedAlgoData where
  totalRuns : Option Int := none
  successfulRuns : Option Int := none
  avgPathLength : Option ℚ := none
  avgCompletionTime : Option ℚ := none
  avgNodesExplored : Option ℚ := none
  avgScore : Option ℚ := none
  avgStepsPerSecond : Option ℚ := none
  avgExplorationEfficiency : Option ℚ := none
  memoryStartMb : Option ℚ := none
  memoryPeakMb : Option ℚ := none
  memoryIncreaseMb : Option ℚ := none

/-- The three states of the persisted metrics file as seen by `load_metrics`:
absent (`open` raises `FileNotFoundError`, which is caught), present but not
valid JSON (`json.load` raises `json.JSONDecodeError`), or parsed data. -/
inductive MetricsFile where
  | missing
  | malformed
  | parsed (data : List (TestScenario × List (AlgorithmType × SavedAlgoData)))

/-- Rebuild one `AlgorithmMetrics` from a saved object (`load_metrics` does
not restore `runs` nor the min/max/fastest/slowest/best fields). -/
def ofSavedAlgoData (d : SavedAlgoData) : AlgorithmMetrics :=
  { totalRuns := d.totalRuns.getD 0
    successfulRuns := d.successfulRuns.getD 0
    avgPathLength := d.avgPathLength.getD 0
    avgCompletionTime := d.avgCompletionTime.getD 0
    avgNodesExplored := d.avgNodesExplored.getD 0
    avgScore := d.avgScore.getD 0
    avgStepsPerSecond := d.avgStepsPerSecond.getD 0
    avgExplorationEfficiency := d.avgExplorationEfficiency.getD 0
    memoryStartMb := d.memoryStartMb.getD 0
    memoryPeakMb := d.memoryPeakMb.getD 0
    memoryIncreaseMb := d.memoryIncreaseMb.getD 0 }

/-- `MetricsManager.load_metrics`: `FileNotFoundError` is caught (`pass`);
a parse failure of `json.load` is **not** caught and propagates
(`Except.error`); parsed data replaces each listed maze's table. -/
def loadMetrics (mm : MetricsManager) (file : MetricsFile) :
    Except String MetricsManager :=
  match file with
  | .missing => .ok mm
  | .malformed => .error "json.decoder.JSONDecodeError"
  | .parsed data =>
    .ok (data.foldl
      (fun acc entry =>
        { acc with metrics := fun mz al =>
            if mz = entry.1 then
              (entry.2.find? fun ad => ad.1 = al).map fun ad => ofSavedAlgoData ad.2
            else acc.metrics mz al })
      mm)

/-- `MetricsManager.__init__`: build the empty state, then `load_metrics`. -/
def initMetricsManager (file : MetricsFile) : Except String MetricsManager :=
  loadMetrics emptyMetricsManager file

/-! ### Tabular agents (`q_learning.py`, `sarsa.py`)

Randomness (`np.random.random`, `np.random.choice`, the Gaussian tie-breaking
noise) is modelled by explicit inputs; the learning table and the state
featurization (whose string key involves `np.arctan2` and is irrelevant to
every property below) are abstract parameters.  `none` models an uncaught
`ValueError`. -/

/-- `action_deltas`, in the dictionary's (insertion) iteration order. -/
def actionDeltas : List (String × (Int × Int)) :=
  [("right", (1, 0)), ("left", (-1, 0)), ("down", (0, 1)), ("up", (0, -1))]

/-- `get_valid_actions(state)`, identical in both agents: the actions whose
displacement lands in-bounds on a non-obstacle cell. -/
def getValidActions (m : GameMap) (state : Pos) : List String :=
  actionDeltas.foldl
    (fun acc ad =>
      if m.validPos (state.1 + ad.2.1, state.2 + ad.2.2) then acc ++ [ad.1] else acc)
    []

/-- Python `max(items, key=lambda x: x[1])`: the first item with the maximal
value; `none` models the `ValueError` on an empty sequence. -/
def maxBySnd (l : List (String × ℚ)) : Option String :=
  match l with
  | [] => none
  | x :: xs => some (xs.foldl (fun b y => if b.2 < y.2 then y else b) x).1

/-- `np.random.choice(valid_actions)` with the draw supplied as an index;
`none` models the `ValueError` raised on an empty list. -/
def npChoice (l : List String) (idx : Nat) : Option String :=
  match l with
  | [] => none
  | _ => l.get? (idx % l.length)

/-- `QLearningPathfinder.choose_action`.  `randVal` is the `np.random.random()`
draw, `pickIdx` resolves `np.random.choice`, `noise` the per-action Gaussian
tie-breaking draw, `features` the state featurization and `qtable` the learning
table. -/
def qlChooseAction (epsilon : ℚ) (features : Pos → Pos → String) (qtable : String → String → ℚ)
    (currentGoal : Pos) (randVal : ℚ) (pickIdx : Nat) (noise : String → ℚ) (state : Pos)
    (validActions : List String) : Option String :=
  if randVal < epsilon then
    npChoice validActions pickIdx
  else
    let sk := features state currentGoal
    maxBySnd (validActions.map fun a => (a, qtable sk a + noise a))

/-- Count of blocked orthogonal neighbours of `(x, y)` used by SARSA's safety
bias (the generator inside `choose_action`). -/
def nearbyWalls (m : GameMap) (p : Pos) : Nat :=
  ([((0 : Int), (1 : Int)), (0, -1), (1, 0), (-1, 0)].filter fun d =>
    !(m.validPos (p.1 + d.1, p.2 + d.2))).length

/-- `SARSAPathfinder.PARAMS['SAFETY_FACTOR']`. -/
def sarsaSafetyFactor : ℚ := 8 / 10

/-- `SARSAPathfinder.choose_action`: epsilon branch as in Q-learning, else the
argmax over Q-values scaled by `SAFETY_FACTOR ** nearby_walls`. -/
def sarsaChooseAction (m : GameMap) (epsilon : ℚ) (features : Pos → Pos → String)
    (qtable : String → String → ℚ) (currentGoal : Pos) (randVal : ℚ) (pickIdx : Nat)
    (state : Pos) (validActions : List String) : Option String :=
  if randVal < epsilon then
    npChoice validActions pickIdx
  else
    let sk := features state currentGoal
    maxBySnd (validActions.map fun a =>
      match actionDeltas.find? (fun ad => ad.1 = a) with
      | none => (a, qtable sk a)
      | some ad =>
        (a, qtable sk a *
          sarsaSafetyFactor ^ nearbyWalls m (state.1 + ad.2.1, state.2 + ad.2.2)))

/-- Python `list` bookkeeping of `previous_states` shared by both
`get_next_move` implementations: drop the oldest entry at capacity, then
append the current position. -/
def pushPrevious (maxLen : Nat) (prev : List Pos) (p : Pos) : List Pos :=
  (if maxLen ≤ prev.length then prev.drop 1 else prev) ++ [p]

/-- `QLearningPathfinder.get_next_move`: no exploration branch — q-values of
the valid actions with an anti-oscillation second-best override; `max` of an
empty dict raises (`none`).  Returns the action and the updated
`previous_states`. -/
def qlGetNextMove (features : Pos → Pos → String) (qtable : String → String → ℚ)
    (m : GameMap) (prev : List Pos) (cur goal : Pos) :
    Option String × List Pos :=
  let prev' := pushPrevious 10 prev cur
  let validActions := getValidActions m cur
  let sk := features cur goal
  let qvals := validActions.map fun a => (a, qtable sk a)
  let pick :=
    if 3 ≤ prev'.length ∧ (prev'.drop (prev'.length - 3)).all (fun p => p = cur) then
      let sorted := qvals.mergeSort fun a b => b.2 ≤ a.2
      if 1 < sorted.length then (sorted.get? 1).map (·.1)
      else maxBySnd qvals
    else maxBySnd qvals
  (pick, prev')

/-- `SARSAPathfinder.get_next_move`: update `previous_states`, then delegate
to `choose_action` on the valid actions. -/
def sarsaGetNextMove (epsilon : ℚ) (features : Pos → Pos → String)
    (qtable : String → String → ℚ) (randVal : ℚ) (pickIdx : Nat) (m : GameMap)
    (prev : List Pos) (cur goal : Pos) : Option String × List Pos :=
  let prev' := pushPrevious 10 prev cur
  let validActions := getValidActions m cur
  (sarsaChooseAction m epsilon features qtable goal randVal pickIdx cur validActions, prev')

/-! ### The epsilon schedule (`train`, both agents) -/

/-- Constructor logic `self.epsilon = epsilon_start or PARAMS['EPSILON_START']`:
`None` and `0.0` fall back to the default `1.0`. -/
def initEpsilon (epsilonStart : Option ℚ) : ℚ :=
  match epsilonStart with
  | none => 1
  | some v => if v = 0 then 1 else v

/-- Per-episode decay in `QLearningPathfinder.train`:
`epsilon = max(EPSILON_MIN, epsilon * EPSILON_DECAY)` with floor `0.001` and
decay `0.995`. -/
def qlDecayEpsilon (e : ℚ) : ℚ := max (1 / 1000) (e * (995 / 1000))

/-- Per-episode decay in `SARSAPathfinder.train`: floor `0.01`, decay `0.995`. -/
def sarsaDecayEpsilon (e : ℚ) : ℚ := max (1 / 100) (e * (995 / 1000))

/-- The epsilon value before episode `n` of Q-learning training, for a
configured initial value. -/
def qlEpsilonSeq (epsilonStart : Option ℚ) : Nat → ℚ
  | 0 => initEpsilon epsilonStart
  | n + 1 => qlDecayEpsilon (qlEpsilonSeq epsilonStart n)

/-- The epsilon value before episode `n` of SARSA training. -/
def sarsaEpsilonSeq (epsilonStart : Option ℚ) : Nat → ℚ
  | 0 => initEpsilon epsilonStart
  | n + 1 => sarsaDecayEpsilon (sarsaEpsilonSeq epsilonStart n)

/-! ### The instrumentation surface (claim about `set_game_logic`) -/

/-- The six navigation strategies. -/
inductive Strategy where
  | bfs | dijkstra | astar | greedy | qlearning | sarsa
  deriving DecidableEq, Repr

/-- Which strategy classes define a `set_game_logic` method: every class but
`AStarPathfinder` (`astar.py` defines neither the method nor a `game_logic`
attribute, and makes no `increment_nodes_explored()` calls). -/
def hasSetGameLogic : Strategy → Bool
  | .bfs => true
  | .dijkstra => true
  | .astar => false
  | .greedy => true
  | .qlearning => true
  | .sarsa => true

/-! ## Claim theorems: instrumentation surface, degenerate agent state,
epsilon schedule, persistence loading -/

/-- C3.  The claim that **every** one of the six strategies exposes
`set_game_logic` fails: `AStarPathfinder` defines no such method (and makes no
`increment_nodes_explored()` calls), while the other five classes do define
it.  `game_runner._init_pathfinder` nevertheless calls `set_game_logic` on
every strategy it constructs, so selecting A* raises `AttributeError`. -/
theorem claim3_astar_has_no_hook :
    hasSetGameLogic Strategy.astar = false ∧
    hasSetGameLogic Strategy.bfs = true ∧
    hasSetGameLogic Strategy.dijkstra = true ∧
    hasSetGameLogic Strategy.greedy = true ∧
    hasSetGameLogic Strategy.qlearning = true ∧
    hasSetGameLogic Strategy.sarsa = true := by
  decide

/-- C5.  When `get_valid_actions` is empty (a fully enclosed cell), action
selection in both agents fails — `np.random.choice([])` in the exploration
branch and `max()` over an empty dictionary in the exploitation branch both
raise `ValueError` (modelled by `none`) — instead of yielding an idle/no-op
action; the same failure propagates through both public `get_next_move`
methods. -/
theorem claim5_empty_actions_fail (m : GameMap) (eps : ℚ)
    (features : Pos → Pos → String) (qtable : String → String → ℚ) (g : Pos)
    (r : ℚ) (idx : Nat) (noise : String → ℚ) (p : Pos) (prev : List Pos) :
    qlChooseAction eps features qtable g r idx noise p [] = none ∧
    sarsaChooseAction m eps features qtable g r idx p [] = none ∧
    (getValidActions m p = [] →
      (qlGetNextMove features qtable m prev p g).1 = none ∧
      (sarsaGetNextMove eps features qtable r idx m prev p g).1 = none) := by
  refine ⟨?_, ?_, fun hva => ⟨?_, ?_⟩⟩
  · unfold qlChooseAction
    split <;> rfl
  · unfold sarsaChooseAction
    split <;> rfl
  · unfold qlGetNextMove
    simp only [hva, List.map_nil]
    split
    · simp [maxBySnd]
    · rfl
  · unfold sarsaGetNextMove sarsaChooseAction
    simp only [hva, List.map_nil]
    split <;> rfl

/-- Witness for C5: the single cell of a free 1×1 grid is fully enclosed by
the boundary, `get_valid_actions` is empty there, and both agents' action
selection and `get_next_move` fail. -/
theorem claim5_empty_actions_fail_witness :
    getValidActions ⟨1, 1, fun _ _ => false⟩ (0, 0) = [] ∧
    qlChooseAction (1 / 2) (fun _ _ => "") (fun _ _ => 0) (0, 0) (3 / 4) 0
      (fun _ => 0) (0, 0) [] = none ∧
    (qlGetNextMove (fun _ _ => "") (fun _ _ => 0) ⟨1, 1, fun _ _ => false⟩ []
      (0, 0) (0, 0)).1 = none ∧
    (sarsaGetNextMove (1 / 2) (fun _ _ => "") (fun _ _ => 0) (3 / 4) 0
      ⟨1, 1, fun _ _ => false⟩ [] (0, 0) (0, 0)).1 = none := by
  have h := claim5_empty_actions_fail ⟨1, 1, fun _ _ => false⟩ (1 / 2)
    (fun _ _ => "") (fun _ _ => 0) (0, 0) (3 / 4) 0 (fun _ => 0) (0, 0) []
  have hva : getValidActions ⟨1, 1, fun _ _ => false⟩ (0, 0) = [] := by decide
  exact ⟨hva, h.1, (h.2.2 hva).1, (h.2.2 hva).2⟩

/-- C7 counterexample.  Epsilon is **not** non-increasing for every configured
initial epsilon: an initial value below the agent's floor is raised to the
floor by the first decay (`max(EPSILON_MIN, ...)`), so the sequence increases
from episode 0 to episode 1 (Q-learning with `epsilon_start = 1/2000 <
0.001`, SARSA with `epsilon_start = 1/200 < 0.01`). -/
theorem claim7_counterexample :
    qlEpsilonSeq (some (1 / 2000)) 0 < qlEpsilonSeq (some (1 / 2000)) 1 ∧
    sarsaEpsilonSeq (some (1 / 200)) 0 < sarsaEpsilonSeq (some (1 / 200)) 1 := by
  constructor
  · show initEpsilon (some (1 / 2000)) < qlDecayEpsilon (initEpsilon (some (1 / 2000)))
    have h : initEpsilon (some (1 / 2000)) = 1 / 2000 := by norm_num [initEpsilon]
    rw [h, qlDecayEpsilon, lt_max_iff]
    left; norm_num
  · show initEpsilon (some (1 / 200)) < sarsaDecayEpsilon (initEpsilon (some (1 / 200)))
    have h : initEpsilon (some (1 / 200)) = 1 / 200 := by norm_num [initEpsilon]
    rw [h, sarsaDecayEpsilon, lt_max_iff]
    left; norm_num

/-- C7 (amended).  For both agents: every post-decay epsilon is at least the
agent's floor (`EPSILON_MIN`), and the sequence is non-increasing from each
episode to the next provided the configured initial epsilon is at least the
floor — in particular for the default `EPSILON_START = 1.0`. -/
theorem claim7_amended (e0 : ℚ) (n : Nat) :
    (1 / 1000 ≤ e0 → qlEpsilonSeq (some e0) (n + 1) ≤ qlEpsilonSeq (some e0) n) ∧
    1 / 1000 ≤ qlEpsilonSeq (some e0) (n + 1) ∧
    (1 / 100 ≤ e0 → sarsaEpsilonSeq (some e0) (n + 1) ≤ sarsaEpsilonSeq (some e0) n) ∧
    1 / 100 ≤ sarsaEpsilonSeq (some e0) (n + 1) := by
  have hql : ∀ e : ℚ, 1 / 1000 ≤ e → qlDecayEpsilon e ≤ e := by
    intro e he
    have h0 : (0 : ℚ) ≤ e := le_trans (by norm_num) he
    have : e * (995 / 1000) ≤ e := by nlinarith
    exact max_le he this
  have hsar : ∀ e : ℚ, 1 / 100 ≤ e → sarsaDecayEpsilon e ≤ e := by
    intro e he
    have h0 : (0 : ℚ) ≤ e := le_trans (by norm_num) he
    have : e * (995 / 1000) ≤ e := by nlinarith
    exact max_le he this
  have hqfloor : ∀ e : ℚ, 1 / 1000 ≤ qlDecayEpsilon e := fun e => le_max_left _ _
  have hsfloor : ∀ e : ℚ, 1 / 100 ≤ sarsaDecayEpsilon e := fun e => le_max_left _ _
  have hinit : 1 / 1000 ≤ e0 → initEpsilon (some e0) = e0 := by
    intro he
    have : e0 ≠ 0 := by intro h; rw [h] at he; norm_num at he
    simp [initEpsilon, this]
  have hinit' : 1 / 100 ≤ e0 → initEpsilon (some e0) = e0 := by
    intro he
    have : e0 ≠ 0 := by intro h; rw [h] at he; norm_num at he
    simp [initEpsilon, this]
  refine ⟨fun he => ?_, ?_, fun he => ?_, ?_⟩
  · cases n with
    | zero =>
      show qlDecayEpsilon (initEpsilon (some e0)) ≤ initEpsilon (some e0)
      rw [hinit he]; exact hql e0 he
    | succ k =>
      exact hql _ (hqfloor (qlEpsilonSeq (some e0) k))
  · exact hqfloor _
  · cases n with
    | zero =>
      show sarsaDecayEpsilon (initEpsilon (some e0)) ≤ initEpsilon (some e0)
      rw [hinit' he]; exact hsar e0 he
    | succ k =>
      exact hsar _ (hsfloor (sarsaEpsilonSeq (some e0) k))
  · exact hsfloor _

/-- Witness for C7 (amended), at the default initial epsilon `1.0`. -/
theorem claim7_amended_witness :
    qlEpsilonSeq (some 1) 1 ≤ qlEpsilonSeq (some 1) 0 ∧
    (1 : ℚ) / 1000 ≤ qlEpsilonSeq (some 1) 1 ∧
    sarsaEpsilonSeq (some 1) 1 ≤ sarsaEpsilonSeq (some 1) 0 ∧
    (1 : ℚ) / 100 ≤ sarsaEpsilonSeq (some 1) 1 := by
  have h := claim7_amended 1 0
  exact ⟨h.1 (by norm_num), h.2.1, h.2.2.1 (by norm_num), h.2.2.2⟩

/-- C8 counterexample.  Construction with a present-but-unparseable metrics
file **does** raise: `load_metrics` catches only `FileNotFoundError`, so the
`json.JSONDecodeError` from `json.load` propagates out of `__init__`. -/
theorem claim8_counterexample :
    initMetricsManager MetricsFile.malformed =
      Except.error "json.decoder.JSONDecodeError" := rfl

/-- C8 (amended).  A missing metrics file is tolerated: construction succeeds
with an empty aggregate table (and loading parsed data also succeeds); only a
present-but-corrupt file raises. -/
theorem claim8_amended :
    initMetricsManager MetricsFile.missing = Except.ok emptyMetricsManager ∧
    ∀ data, ∃ mm, initMetricsManager (MetricsFile.parsed data) = Except.ok mm := by
  exact ⟨rfl, fun data => ⟨_, rfl⟩⟩

/-! ## Recorded run histories (claims C4 and C6)

The driving loop records one run as `start_run`, some `update_run` calls
(whose per-field last write wins — one suffices for the final values), then
`end_run`. -/

/-- The externally supplied data of one complete run. -/
structure RunSpec where
  algorithm : AlgorithmType
  mazeType : TestScenario
  tStart : ℚ
  tEnd : ℚ
  nodesExplored : Int
  pathLength : Int
  timeTaken : ℚ
  remainingTime : Int
  totalTime : Int
  success : Bool
  score : ℚ

/-- `start_run`; `update_run`; `end_run` for one run. -/
def recordRun (mm : MetricsManager) (r : RunSpec) : MetricsManager :=
  ((mm.startRun r.algorithm r.mazeType r.tStart).updateRun r.nodesExplored r.pathLength
    r.timeTaken r.remainingTime r.totalTime none).endRun r.success r.score r.tEnd

/-- A whole sequence of recorded runs. -/
def recordRuns (mm : MetricsManager) (l : List RunSpec) : MetricsManager :=
  l.foldl recordRun mm

/-- The `RunMetrics` record that `recordRun` stores. -/
def runOf (r : RunSpec) : RunMetrics :=
  { algorithm := r.algorithm
    mazeType := r.mazeType
    startTime := r.tStart
    endTime := some r.tEnd
    pathLength := r.pathLength
    nodesExplored := r.nodesExplored
    success := r.success
    score := r.score
    completionTime := r.tEnd - r.tStart
    remainingTime := r.remainingTime
    totalTime := r.totalTime
    timeTaken := r.timeTaken
    stepsPerSecond :=
      if 0 < r.timeTaken then (r.pathLength : ℚ) / r.timeTaken else 0
    explorationEfficiency :=
      if 0 < r.nodesExplored then
        pyRound2 (((r.pathLength : ℚ) / (r.nodesExplored : ℚ)) * 1000)
      else 0 }

/-- The aggregate update `end_run` performs on one `(maze, algorithm)` entry. -/
def bumpAggregate (am : AlgorithmMetrics) (run : RunMetrics) (success : Bool) :
    AlgorithmMetrics :=
  let am := { am with totalRuns := am.totalRuns + 1 }
  let am := if success then { am with successfulRuns := am.successfulRuns + 1 } else am
  updateAverages { am with runs := am.runs ++ [run] }

/-- The runs of the sequence belonging to one `(algorithm, maze)` pair. -/
def pairRuns (l : List RunSpec) (a : AlgorithmType) (mz : TestScenario) :
    List RunSpec :=
  l.filter fun r => decide (r.algorithm = a) && decide (r.mazeType = mz)

/-- The aggregate record determined by a pair's run history. -/
def aggOfSpec (prs : List RunSpec) : AlgorithmMetrics :=
  updateAverages
    { totalRuns := (prs.length : Int)
      successfulRuns := ((prs.filter (·.success)).length : Int)
      runs := prs.map runOf }

theorem recordRun_metrics (mm : MetricsManager) (r : RunSpec) (mz : TestScenario)
    (al : AlgorithmType) :
    (recordRun mm r).metrics mz al =
      if mz = r.mazeType ∧ al = r.algorithm then
        some (bumpAggregate ((mm.metrics r.mazeType r.algorithm).getD {}) (runOf r)
          r.success)
      else mm.metrics mz al := by
  simp only [recordRun, MetricsManager.startRun, MetricsManager.updateRun,
    MetricsManager.endRun, bumpAggregate, runOf]
  split_ifs <;> rfl

theorem updateAverages_totalRuns (am : AlgorithmMetrics) :
    (updateAverages am).totalRuns = am.totalRuns := by
  simp only [updateAverages]; split <;> rfl

theorem updateAverages_successfulRuns (am : AlgorithmMetrics) :
    (updateAverages am).successfulRuns = am.successfulRuns := by
  simp only [updateAverages]; split <;> rfl

theorem updateAverages_runs (am : AlgorithmMetrics) :
    (updateAverages am).runs = am.runs := by
  simp only [updateAverages]; split <;> rfl

theorem updateAverages_of_no_success (am : AlgorithmMetrics)
    (h : am.runs.filter (·.success) = []) : updateAverages am = am := by
  unfold updateAverages
  simp [h]

theorem updateAverages_idem (am : AlgorithmMetrics) :
    updateAverages (updateAverages am) = updateAverages am := by
  by_cases h : am.runs.filter (·.success) = []
  · rw [updateAverages_of_no_success am h, updateAverages_of_no_success am h]
  · have h' : (am.runs.filter (·.success)).isEmpty = false := by
      cases hl : am.runs.filter (·.success) with
      | nil => exact absurd hl h
      | cons x xs => rfl
    simp only [updateAverages, h']
    simp

/-- The invariant tying one `(maze, algorithm)` table entry to the pair's
recorded history. -/
def EntryInv (prs : List RunSpec) (e : Option AlgorithmMetrics) : Prop :=
  match prs with
  | [] => e = none
  | _ =>
    ∃ am, e = some am ∧
      am.totalRuns = (prs.length : Int) ∧
      am.successfulRuns = ((prs.filter (·.success)).length : Int) ∧
      am.runs = prs.map runOf ∧
      updateAverages am = am ∧
      (prs.filter (·.success) = [] →
        am.avgPathLength = 0 ∧ am.minPathLength = none ∧ am.maxPathLength = 0)

theorem runOf_success (r : RunSpec) : (runOf r).success = r.success := rfl

theorem filter_map_runOf (l : List RunSpec) :
    (l.map runOf).filter (·.success) = (l.filter (·.success)).map runOf := by
  induction l with
  | nil => rfl
  | cons r t ih =>
    by_cases h : r.success <;>
      simp [List.filter_cons, List.map_cons, runOf_success, h, ih]

theorem bumpAggregate_fields (am : AlgorithmMetrics) (run : RunMetrics) (b : Bool) :
    (bumpAggregate am run b).totalRuns = am.totalRuns + 1 ∧
    (bumpAggregate am run b).successfulRuns =
      am.successfulRuns + (if b then 1 else 0) ∧
    (bumpAggregate am run b).runs = am.runs ++ [run] ∧
    updateAverages (bumpAggregate am run b) = bumpAggregate am run b := by
  unfold bumpAggregate
  cases b <;>
    simp [updateAverages_totalRuns, updateAverages_successfulRuns,
      updateAverages_runs, updateAverages_idem]

theorem bumpAggregate_untouched (am : AlgorithmMetrics) (run : RunMetrics)
    (b : Bool) (h : (am.runs ++ [run]).filter (·.success) = []) :
    (bumpAggregate am run b).avgPathLength = am.avgPathLength ∧
    (bumpAggregate am run b).minPathLength = am.minPathLength ∧
    (bumpAggregate am run b).maxPathLength = am.maxPathLength := by
  cases b <;>
  · unfold bumpAggregate
    rw [updateAverages_of_no_success _ (by simpa using h)]
    exact ⟨rfl, rfl, rfl⟩

theorem entryInv_step (prs : List RunSpec) (e : Option AlgorithmMetrics)
    (r : RunSpec) (h : EntryInv prs e) :
    EntryInv (prs ++ [r])
      (some (bumpAggregate (e.getD {}) (runOf r) r.success)) := by
  obtain ⟨h1, h2, h3, h4⟩ := bumpAggregate_fields (e.getD {}) (runOf r) r.success
  have huntouched : ∀ hse : ((prs ++ [r]).filter (·.success)) = [],
      (e.getD {}).runs = prs.map runOf →
      ((e.getD {}).runs ++ [runOf r]).filter (·.success) = [] := by
    intro hse hruns
    rw [hruns, show [runOf r] = List.map runOf [r] from rfl, ← List.map_append,
      filter_map_runOf, hse]
    rfl
  cases prs with
  | nil =>
    simp only [EntryInv] at h
    subst h
    refine ⟨_, rfl, ?_, ?_, ?_, h4, ?_⟩
    · rw [h1]; rfl
    · rw [h2]
      cases hr : r.success <;> simp [List.filter_cons, hr]
    · rw [h3]; rfl
    · intro hse
      simp only [Option.getD_none] at huntouched ⊢
      obtain ⟨u1, u2, u3⟩ := bumpAggregate_untouched {} (runOf r) r.success
        (huntouched hse rfl)
      exact ⟨by rw [u1], by rw [u2], by rw [u3]⟩
  | cons p t =>
    obtain ⟨am, he, htot, hsucc, hruns, hidem, hdefaults⟩ := h
    subst he
    simp only [Option.getD_some] at h1 h2 h3 h4 huntouched ⊢
    refine ⟨_, rfl, ?_, ?_, ?_, h4, ?_⟩
    · rw [h1, htot]
      push_cast [List.length_append, List.length_singleton]
      ring
    · rw [h2, hsucc, List.filter_append, List.length_append]
      cases hr : r.success
      · simp [List.filter_singleton, hr]
      · simp only [List.filter_singleton, hr, cond_true, List.length_singleton]
        push_cast
        omega
    · rw [h3, hruns]
      simp
    · intro hse
      have hse' : (p :: t).filter (·.success) = [] := by
        have := List.filter_append (p := fun x => x.success) (p :: t) [r]
        rw [hse] at this
        exact (List.append_eq_nil.mp this.symm).1
      obtain ⟨d1, d2, d3⟩ := hdefaults hse'
      obtain ⟨u1, u2, u3⟩ := bumpAggregate_untouched am (runOf r) r.success
        (huntouched hse hruns)
      exact ⟨by rw [u1, d1], by rw [u2, d2], by rw [u3, d3]⟩

theorem recordRuns_append (mm : MetricsManager) (l : List RunSpec) (r : RunSpec) :
    recordRuns mm (l ++ [r]) = recordRun (recordRuns mm l) r := by
  simp [recordRuns, List.foldl_append]

theorem pairRuns_append (l : List RunSpec) (r : RunSpec) (a : AlgorithmType)
    (mz : TestScenario) :
    pairRuns (l ++ [r]) a mz =
      pairRuns l a mz ++ (if r.algorithm = a ∧ r.mazeType = mz then [r] else []) := by
  by_cases h : r.algorithm = a ∧ r.mazeType = mz <;>
    simp [pairRuns, List.filter_append, List.filter_cons, h]

theorem recordRuns_entry (l : List RunSpec) (a : AlgorithmType) (mz : TestScenario) :
    EntryInv (pairRuns l a mz) ((recordRuns emptyMetricsManager l).metrics mz a) := by
  induction l using List.reverseRecOn with
  | nil => simp [recordRuns, pairRuns, emptyMetricsManager, EntryInv]
  | append_singleton t r ih =>
    rw [recordRuns_append, recordRun_metrics, pairRuns_append]
    by_cases h : r.algorithm = a ∧ r.mazeType = mz
    · have h' : mz = r.mazeType ∧ a = r.algorithm := ⟨h.2.symm, h.1.symm⟩
      rw [if_pos h', if_pos h]
      have hentry : (recordRuns emptyMetricsManager t).metrics r.mazeType r.algorithm =
          (recordRuns emptyMetricsManager t).metrics mz a := by
        rw [h.1, h.2]
      rw [hentry]
      exact entryInv_step _ _ r ih
    · have h' : ¬(mz = r.mazeType ∧ a = r.algorithm) := by tauto
      rw [if_neg h', if_neg h]
      simpa using ih

theorem updateAverages_fields (am : AlgorithmMetrics)
    (h : am.runs.filter (·.success) ≠ []) :
    (updateAverages am).avgPathLength =
      listMean ((am.runs.filter (·.success)).map fun t => (t.pathLength : ℚ)) ∧
    (updateAverages am).minPathLength =
      some (intListMin ((am.runs.filter (·.success)).map (·.pathLength))) ∧
    (updateAverages am).maxPathLength =
      intListMax ((am.runs.filter (·.success)).map (·.pathLength)) ∧
    (updateAverages am).avgScore =
      listMean ((am.runs.filter (·.success)).map (·.score)) ∧
    (updateAverages am).avgNodesExplored =
      listMean ((am.runs.filter (·.success)).map fun t => (t.nodesExplored : ℚ)) ∧
    (updateAverages am).avgCompletionTime =
      listMean ((am.runs.filter (·.success)).map (·.completionTime)) ∧
    (updateAverages am).bestScore =
      ratListMax ((am.runs.filter (·.success)).map (·.score)) ∧
    (updateAverages am).fastestCompletion =
      some (ratListMin ((am.runs.filter (·.success)).map (·.completionTime))) ∧
    (updateAverages am).slowestCompletion =
      ratListMax ((am.runs.filter (·.success)).map (·.completionTime)) := by
  have h' : (am.runs.filter (·.success)).isEmpty = false := by
    cases hl : am.runs.filter (·.success) with
    | nil => exact absurd hl h
    | cons x xs => rfl
  simp only [updateAverages, h']
  simp

/-- C4 counterexample.  After a single **failed** run of BFS on the diagonal
maze, `get_algorithm_performance` returns the aggregate record (with zero
successful runs) — not `None` as the claim states. -/
theorem claim4_counterexample :
    ((recordRuns emptyMetricsManager
        [{ algorithm := AlgorithmType.bfs, mazeType := TestScenario.diagonal,
           tStart := 0, tEnd := 1, nodesExplored := 5, pathLength := 0,
           timeTaken := 0, remainingTime := 10, totalTime := 180,
           success := false, score := 0 }]).getAlgorithmPerformance
      AlgorithmType.bfs TestScenario.diagonal).isSome = true := rfl

/-- C4 (amended).  `get_algorithm_performance` returns `None` exactly when no
run — successful **or failed** — has been recorded for the pair; any recorded
run, including a failed one, creates the entry that is returned from then
on. -/
theorem claim4_amended (l : List RunSpec) (a : AlgorithmType) (mz : TestScenario) :
    ((recordRuns emptyMetricsManager l).getAlgorithmPerformance a mz).isSome =
      !(pairRuns l a mz).isEmpty := by
  have h := recordRuns_entry l a mz
  cases hp : pairRuns l a mz with
  | nil =>
    rw [hp] at h
    simp only [EntryInv] at h
    simp [MetricsManager.getAlgorithmPerformance, h]
  | cons q qs =>
    rw [hp] at h
    simp only [EntryInv] at h
    obtain ⟨am, he, -, -, -, -, -⟩ := h
    simp [MetricsManager.getAlgorithmPerformance, he]

/-- C6.  For any recorded history: `total_runs` counts **all** runs of the
pair while `successful_runs` and every mean/min/max/best/fastest aggregate
are computed over the successful subset only; when no run of the pair has
succeeded the aggregate fields keep their initial values. -/
theorem claim6_aggregates_over_successful (l : List RunSpec) (a : AlgorithmType)
    (mz : TestScenario) (hne : pairRuns l a mz ≠ []) :
    ∃ am, (recordRuns emptyMetricsManager l).getAlgorithmPerformance a mz = some am ∧
      am.totalRuns = ((pairRuns l a mz).length : Int) ∧
      am.successfulRuns = (((pairRuns l a mz).filter (·.success)).length : Int) ∧
      ((pairRuns l a mz).filter (·.success) ≠ [] →
        am.avgPathLength =
          listMean (((pairRuns l a mz).filter (·.success)).map fun r =>
            (r.pathLength : ℚ)) ∧
        am.minPathLength =
          some (intListMin (((pairRuns l a mz).filter (·.success)).map
            (·.pathLength))) ∧
        am.maxPathLength =
          intListMax (((pairRuns l a mz).filter (·.success)).map (·.pathLength)) ∧
        am.avgScore =
          listMean (((pairRuns l a mz).filter (·.success)).map (·.score)) ∧
        am.avgNodesExplored =
          listMean (((pairRuns l a mz).filter (·.success)).map fun r =>
            (r.nodesExplored : ℚ)) ∧
        am.avgCompletionTime =
          listMean (((pairRuns l a mz).filter (·.success)).map fun r =>
            r.tEnd - r.tStart) ∧
        am.bestScore =
          ratListMax (((pairRuns l a mz).filter (·.success)).map (·.score)) ∧
        am.fastestCompletion =
          some (ratListMin (((pairRuns l a mz).filter (·.success)).map fun r =>
            r.tEnd - r.tStart)) ∧
        am.slowestCompletion =
          ratListMax (((pairRuns l a mz).filter (·.success)).map fun r =>
            r.tEnd - r.tStart)) ∧
      ((pairRuns l a mz).filter (·.success) = [] →
        am.avgPathLength = 0 ∧ am.minPathLength = none ∧ am.maxPathLength = 0) := by
  have h := recordRuns_entry l a mz
  cases hp : pairRuns l a mz with
  | nil => exact absurd hp hne
  | cons q qs =>
    rw [hp] at h
    simp only [EntryInv] at h
    obtain ⟨am, he, htot, hsucc, hruns, hidem, hdefaults⟩ := h
    have hsr : am.runs.filter (·.success) =
        ((q :: qs).filter (·.success)).map runOf := by
      rw [hruns, filter_map_runOf]
    refine ⟨am, he, by rw [htot], by rw [hsucc], fun hsne => ?_, fun hse => ?_⟩
    · have hsrne : am.runs.filter (·.success) ≠ [] := by
        rw [hsr]
        intro hc
        exact hsne (by simpa using hc)
      obtain ⟨f1, f2, f3, f4, f5, f6, f7, f8, f9⟩ := updateAverages_fields am hsrne
      rw [← hidem]
      rw [f1, f2, f3, f4, f5, f6, f7, f8, f9, hsr]
      simp [List.map_map, Function.comp_def, runOf]
    · exact hdefaults hse

/-- A successful run of A* on the snake maze with a given path length. -/
def demoRun (n : Int) (t : ℚ) : RunSpec :=
  { algorithm := AlgorithmType.astar, mazeType := TestScenario.snake
    tStart := t, tEnd := t + 1, nodesExplored := 0, pathLength := n
    timeTaken := 0, remainingTime := 0, totalTime := 0, success := true, score := 0 }

/-- Witness for C6: after three successful runs with path lengths 10, 12 and
14, the aggregate reports `avg_path_length = 12`, `min_path_length = 10`,
`max_path_length = 14`, and three successful runs out of three. -/
theorem claim6_aggregates_over_successful_witness :
    ∃ am, (recordRuns emptyMetricsManager
        [demoRun 10 0, demoRun 12 2, demoRun 14 4]).getAlgorithmPerformance
          AlgorithmType.astar TestScenario.snake = some am ∧
      am.totalRuns = 3 ∧ am.successfulRuns = 3 ∧
      am.avgPathLength = 12 ∧ am.minPathLength = some 10 ∧
      am.maxPathLength = 14 := by
  have hpr : pairRuns [demoRun 10 0, demoRun 12 2, demoRun 14 4]
      AlgorithmType.astar TestScenario.snake =
      [demoRun 10 0, demoRun 12 2, demoRun 14 4] := rfl
  have hne : pairRuns [demoRun 10 0, demoRun 12 2, demoRun 14 4]
      AlgorithmType.astar TestScenario.snake ≠ [] := by
    rw [hpr]; exact List.cons_ne_nil _ _
  obtain ⟨am, he, htot, hsucc, hfields, -⟩ :=
    claim6_aggregates_over_successful
      [demoRun 10 0, demoRun 12 2, demoRun 14 4] AlgorithmType.astar
      TestScenario.snake hne
  have hfl : (pairRuns [demoRun 10 0, demoRun 12 2, demoRun 14 4]
      AlgorithmType.astar TestScenario.snake).filter (·.success) =
      [demoRun 10 0, demoRun 12 2, demoRun 14 4] := rfl
  obtain ⟨havg, hmin, hmax, -⟩ := hfields (by rw [hfl]; exact List.cons_ne_nil _ _)
  refine ⟨am, he, ?_, ?_, ?_, ?_, ?_⟩
  · rw [htot, hpr]; rfl
  · rw [hsucc, hfl]; rfl
  · rw [havg, hfl]
    norm_num [listMean, demoRun]
  · rw [hmin, hfl]
    norm_num [intListMin, demoRun]
  · rw [hmax, hfl]
    norm_num [intListMax, demoRun]

/-! ## Search claims -/

/-- C9.  For each of the four search strategies, if `start == goal` is a valid
in-bounds non-obstacle cell, `find_path` returns the single-element path
`[start]` with cost `0`, and `get_next_move` returns `'idle'` —
the first loop iteration pops the start, hits the `break` at the goal, and
reconstruction yields the one-position path. -/
theorem claim9_start_eq_goal (m : GameMap) (u : Bool) (s : Pos)
    (h : m.validPos s = true) :
    bfsFindPath m u s s = some ⟨[s], some 0, if u then 1 else 0⟩ ∧
    dijkstraFindPath m u s s = some ⟨[s], some 0, if u then 1 else 0⟩ ∧
    astarFindPath m s s = some ⟨[s], some 0⟩ ∧
    greedyFindPath m u s s = some ⟨[s], some 0, if u then 1 else 0⟩ ∧
    bfsGetNextMove m u s s = some "idle" ∧
    dijkstraGetNextMove m u s s = some "idle" ∧
    astarGetNextMove m s s = some "idle" ∧
    greedyGetNextMove m u s s = some "idle" := by
  have hbfs : bfsFindPath m u s s = some ⟨[s], some 0, if u then 1 else 0⟩ := by
    unfold bfsFindPath
    rw [show bfsFuel m = 2 * cellCount m + 1 + 1 from rfl]
    simp [h, runLoop, bfsStep, walkBack, alookup]
  have hdij : dijkstraFindPath m u s s = some ⟨[s], some 0, if u then 1 else 0⟩ := by
    unfold dijkstraFindPath
    rw [show dijkstraFuel m = 6 * cellCount m + 5 + 1 from rfl]
    simp [h, runLoop, dijkstraStep, heapPop, eraseFirst, walkBack, alookup]
  have hast : astarFindPath m s s = some ⟨[s], some 0⟩ := by
    unfold astarFindPath
    rw [show astarFuel m = 6 * cellCount m + 1 + 1 from rfl]
    simp [h, runLoop, astarStep, heapPop, eraseFirst, walkBack, alookup]
  have hgre : greedyFindPath m u s s = some ⟨[s], some 0, if u then 1 else 0⟩ := by
    unfold greedyFindPath
    rw [show greedyFuel m = 3 * cellCount m + 1 + 1 from rfl]
    simp [h, runLoop, greedyStep, heapPop, eraseFirst, walkBack, alookup]
  refine ⟨hbfs, hdij, hast, hgre, ?_, ?_, ?_, ?_⟩
  · rw [bfsGetNextMove, hbfs]; rfl
  · rw [dijkstraGetNextMove, hdij]; rfl
  · rw [astarGetNextMove, hast]; rfl
  · rw [greedyGetNextMove, hgre]; rfl

/-- Witness for C9 at the centre cell of a free 5×5 grid. -/
theorem claim9_start_eq_goal_witness :
    bfsFindPath ⟨5, 5, fun _ _ => false⟩ false (2, 2) (2, 2) =
      some ⟨[(2, 2)], some 0, 0⟩ ∧
    astarGetNextMove ⟨5, 5, fun _ _ => false⟩ (2, 2) (2, 2) = some "idle" := by
  have h := claim9_start_eq_goal ⟨5, 5, fun _ _ => false⟩ false (2, 2) (by decide)
  exact ⟨h.1, h.2.2.2.2.2.2.1⟩

/-! ## Search machinery: heap, loop totality, reachability, chains -/

theorem eraseFirst_perm (l : List (Int × Pos)) (e : Int × Pos) (h : e ∈ l) :
    l.Perm (e :: eraseFirst l e) := by
  induction l with
  | nil => cases h
  | cons x xs ih =>
    by_cases hx : x = e
    · subst hx
      unfold eraseFirst
      simp
    · have he : e ∈ xs := by
        cases h with
        | head => exact absurd rfl hx
        | tail _ h => exact h
      unfold eraseFirst
      rw [if_neg hx]
      exact ((ih he).cons x).trans (List.Perm.swap _ _ _)

theorem foldlMin_mem (es : List (Int × Pos)) (e : Int × Pos) :
    es.foldl (fun b x => if entryLt x b then x else b) e ∈ e :: es := by
  induction es generalizing e with
  | nil => exact List.mem_singleton.mpr rfl
  | cons x xs ih =>
    simp only [List.foldl_cons]
    by_cases hx : entryLt x e
    · rw [if_pos hx]
      have := ih x
      simp only [List.mem_cons] at this ⊢
      tauto
    · rw [if_neg hx]
      have := ih e
      simp only [List.mem_cons] at this ⊢
      tauto

theorem entryLt_iff (a b : Int × Pos) :
    entryLt a b = true ↔
      (a.1 < b.1 ∨ (a.1 = b.1 ∧ (a.2.1 < b.2.1 ∨ (a.2.1 = b.2.1 ∧ a.2.2 < b.2.2)))) := by
  unfold entryLt
  simp

theorem entryLt_trans {a b c : Int × Pos} (h1 : entryLt a b = true)
    (h2 : entryLt b c = true) : entryLt a c = true := by
  obtain ⟨a1, a2, a3⟩ := a
  obtain ⟨b1, b2, b3⟩ := b
  obtain ⟨c1, c2, c3⟩ := c
  rw [entryLt_iff] at *
  dsimp at *
  omega

theorem entryLt_total {a b : Int × Pos} (h : ¬ entryLt a b = true) :
    a = b ∨ entryLt b a = true := by
  obtain ⟨a1, a2, a3⟩ := a
  obtain ⟨b1, b2, b3⟩ := b
  rw [entryLt_iff] at *
  simp only [Prod.mk.injEq]
  dsimp at *
  omega

theorem entryLt_irrefl (a : Int × Pos) : ¬ entryLt a a = true := by
  obtain ⟨a1, a2, a3⟩ := a
  rw [entryLt_iff]
  dsimp
  omega

theorem foldlMin_min (es : List (Int × Pos)) (e : Int × Pos) :
    ∀ x ∈ e :: es, ¬ entryLt x (es.foldl (fun b x => if entryLt x b then x else b) e) := by
  induction es generalizing e with
  | nil =>
    intro x hx
    rw [List.mem_singleton] at hx
    subst hx
    simp only [List.foldl_nil]
    exact entryLt_irrefl x
  | cons y ys ih =>
    intro x hx
    simp only [List.foldl_cons]
    by_cases hy : entryLt y e
    · rw [if_pos hy]
      rcases List.mem_cons.mp hx with hx | hx
      · subst hx
        intro hc
        exact ih y y (List.mem_cons_self _ _) (entryLt_trans hy hc)
      · exact ih y x hx
    · rw [if_neg hy]
      rcases List.mem_cons.mp hx with hx | hx
      · subst hx
        exact ih x x (List.mem_cons_self _ _)
      · rcases List.mem_cons.mp hx with hx | hx
        · subst hx
          intro hc
          rcases entryLt_total hy with heq | hlt
          · subst heq
            exact ih x x (List.mem_cons_self _ _) hc
          · exact ih e e (List.mem_cons_self _ _) (entryLt_trans hlt hc)
        · exact ih e x (by simp [hx])

theorem heapPop_spec (q : List (Int × Pos)) (e : Int × Pos) (rest : List (Int × Pos))
    (h : heapPop q = some (e, rest)) :
    q.Perm (e :: rest) ∧ ∀ x ∈ q, ¬ entryLt x e := by
  cases q with
  | nil => simp [heapPop] at h
  | cons x xs =>
    unfold heapPop at h
    simp only [Option.some.injEq, Prod.mk.injEq] at h
    obtain ⟨he, hrest⟩ := h
    subst he
    subst hrest
    exact ⟨eraseFirst_perm _ _ (foldlMin_mem xs x), fun y hy => foldlMin_min xs x y hy⟩

theorem heapPop_nil_iff (q : List (Int × Pos)) : heapPop q = none ↔ q = [] := by
  cases q <;> simp [heapPop]

/-- Generic totality of a fuelled search loop: an invariant preserved by
`cont` steps together with a strictly decreasing measure yields a `done`
result within the fuel. -/
theorem runLoop_total {σ : Type} (f : σ → StepRes σ) (I : σ → Prop) (μ : σ → Nat)
    (hstep : ∀ s, I s →
      (∃ t, f s = .done t) ∨ (∃ t, f s = .cont t ∧ I t ∧ μ t < μ s)) :
    ∀ fuel s, I s → μ s < fuel →
      ∃ s' t, runLoop f fuel s = some t ∧ I s' ∧ f s' = .done t := by
  intro fuel
  induction fuel with
  | zero => intro s _ hf; omega
  | succ n ih =>
    intro s hI hf
    rcases hstep s hI with ⟨t, ht⟩ | ⟨t, ht, hIt, hμ⟩
    · exact ⟨s, t, by simp [runLoop, ht], hI, ht⟩
    · obtain ⟨s', t', hrun, hI', hd⟩ := ih t hIt (by omega)
      exact ⟨s', t', by simp [runLoop, ht, hrun], hI', hd⟩

/-! ### Reachability through non-obstacle cells -/

/-- A walk of `n` unit steps from `s` through valid neighbour cells. -/
inductive NReach (m : GameMap) (s : Pos) : Pos → Nat → Prop where
  | refl : NReach m s s 0
  | step {p q : Pos} {n : Nat} :
      NReach m s p n → q ∈ getNeighbors m p → NReach m s q (n + 1)

/-- "goal is reachable from start through non-obstacle cells". -/
def Reaches (m : GameMap) (s p : Pos) : Prop := ∃ n, NReach m s p n

theorem mem_getNeighbors_valid {m : GameMap} {p q : Pos}
    (h : q ∈ getNeighbors m p) : m.validPos q = true := by
  unfold getNeighbors at h
  rw [List.mem_filter] at h
  exact h.2

theorem mem_getNeighbors_manhattan {m : GameMap} {p q : Pos}
    (h : q ∈ getNeighbors m p) : manhattan p q = 1 := by
  unfold getNeighbors at h
  rw [List.mem_filter] at h
  have h1 := h.1
  obtain ⟨px, py⟩ := p
  simp only [List.mem_cons, List.mem_singleton, List.not_mem_nil, or_false] at h1
  rcases h1 with h1 | h1 | h1 | h1 <;> subst h1 <;> simp [manhattan]

theorem manhattan_triangle (a b c : Pos) :
    manhattan a c ≤ manhattan a b + manhattan b c := by
  unfold manhattan
  have h1 : |a.1 - c.1| ≤ |a.1 - b.1| + |b.1 - c.1| := abs_sub_le _ _ _
  have h2 : |a.2 - c.2| ≤ |a.2 - b.2| + |b.2 - c.2| := abs_sub_le _ _ _
  omega

theorem manhattan_comm (a b : Pos) : manhattan a b = manhattan b a := by
  unfold manhattan
  rw [abs_sub_comm, abs_sub_comm a.2 b.2]

theorem manhattan_nonneg (a b : Pos) : 0 ≤ manhattan a b := by
  unfold manhattan
  have := abs_nonneg (a.1 - b.1)
  have := abs_nonneg (a.2 - b.2)
  omega

theorem manhattan_self (a : Pos) : manhattan a a = 0 := by
  unfold manhattan
  simp

theorem manhattan_eq_zero {a b : Pos} (h : manhattan a b = 0) : a = b := by
  obtain ⟨a1, a2⟩ := a
  obtain ⟨b1, b2⟩ := b
  unfold manhattan at h
  dsimp at h
  have h1 := abs_nonneg (a1 - b1)
  have h2 := abs_nonneg (a2 - b2)
  have h1' : a1 - b1 = 0 := by
    rcases abs_eq_zero.mp (by omega : |a1 - b1| = 0) with h; omega
  have h2' : a2 - b2 = 0 := by
    rcases abs_eq_zero.mp (by omega : |a2 - b2| = 0) with h; omega
  simp only [Prod.mk.injEq]
  omega

/-- Any walk from `s` to `p` has at least `manhattan s p` steps. -/
theorem nreach_manhattan_le {m : GameMap} {s p : Pos} {n : Nat}
    (h : NReach m s p n) : manhattan s p ≤ n := by
  induction h with
  | refl => simp [manhattan_self]
  | step hr hq ih =>
    rename_i p' q' k
    have htr := manhattan_triangle s p' q'
    have h1 := mem_getNeighbors_manhattan hq
    push_cast
    omega

theorem nreach_trans {m : GameMap} {s p q : Pos} {n k : Nat}
    (h1 : NReach m s p n) (h2 : NReach m p q k) : NReach m s q (k + n) := by
  induction h2 with
  | refl => simpa using h1
  | step hr hq ih =>
    have := NReach.step ih hq
    rw [show ∀ a b : Nat, a + b + 1 = a + 1 + b from fun a b => by omega] at this
    exact this

/-! ### The predecessor-map invariant

`d` is a depth certificate: the start maps to `None` parent and depth `0`,
every other binding points one unit step back with depth exactly one less.
Every algorithm's `came_from` satisfies it (for Dijkstra/A*, `d` is the
current `cost_so_far`/`g_costs` value). -/

def CFInv (m : GameMap) (start : Pos) (cf : List (Pos × Option Pos))
    (d : Pos → Nat) : Prop :=
  alookup cf start = some none ∧
  d start = 0 ∧
  (∀ p, alookup cf p = some none → p = start) ∧
  (∀ p q, alookup cf p = some (some q) →
    alookup cf q ≠ none ∧ p ∈ getNeighbors m q ∧ d p = d q + 1 ∧ p ≠ start)

/-- Everything the claims need about the reconstruction loop: it terminates
without `KeyError`, the chain has exactly `d p + 1` positions of which only
the final one is the start, and the walked position is reachable. -/
theorem walkBack_correct {m : GameMap} {start : Pos}
    {cf : List (Pos × Option Pos)} {d : Pos → Nat} (h : CFInv m start cf d) :
    ∀ n p, alookup cf p ≠ none → d p < n →
      ∃ chain, walkBack cf n p = some chain ∧
        chain.length = d p + 1 ∧
        chain.head? = some p ∧
        chain.getLast? = some start ∧
        (chain.filter fun x => decide (x ≠ start)).length = d p ∧
        NReach m start p (d p) ∧
        (∀ x ∈ chain, d x ≤ d p) ∧
        chain.Nodup ∧
        (∀ x ∈ chain, alookup cf x ≠ none) := by
  obtain ⟨hstart, hd0, hnone, hsome⟩ := h
  intro n
  induction n with
  | zero => intro p _ hd; omega
  | succ k ih =>
    intro p hp hd
    cases hpl : alookup cf p with
    | none => exact absurd hpl hp
    | some v =>
      cases v with
      | none =>
        have hps : p = start := hnone p hpl
        subst hps
        refine ⟨[p], ?_, ?_, rfl, rfl, ?_, ?_, ?_, List.nodup_singleton _, ?_⟩
        · simp only [walkBack, hpl]
        · simp [hd0]
        · simp [hd0]
        · rw [hd0]; exact NReach.refl
        · intro x hx
          rw [List.mem_singleton] at hx
          subst hx
          exact le_refl _
        · intro x hx
          rw [List.mem_singleton] at hx
          subst hx
          rw [hpl]
          simp
      | some q =>
        obtain ⟨hq, hadj, hdp, hps⟩ := hsome p q hpl
        obtain ⟨ch, hwb, hlen, hhead, hlast, hfilt, hnr, hdle, hchnd, hchkeys⟩ :=
          ih q hq (by omega)
        cases ch with
        | nil => simp at hhead
        | cons c t =>
          have hcq : c = q := by simpa using hhead
          subst hcq
          refine ⟨p :: c :: t, ?_, ?_, rfl, ?_, ?_, ?_, ?_, ?_, ?_⟩
          · simp only [walkBack, hpl, hwb]
            rfl
          · simp only [List.length_cons] at hlen ⊢
            omega
          · rw [List.getLast?_cons_cons]
            exact hlast
          · rw [List.filter_cons_of_pos (by simpa using hps)]
            simp only [List.length_cons]
            rw [hfilt]
            omega
          · rw [hdp]
            exact NReach.step hnr hadj
          · intro x hx
            rcases List.mem_cons.mp hx with hx | hx
            · exact hx ▸ le_refl _
            · have := hdle x hx
              omega
          · rw [List.nodup_cons]
            refine ⟨fun hmem => ?_, hchnd⟩
            have := hdle p hmem
            omega
          · intro x hx
            rcases List.mem_cons.mp hx with hx | hx
            · subst hx
              rw [hpl]
              simp
            · exact hchkeys x hx

/-- Every key of a `CFInv` predecessor map is reachable from the start. -/
theorem cfInv_reaches {m : GameMap} {start : Pos}
    {cf : List (Pos × Option Pos)} {d : Pos → Nat} (h : CFInv m start cf d)
    {p : Pos} (hp : alookup cf p ≠ none) : Reaches m start p := by
  obtain ⟨ch, -, -, -, -, -, hnr, -⟩ := walkBack_correct h (d p + 1) p hp (by omega)
  exact ⟨d p, hnr⟩

theorem alookup_cons_self {α : Type} (l : List (Pos × α)) (p : Pos) (v : α) :
    alookup ((p, v) :: l) p = some v := by
  unfold alookup
  rw [if_pos rfl]

theorem alookup_cons_ne {α : Type} (l : List (Pos × α)) (p q : Pos) (v : α)
    (h : p ≠ q) : alookup ((p, v) :: l) q = alookup l q := by
  conv_lhs => unfold alookup
  rw [if_neg h]

/-- The in-bounds cells, for counting only. -/
def cellList (m : GameMap) : List Pos :=
  (List.range m.width.toNat).flatMap fun x =>
    (List.range m.height.toNat).map fun y => ((x : Int), (y : Int))

theorem length_cellList (m : GameMap) : (cellList m).length = cellCount m := by
  unfold cellList cellCount
  rw [List.length_flatMap]
  simp [Function.comp_def]

theorem validPos_mem_cellList {m : GameMap} {p : Pos}
    (h : m.validPos p = true) : p ∈ cellList m := by
  obtain ⟨x, y⟩ := p
  unfold GameMap.validPos GameMap.isValidMove at h
  simp only [Bool.and_eq_true, decide_eq_true_eq] at h
  obtain ⟨⟨⟨⟨hx0, hxw⟩, hy0⟩, hyh⟩, -⟩ := h
  unfold cellList
  have : ∃ a : Nat, (a : Int) < m.width ∧
      (∃ b : Nat, (b : Int) < m.height ∧ y = (b : Int)) ∧ (a : Int) = x :=
    ⟨x.toNat, by omega, ⟨y.toNat, by omega, by omega⟩, by omega⟩
  simpa [List.mem_flatMap, List.mem_map, List.mem_range, and_assoc] using this

theorem nodup_valid_le_cellCount (m : GameMap) (l : List Pos) (hnd : l.Nodup)
    (hv : ∀ p ∈ l, m.validPos p = true) : l.length ≤ cellCount m := by
  rw [← length_cellList]
  exact List.Subperm.length_le
    (hnd.subperm fun p hp => validPos_mem_cellList (hv p hp))

theorem nreach_zero {m : GameMap} {s p : Pos} (h : NReach m s p 0) : p = s := by
  cases h
  rfl

theorem nreach_succ {m : GameMap} {s p : Pos} {n : Nat}
    (h : NReach m s p (n + 1)) :
    ∃ w, NReach m s w n ∧ p ∈ getNeighbors m w := by
  cases h with
  | step hr hq => exact ⟨_, hr, hq⟩

/-- Characterization of the BFS neighbour loop: some sublist `newly` of the
neighbour list (the ones not yet visited at their turn) is enqueued, marked
visited, bound to `cur`, and counted. -/
theorem bfsExpand_char (u : Bool) (cur : Pos) :
    ∀ (l : List Pos) (t : BFSState),
      ∃ newly : List Pos,
        l.foldl
          (fun t np =>
            if np ∈ t.visited then t
            else
              { queue := t.queue ++ [np]
                cameFrom := (np, some cur) :: t.cameFrom
                visited := np :: t.visited
                explored := t.explored + (if u then 1 else 0) }) t =
          { queue := t.queue ++ newly
            cameFrom := (newly.map fun np => (np, some cur)).reverse ++ t.cameFrom
            visited := newly.reverse ++ t.visited
            explored := t.explored + (if u then newly.length else 0) } ∧
        newly.Nodup ∧ (∀ p ∈ newly, p ∈ l ∧ p ∉ t.visited) ∧
        (∀ p ∈ l, p ∈ newly ∨ p ∈ t.visited) := by
  intro l
  induction l with
  | nil =>
    intro t
    refine ⟨[], ?_, List.nodup_nil, by simp, by simp⟩
    cases t
    simp
  | cons np l' ih =>
    intro t
    simp only [List.foldl_cons]
    by_cases hnp : np ∈ t.visited
    · rw [if_pos hnp]
      obtain ⟨newly, hstate, hnd, hsub, hcover⟩ := ih t
      refine ⟨newly, hstate, hnd, ?_, ?_⟩
      · exact fun p hp => ⟨List.mem_cons_of_mem _ (hsub p hp).1, (hsub p hp).2⟩
      · intro p hp
        rcases List.mem_cons.mp hp with hp | hp
        · exact Or.inr (hp ▸ hnp)
        · exact hcover p hp
    · rw [if_neg hnp]
      obtain ⟨newly1, hstate, hnd, hsub, hcover⟩ := ih
        { queue := t.queue ++ [np]
          cameFrom := (np, some cur) :: t.cameFrom
          visited := np :: t.visited
          explored := t.explored + (if u then 1 else 0) }
      refine ⟨np :: newly1, ?_, ?_, ?_, ?_⟩
      · rw [hstate]
        simp only [BFSState.mk.injEq]
        refine ⟨by simp, by simp, by simp, ?_⟩
        cases u <;> simp <;> omega
      · exact List.nodup_cons.mpr
          ⟨fun hc => (hsub np hc).2 (List.mem_cons_self _ _), hnd⟩
      · intro p hp
        rcases List.mem_cons.mp hp with hp | hp
        · subst hp
          exact ⟨List.mem_cons_self _ _, hnp⟩
        · obtain ⟨h1, h2⟩ := hsub p hp
          refine ⟨List.mem_cons_of_mem _ h1, fun hc => h2 (List.mem_cons_of_mem _ hc)⟩
      · intro p hp
        rcases List.mem_cons.mp hp with hp | hp
        · exact Or.inl (hp ▸ List.mem_cons_self _ _)
        · rcases hcover p hp with hc | hc
          · exact Or.inl (List.mem_cons_of_mem _ hc)
          · rcases List.mem_cons.mp hc with hc | hc
            · exact Or.inl (hc ▸ List.mem_cons_self _ _)
            · exact Or.inr hc

theorem alookup_append_not_mem {α : Type} (bs l : List (Pos × α)) (p : Pos)
    (h : p ∉ bs.map (·.1)) : alookup (bs ++ l) p = alookup l p := by
  induction bs with
  | nil => rfl
  | cons b bs' ih =>
    obtain ⟨q, v⟩ := b
    simp only [List.map_cons, List.mem_cons] at h
    push_neg at h
    rw [List.cons_append, alookup_cons_ne _ _ _ _ (Ne.symm h.1)]
    exact ih h.2

theorem alookup_append_mem_const {α : Type} (bs l : List (Pos × α)) (p : Pos)
    (v₀ : α) (hv : ∀ b ∈ bs, b.2 = v₀) (h : p ∈ bs.map (·.1)) :
    alookup (bs ++ l) p = some v₀ := by
  induction bs with
  | nil => simp at h
  | cons b bs' ih =>
    obtain ⟨q, v⟩ := b
    by_cases hqp : q = p
    · subst hqp
      rw [List.cons_append, alookup_cons_self]
      rw [show v = v₀ from hv (q, v) (List.mem_cons_self _ _)]
    · simp only [List.map_cons, List.mem_cons] at h
      rcases h with h | h
      · exact absurd h.symm hqp
      · rw [List.cons_append, alookup_cons_ne _ _ _ _ hqp]
        exact ih (fun b hb => hv b (List.mem_cons_of_mem _ hb)) h

/-- The BFS master invariant, with a ghost depth certificate `d` and the
current front-layer depth `D`. -/
structure BFSInvCore (m : GameMap) (start : Pos) (s : BFSState) (d : Pos → Nat)
    (D : Nat) : Prop where
  cf : CFInv m start s.cameFrom d
  domVis : ∀ p, alookup s.cameFrom p ≠ none ↔ p ∈ s.visited
  visNodup : s.visited.Nodup
  visValid : ∀ p ∈ s.visited, m.validPos p = true
  queueSub : ∀ p ∈ s.queue, p ∈ s.visited
  queueNodup : s.queue.Nodup
  closure : ∀ p ∈ s.visited, p ∉ s.queue → ∀ w ∈ getNeighbors m p, w ∈ s.visited
  startVis : start ∈ s.visited
  distMin : ∀ p ∈ s.visited, ∀ k, NReach m start p k → d p ≤ k
  layer : ∃ q1 q2, s.queue = q1 ++ q2 ∧ (∀ p ∈ q1, d p = D) ∧
    (∀ p ∈ q2, d p = D + 1)
  frontier : ∀ v k, NReach m start v k → k ≤ D → v ∈ s.visited

def BFSInv (m : GameMap) (start : Pos) (s : BFSState) : Prop :=
  ∃ d D, BFSInvCore m start s d D

def bfsMeasure (m : GameMap) (s : BFSState) : Nat :=
  s.queue.length + (cellCount m - s.visited.length)

theorem bfsInv_init (m : GameMap) (start : Pos) (u : Bool)
    (hs : m.validPos start = true) :
    BFSInv m start
      ⟨[start], [(start, none)], [start], if u then 1 else 0⟩ := by
  have hlook : ∀ p, alookup [(start, (none : Option Pos))] p =
      if start = p then some none else none := by
    intro p
    unfold alookup
    split <;> rfl
  refine ⟨fun _ => 0, 0, ?_⟩
  constructor
  · refine ⟨alookup_cons_self _ _ _, rfl, ?_, ?_⟩
    · intro p hp
      rw [hlook] at hp
      by_cases h : start = p
      · exact h.symm
      · rw [if_neg h] at hp; cases hp
    · intro p q hpq
      rw [hlook] at hpq
      by_cases h : start = p
      · rw [if_pos h] at hpq; cases hpq
      · rw [if_neg h] at hpq; cases hpq
  · intro p
    rw [hlook]
    by_cases h : start = p <;> simp [h, eq_comm]
  · exact List.nodup_singleton _
  · intro p hp
    rw [List.mem_singleton] at hp
    exact hp ▸ hs
  · intro p hp
    exact hp
  · exact List.nodup_singleton _
  · intro p hp hq
    exact absurd hp hq
  · exact List.mem_singleton.mpr rfl
  · intro p _ k _
    omega
  · exact ⟨[start], [], by simp, fun p _ => rfl, by simp⟩
  · intro v k hr hk
    interval_cases k
    rw [List.mem_singleton]
    exact nreach_zero hr

theorem bfsInv_normalize {m : GameMap} {start : Pos} {s : BFSState}
    {d : Pos → Nat} {D : Nat} {cur : Pos} {rest : List Pos}
    (h : BFSInvCore m start s d D) (hq : s.queue = cur :: rest) :
    ∃ D', BFSInvCore m start s d D' ∧ d cur = D' := by
  obtain ⟨q1, q2, hsplit, h1, h2⟩ := h.layer
  cases q1 with
  | cons c q1' =>
    have hc : c = cur := by
      rw [hq] at hsplit
      exact (List.cons.injEq _ _ _ _ ▸ hsplit).1.symm
    refine ⟨D, h, ?_⟩
    rw [← hc]
    exact h1 c (List.mem_cons_self _ _)
  | nil =>
    rw [List.nil_append] at hsplit
    have hfrontier' : ∀ v k, NReach m start v k → k ≤ D + 1 → v ∈ s.visited := by
      intro v k hr hk
      rcases Nat.lt_or_ge k (D + 1) with hlt | hge
      · exact h.frontier v k hr (by omega)
      · have hk1 : k = D + 1 := by omega
        subst hk1
        obtain ⟨w, hw, hadj⟩ := nreach_succ hr
        have hwvis : w ∈ s.visited := h.frontier w D hw (le_refl _)
        have hwq : w ∉ s.queue := by
          intro hwq
          rw [hsplit] at hwq
          have := h2 w hwq
          have := h.distMin w hwvis D hw
          omega
        exact h.closure w hwvis hwq v hadj
    refine ⟨D + 1, ?_, ?_⟩
    · exact { h with
        layer := ⟨s.queue, [], by simp, fun p hp => h2 p (hsplit ▸ hp), by simp⟩
        frontier := hfrontier' }
    · exact h2 cur (by rw [← hsplit, hq]; exact List.mem_cons_self _ _)

theorem bfsStep_progress (m : GameMap) (start goal : Pos) (u : Bool)
    (s : BFSState) (h : BFSInv m start s) :
    (∃ t, bfsStep m goal u s = .done t) ∨
    (∃ t, bfsStep m goal u s = .cont t ∧ BFSInv m start t ∧
      bfsMeasure m t < bfsMeasure m s) := by
  obtain ⟨d, D₀, hc₀⟩ := h
  cases hq : s.queue with
  | nil => exact Or.inl ⟨s, by simp only [bfsStep, hq]⟩
  | cons cur rest =>
    by_cases hg : cur = goal
    · exact Or.inl ⟨{ s with queue := rest },
        by simp only [bfsStep, hq]; rw [if_pos hg]⟩
    · obtain ⟨D, hc, hdcur⟩ := bfsInv_normalize hc₀ hq
      obtain ⟨newly, hstate, hnd, hsub, hcover⟩ :=
        bfsExpand_char u cur (getNeighbors m cur) { s with queue := rest }
      have hexp : bfsExpand m u cur { s with queue := rest } =
          { queue := rest ++ newly
            cameFrom :=
              (newly.map fun np => (np, some cur)).reverse ++ s.cameFrom
            visited := newly.reverse ++ s.visited
            explored := s.explored + (if u then newly.length else 0) } := hstate
      have hcurvis : cur ∈ s.visited :=
        hc.queueSub cur (by rw [hq]; exact List.mem_cons_self _ _)
      have hrestsub : ∀ p ∈ rest, p ∈ s.visited := fun p hp =>
        hc.queueSub p (by rw [hq]; exact List.mem_cons_of_mem _ hp)
      have hqnodup := hc.queueNodup
      rw [hq, List.nodup_cons] at hqnodup
      have hnewlyN : ∀ p ∈ newly, p ∈ getNeighbors m cur := fun p hp => (hsub p hp).1
      have hnewlyNotVis : ∀ p ∈ newly, p ∉ s.visited := fun p hp => (hsub p hp).2
      have hcover' : ∀ w ∈ getNeighbors m cur, w ∈ newly ∨ w ∈ s.visited := hcover
      have hkeys : ((newly.map fun np => (np, (some cur : Option Pos))).reverse).map
          (·.1) = newly.reverse := by
        rw [List.map_reverse, List.map_map]
        simp [Function.comp_def]
      have hlookOld : ∀ p, p ∉ newly →
          alookup ((newly.map fun np => (np, (some cur : Option Pos))).reverse ++
            s.cameFrom) p = alookup s.cameFrom p := by
        intro p hp
        exact alookup_append_not_mem _ _ _ (by rw [hkeys]; simpa using hp)
      have hlookNew : ∀ p ∈ newly,
          alookup ((newly.map fun np => (np, (some cur : Option Pos))).reverse ++
            s.cameFrom) p = some (some cur) := by
        intro p hp
        refine alookup_append_mem_const _ _ _ _ ?_ (by rw [hkeys]; simpa using hp)
        intro b hb
        rw [List.mem_reverse, List.mem_map] at hb
        obtain ⟨np, -, hnp⟩ := hb
        rw [← hnp]
      obtain ⟨q1, q2, hsplit, h1, h2⟩ := hc.layer
      cases q1 with
      | nil =>
        rw [List.nil_append] at hsplit
        have : d cur = D + 1 := h2 cur (by rw [← hsplit, hq]; exact List.mem_cons_self _ _)
        omega
      | cons c q1' =>
        rw [hq] at hsplit
        have hc1 : cur = c := ((List.cons.injEq _ _ _ _).mp hsplit).1
        subst hc1
        have hrestsplit : rest = q1' ++ q2 := ((List.cons.injEq _ _ _ _).mp hsplit).2
        set d' : Pos → Nat := fun p => if p ∈ s.visited then d p else d cur + 1 with hd'
        have hd'vis : ∀ p ∈ s.visited, d' p = d p := by
          intro p hp
          simp only [hd', if_pos hp]
        have hd'new : ∀ p ∈ newly, d' p = d cur + 1 := by
          intro p hp
          simp only [hd', if_neg (hnewlyNotVis p hp)]
        have hdomvis : ∀ p, alookup s.cameFrom p ≠ none ↔ p ∈ s.visited := hc.domVis
        refine Or.inr ⟨_, by simp only [bfsStep, hq]; rw [if_neg hg], ⟨d', D, ?_⟩, ?_⟩
        · rw [hexp]
          have hvalid' : ∀ p ∈ newly.reverse ++ s.visited, m.validPos p = true := by
            intro p hp
            rw [List.mem_append, List.mem_reverse] at hp
            rcases hp with hp | hp
            · exact mem_getNeighbors_valid (hnewlyN p hp)
            · exact hc.visValid p hp
          have hnodup' : (newly.reverse ++ s.visited).Nodup := by
            refine List.Nodup.append (List.nodup_reverse.mpr hnd) hc.visNodup ?_
            intro p hp hpv
            rw [List.mem_reverse] at hp
            exact hnewlyNotVis p hp hpv
          constructor
          · -- CFInv
            obtain ⟨hcf1, hcf2, hcf3, hcf4⟩ := hc.cf
            refine ⟨?_, ?_, ?_, ?_⟩
            · rw [hlookOld start (fun hs => hnewlyNotVis start hs hc.startVis)]
              exact hcf1
            · rw [hd'vis start hc.startVis]
              exact hcf2
            · intro p hp
              by_cases hpn : p ∈ newly
              · rw [hlookNew p hpn] at hp
                cases hp
              · rw [hlookOld p hpn] at hp
                exact hcf3 p hp
            · intro p q hpq
              by_cases hpn : p ∈ newly
              · rw [hlookNew p hpn] at hpq
                have hqc : q = cur := by
                  injection hpq with h1
                  injection h1 with h2
                  exact h2.symm
                subst hqc
                refine ⟨?_, hnewlyN p hpn, ?_, ?_⟩
                · rw [hlookOld q (fun hs => hnewlyNotVis q hs hcurvis)]
                  exact (hdomvis q).mpr hcurvis
                · rw [hd'new p hpn, hd'vis q hcurvis]
                · intro hps
                  exact hnewlyNotVis p hpn (hps ▸ hc.startVis)
              · rw [hlookOld p hpn] at hpq
                obtain ⟨hq1, hq2, hq3, hq4⟩ := hcf4 p q hpq
                have hqvis : q ∈ s.visited := (hdomvis q).mp hq1
                have hpvis : p ∈ s.visited := (hdomvis p).mp (by rw [hpq]; simp)
                refine ⟨?_, hq2, ?_, hq4⟩
                · rw [hlookOld q (fun hs => hnewlyNotVis q hs hqvis)]
                  exact hq1
                · rw [hd'vis p hpvis, hd'vis q hqvis]
                  exact hq3
          · -- domVis
            intro p
            by_cases hpn : p ∈ newly
            · rw [hlookNew p hpn]
              simp [List.mem_append, List.mem_reverse, hpn]
            · rw [hlookOld p hpn]
              rw [hdomvis p]
              simp [List.mem_append, List.mem_reverse, hpn]
          · exact hnodup'
          · exact hvalid'
          · -- queueSub
            intro p hp
            rw [List.mem_append] at hp
            rw [List.mem_append, List.mem_reverse]
            rcases hp with hp | hp
            · exact Or.inr (hrestsub p hp)
            · exact Or.inl hp
          · -- queueNodup
            refine List.Nodup.append hqnodup.2 hnd ?_
            intro p hp hpn
            exact hnewlyNotVis p hpn (hrestsub p hp)
          · -- closure
            intro p hp hpq w hw
            rw [List.mem_append, List.mem_reverse] at hp
            rw [List.mem_append] at hpq
            push_neg at hpq
            rw [List.mem_append, List.mem_reverse]
            rcases hp with hp | hp
            · exact absurd hp hpq.2
            · by_cases hpc : p = cur
              · subst hpc
                rcases hcover' w hw with hwn | hwv
                · exact Or.inl hwn
                · exact Or.inr hwv
              · have hpnotq : p ∉ s.queue := by
                  rw [hq, List.mem_cons]
                  push_neg
                  exact ⟨hpc, hpq.1⟩
                exact Or.inr (hc.closure p hp hpnotq w hw)
          · -- startVis
            rw [List.mem_append, List.mem_reverse]
            exact Or.inr hc.startVis
          · -- distMin
            intro p hp k hk
            rw [List.mem_append, List.mem_reverse] at hp
            by_cases hpn : p ∈ newly
            · rw [hd'new p hpn]
              by_contra hlt
              push_neg at hlt
              have : k ≤ D := by omega
              exact hnewlyNotVis p hpn (hc.frontier p k hk this)
            · rcases hp with hp | hp
              · exact absurd hp hpn
              · rw [hd'vis p hp]
                exact hc.distMin p hp k hk
          · -- layer
            refine ⟨q1', q2 ++ newly, ?_, ?_, ?_⟩
            · rw [hrestsplit, List.append_assoc]
            · intro p hp
              have hpv : p ∈ s.visited := hrestsub p (by rw [hrestsplit]; exact List.mem_append_left _ hp)
              rw [hd'vis p hpv]
              exact h1 p (List.mem_cons_of_mem _ hp)
            · intro p hp
              rw [List.mem_append] at hp
              rcases hp with hp | hp
              · have hpv : p ∈ s.visited := hrestsub p (by rw [hrestsplit]; exact List.mem_append_right _ hp)
                rw [hd'vis p hpv]
                exact h2 p hp
              · rw [hd'new p hp, hdcur]
          · -- frontier
            intro v k hr hk
            rw [List.mem_append, List.mem_reverse]
            exact Or.inr (hc.frontier v k hr hk)
        · -- measure decreases
          rw [hexp]
          unfold bfsMeasure
          simp only [List.length_append, List.length_reverse]
          have hb : (newly.reverse ++ s.visited).length ≤ cellCount m := by
            refine nodup_valid_le_cellCount m _ ?_ ?_
            · refine List.Nodup.append (List.nodup_reverse.mpr hnd) hc.visNodup ?_
              intro p hp hpv
              rw [List.mem_reverse] at hp
              exact hnewlyNotVis p hp hpv
            · intro p hp
              rw [List.mem_append, List.mem_reverse] at hp
              rcases hp with hp | hp
              · exact mem_getNeighbors_valid (hnewlyN p hp)
              · exact hc.visValid p hp
          rw [List.length_append, List.length_reverse] at hb
          rw [hq]
          simp only [List.length_cons]
          omega

theorem alookup_ne_none_mem_keys {α : Type} {cf : List (Pos × α)} {p : Pos}
    (h : alookup cf p ≠ none) : p ∈ cf.map (·.1) := by
  induction cf with
  | nil => exact absurd rfl h
  | cons b l ih =>
    obtain ⟨q, v⟩ := b
    by_cases hqp : q = p
    · subst hqp
      simp
    · rw [alookup_cons_ne _ _ _ _ hqp] at h
      simp only [List.map_cons, List.mem_cons]
      exact Or.inr (ih h)

/-- A key's depth is below the predecessor-map length (its chain is a
duplicate-free list of keys). -/
theorem cfInv_d_lt_length {m : GameMap} {start : Pos}
    {cf : List (Pos × Option Pos)} {d : Pos → Nat} (h : CFInv m start cf d)
    {p : Pos} (hp : alookup cf p ≠ none) : d p < cf.length := by
  obtain ⟨ch, -, hlen, -, -, -, -, -, hnd, hkeys⟩ :=
    walkBack_correct h (d p + 1) p hp (by omega)
  have hsub : ch ⊆ cf.map (·.1) := fun x hx => alookup_ne_none_mem_keys (hkeys x hx)
  have := List.Subperm.length_le (hnd.subperm hsub)
  rw [List.length_map] at this
  omega

/-- At loop exit the positions marked visited are closed under neighbours
(queue empty), hence contain every reachable position. -/
theorem bfsInv_exhausted_complete {m : GameMap} {start : Pos} {s : BFSState}
    (h : BFSInv m start s) (hq : s.queue = []) :
    ∀ v k, NReach m start v k → v ∈ s.visited := by
  obtain ⟨d, D, hc⟩ := h
  intro v k hr
  induction hr with
  | refl => exact hc.startVis
  | step hw hadj ihw =>
    exact hc.closure _ ihw (by rw [hq]; exact List.not_mem_nil _) _ hadj

/-- Run the BFS loop from the initial state: it completes within the fuel and
ends by exhausting the queue or popping the goal, leaving the predecessor map
of an invariant state. -/
theorem bfs_run (m : GameMap) (start goal : Pos) (u : Bool)
    (hs : m.validPos start = true) :
    ∃ s' t, runLoop (bfsStep m goal u) (bfsFuel m)
        ⟨[start], [(start, none)], [start], if u then 1 else 0⟩ = some t ∧
      BFSInv m start s' ∧
      t.cameFrom = s'.cameFrom ∧ t.visited = s'.visited ∧ t.explored = s'.explored ∧
      (s'.queue = [] ∨ goal ∈ s'.visited) := by
  obtain ⟨s', t, hrun, hinv, hdone⟩ :=
    runLoop_total (bfsStep m goal u) (BFSInv m start) (bfsMeasure m)
      (fun s hI => bfsStep_progress m start goal u s hI) (bfsFuel m)
      ⟨[start], [(start, none)], [start], if u then 1 else 0⟩
      (bfsInv_init m start u hs)
      (by
        unfold bfsMeasure bfsFuel
        simp only [List.length_cons, List.length_nil, List.length_singleton]
        omega)
  refine ⟨s', t, hrun, hinv, ?_⟩
  unfold bfsStep at hdone
  cases hq : s'.queue with
  | nil =>
    rw [hq] at hdone
    dsimp only at hdone
    cases hdone
    exact ⟨rfl, rfl, rfl, Or.inl rfl⟩
  | cons cur rest =>
    rw [hq] at hdone
    dsimp only at hdone
    by_cases hg : cur = goal
    · rw [if_pos hg] at hdone
      cases hdone
      subst hg
      obtain ⟨d, D, hc⟩ := hinv
      exact ⟨rfl, rfl, rfl,
        Or.inr (hc.queueSub cur (by rw [hq]; exact List.mem_cons_self _ _))⟩
    · rw [if_neg hg] at hdone
      cases hdone

/-- BFS `find_path` on invalid endpoints or an unreachable goal: empty path,
infinite cost, no exception. -/
theorem bfsFindPath_fail (m : GameMap) (u : Bool) (start goal : Pos)
    (h : ¬(m.validPos start = true ∧ m.validPos goal = true ∧
      Reaches m start goal)) :
    ∃ e, bfsFindPath m u start goal = some ⟨[], none, e⟩ := by
  by_cases hs : m.validPos start = true
  · by_cases hg : m.validPos goal = true
    · have hnr : ¬ Reaches m start goal := fun hr => h ⟨hs, hg, hr⟩
      obtain ⟨s', t, hrun, hinv, hcf, hvis, hexp, hshape⟩ :=
        bfs_run m start goal u hs
      have hlook : alookup t.cameFrom goal = none := by
        rw [hcf]
        by_contra hlk
        obtain ⟨d, D, hc⟩ := hinv
        exact hnr (cfInv_reaches hc.cf hlk)
      refine ⟨t.explored, ?_⟩
      unfold bfsFindPath
      simp only [hs, hg, Bool.and_self, Bool.not_true, Bool.false_eq_true,
        if_false, hrun, hlook]
    · have hg' : m.validPos goal = false := by simpa using hg
      refine ⟨0, ?_⟩
      unfold bfsFindPath
      simp [hs, hg']
  · have hs' : m.validPos start = false := by simpa using hs
    refine ⟨0, ?_⟩
    unfold bfsFindPath
    simp [hs']

/-- BFS `find_path` on valid endpoints with a reachable goal: the returned
path realizes the minimal number of steps `dval`, and the returned cost is
exactly that step count. -/
theorem bfsFindPath_spec (m : GameMap) (u : Bool) (start goal : Pos)
    (hs : m.validPos start = true) (hg : m.validPos goal = true)
    (hreach : Reaches m start goal) :
    ∃ out dval,
      bfsFindPath m u start goal = some out ∧
      out.path.length = dval + 1 ∧
      out.cost = some (dval : Int) ∧
      NReach m start goal dval ∧
      (∀ k, NReach m start goal k → dval ≤ k) := by
  obtain ⟨s', t, hrun, hinv, hcf, hvis, hexp, hshape⟩ := bfs_run m start goal u hs
  have hgvis : goal ∈ s'.visited := by
    rcases hshape with hq | hgv
    · obtain ⟨n, hn⟩ := hreach
      exact bfsInv_exhausted_complete hinv hq goal n hn
    · exact hgv
  obtain ⟨d, D, hc⟩ := hinv
  have hlook : alookup s'.cameFrom goal ≠ none := (hc.domVis goal).mpr hgvis
  have hdlt := cfInv_d_lt_length hc.cf hlook
  obtain ⟨chain, hwb, hlen, hhead, hlast, hfilt, hnr, -, -, -⟩ :=
    walkBack_correct hc.cf (s'.cameFrom.length + 1) goal hlook (by omega)
  refine ⟨⟨chain.reverse,
      some ((chain.filter fun p => decide (p ≠ start)).length : Int),
      t.explored⟩, d goal, ?_, ?_, ?_, hnr,
    fun k hk => hc.distMin goal hgvis k hk⟩
  · unfold bfsFindPath
    simp only [hs, hg, Bool.and_self, Bool.not_true, Bool.false_eq_true,
      if_false, hrun, hcf]
    cases hv : alookup s'.cameFrom goal with
    | none => exact absurd hv hlook
    | some v =>
      rw [hwb]
  · simp only [List.length_reverse]
    omega
  · simp only [hfilt]

theorem insertSorted_perm (e : Int × Pos) (l : List (Int × Pos)) :
    (insertSorted e l).Perm (e :: l) := by
  induction l with
  | nil => exact List.Perm.refl _
  | cons x xs ih =>
    unfold insertSorted
    by_cases hx : entryLt x e
    · rw [if_pos hx]
      exact (ih.cons x).trans (List.Perm.swap _ _ _)
    · rw [if_neg hx]

theorem sortEntries_perm (l : List (Int × Pos)) : (sortEntries l).Perm l := by
  induction l with
  | nil => exact List.Perm.refl _
  | cons x xs ih =>
    unfold sortEntries at *
    exact ((insertSorted_perm x (xs.foldr insertSorted [])).trans (ih.cons x))

/-- Characterization of greedy's discovery loop over an entry list: the
positions not yet visited or discovered are bound to `cur` and pushed with
their heuristic key; `visited` and `explored` do not change. -/
theorem greedyDiscover_char (cur goal : Pos) :
    ∀ (es : List (Int × Pos)) (t : GreedyState),
      ∃ newly : List Pos,
        es.foldl
          (fun t e =>
            let np := e.2
            if np ∉ t.visited ∧ np ∉ akeys t.cameFrom then
              { t with
                cameFrom := (np, some cur) :: t.cameFrom
                queue := t.queue ++ [(manhattan np goal, np)] }
            else t) t =
          { queue := t.queue ++ newly.map fun np => (manhattan np goal, np)
            cameFrom := (newly.map fun np => (np, some cur)).reverse ++ t.cameFrom
            visited := t.visited
            explored := t.explored } ∧
        newly.Nodup ∧
        (∀ p ∈ newly, (∃ c, (c, p) ∈ es) ∧ p ∉ t.visited ∧ p ∉ akeys t.cameFrom) ∧
        (∀ e ∈ es, e.2 ∈ newly ∨ e.2 ∈ t.visited ∨ e.2 ∈ akeys t.cameFrom) := by
  intro es
  induction es with
  | nil =>
    intro t
    refine ⟨[], ?_, List.nodup_nil, by simp, by simp⟩
    cases t
    simp
  | cons e es' ih =>
    intro t
    simp only [List.foldl_cons]
    by_cases he : e.2 ∉ t.visited ∧ e.2 ∉ akeys t.cameFrom
    · rw [if_pos he]
      obtain ⟨newly1, hstate, hnd, hsub, hcover⟩ := ih
        { t with
          cameFrom := (e.2, some cur) :: t.cameFrom
          queue := t.queue ++ [(manhattan e.2 goal, e.2)] }
      refine ⟨e.2 :: newly1, ?_, ?_, ?_, ?_⟩
      · rw [hstate]
        simp [List.append_assoc]
      · refine List.nodup_cons.mpr ⟨fun hc => ?_, hnd⟩
        have := (hsub e.2 hc).2.2
        simp [akeys] at this
      · intro p hp
        rcases List.mem_cons.mp hp with hp | hp
        · subst hp
          exact ⟨⟨e.1, List.mem_cons_self _ _⟩, he.1, he.2⟩
        · obtain ⟨⟨c, hc⟩, h2, h3⟩ := hsub p hp
          refine ⟨⟨c, List.mem_cons_of_mem _ hc⟩, h2, fun hk => h3 ?_⟩
          simp only [akeys, List.map_cons, List.mem_cons]
          right
          simpa [akeys] using hk
      · intro f hf
        rcases List.mem_cons.mp hf with hf | hf
        · exact Or.inl (hf ▸ List.mem_cons_self _ _)
        · rcases hcover f hf with hc | hc | hc
          · exact Or.inl (List.mem_cons_of_mem _ hc)
          · exact Or.inr (Or.inl hc)
          · simp only [akeys, List.map_cons, List.mem_cons] at hc
            rcases hc with hc | hc
            · exact Or.inl (hc ▸ List.mem_cons_self _ _)
            · exact Or.inr (Or.inr (by simpa [akeys] using hc))
    · rw [if_neg he]
      obtain ⟨newly, hstate, hnd, hsub, hcover⟩ := ih t
      refine ⟨newly, hstate, hnd, ?_, ?_⟩
      · intro p hp
        obtain ⟨⟨c, hc⟩, h2, h3⟩ := hsub p hp
        exact ⟨⟨c, List.mem_cons_of_mem _ hc⟩, h2, h3⟩
      · intro f hf
        rcases List.mem_cons.mp hf with hf | hf
        · subst hf
          push_neg at he
          by_cases hv : f.2 ∈ t.visited
          · exact Or.inr (Or.inl hv)
          · exact Or.inr (Or.inr (he hv))
        · exact hcover f hf

/-- The greedy best-first master invariant. -/
structure GreedyInvCore (m : GameMap) (start : Pos) (s : GreedyState)
    (d : Pos → Nat) : Prop where
  cf : CFInv m start s.cameFrom d
  keysNodup : (s.cameFrom.map (·.1)).Nodup
  keysValid : ∀ p, alookup s.cameFrom p ≠ none → m.validPos p = true
  visSub : ∀ p ∈ s.visited, alookup s.cameFrom p ≠ none
  visNodup : s.visited.Nodup
  queueDom : ∀ e ∈ s.queue, alookup s.cameFrom e.2 ≠ none
  pending : ∀ p, alookup s.cameFrom p ≠ none → p ∉ s.visited →
    ∃ c, (c, p) ∈ s.queue
  closure : ∀ p ∈ s.visited,
    ((p = start → ∀ c, (c, start) ∉ s.queue) →
      ∀ w ∈ getNeighbors m p, alookup s.cameFrom w ≠ none)
  startDom : alookup s.cameFrom start ≠ none

def GreedyInv (m : GameMap) (start : Pos) (s : GreedyState) : Prop :=
  ∃ d, GreedyInvCore m start s d

def greedyMeasure (m : GameMap) (s : GreedyState) : Nat :=
  s.queue.length + (cellCount m - s.visited.length) +
    (cellCount m - s.cameFrom.length)

theorem greedyInv_init (m : GameMap) (start goal : Pos) (u : Bool)
    (hs : m.validPos start = true) :
    GreedyInv m start
      ⟨[(manhattan start goal, start)], [(start, none)],
        if u then [start] else [], if u then 1 else 0⟩ := by
  have hlook : ∀ p, alookup [(start, (none : Option Pos))] p =
      if start = p then some none else none := by
    intro p
    unfold alookup
    split <;> rfl
  have hdom : ∀ p, alookup [(start, (none : Option Pos))] p ≠ none → p = start := by
    intro p hp
    rw [hlook] at hp
    by_cases h : start = p
    · exact h.symm
    · rw [if_neg h] at hp
      exact absurd rfl hp
  refine ⟨fun _ => 0, ?_⟩
  constructor
  · refine ⟨alookup_cons_self _ _ _, rfl, ?_, ?_⟩
    · intro p hp
      rw [hlook] at hp
      by_cases h : start = p
      · exact h.symm
      · rw [if_neg h] at hp; cases hp
    · intro p q hpq
      rw [hlook] at hpq
      by_cases h : start = p
      · rw [if_pos h] at hpq; cases hpq
      · rw [if_neg h] at hpq; cases hpq
  · exact List.nodup_singleton _
  · intro p hp
    rw [hdom p hp]
    exact hs
  · intro p hp
    cases u with
    | false => cases hp
    | true =>
      rw [show p = start by simpa using hp, hlook, if_pos rfl]
      simp
  · cases u <;> simp
  · intro e he
    rw [List.mem_singleton] at he
    subst he
    rw [hlook, if_pos rfl]
    simp
  · intro p hp hpv
    refine ⟨manhattan start goal, ?_⟩
    rw [hdom p hp]
    exact List.mem_singleton.mpr rfl
  · intro p hp hcond
    cases u with
    | false => simp at hp
    | true =>
      have hps : p = start := by simpa using hp
      subst hps
      have hmem : ((manhattan p goal, p) : Int × Pos) ∈ [(manhattan p goal, p)] :=
        List.mem_singleton.mpr rfl
      exact absurd hmem (hcond rfl (manhattan p goal))
  · rw [alookup_cons_self]
    simp

theorem mem_akeys_iff {α : Type} (l : List (Pos × α)) (p : Pos) :
    p ∈ akeys l ↔ alookup l p ≠ none := by
  induction l with
  | nil => simp [akeys, alookup]
  | cons b t ih =>
    obtain ⟨q, v⟩ := b
    by_cases hqp : q = p
    · subst hqp
      rw [alookup_cons_self]
      simp [akeys]
    · rw [alookup_cons_ne _ _ _ _ hqp]
      simp only [akeys, List.map_cons, List.mem_cons] at ih ⊢
      rw [ih]
      constructor
      · intro h
        rcases h with h | h
        · exact absurd h.symm hqp
        · exact h
      · exact Or.inr

/-- Invariant preservation and measure decrease for one greedy expansion,
with the post-pop state `s1` abstract (it covers both the fresh-pop and the
already-visited-start cases). -/
theorem greedyExpand_inv (m : GameMap) (start goal : Pos) (s : GreedyState)
    (d : Pos → Nat) (hc : GreedyInvCore m start s d) (c : Int) (cur : Pos)
    (rest : List (Int × Pos))
    (hmemq : ∀ e, e ∈ s.queue ↔ e = (c, cur) ∨ e ∈ rest)
    (hlen : s.queue.length = rest.length + 1)
    (hcurdom : alookup s.cameFrom cur ≠ none)
    (s1 : GreedyState)
    (hs1cf : s1.cameFrom = s.cameFrom)
    (hs1q : s1.queue = rest)
    (hs1vis : ∀ p, p ∈ s1.visited ↔ p = cur ∨ p ∈ s.visited)
    (hs1nodup : s1.visited.Nodup)
    (hs1len : s.visited.length ≤ s1.visited.length ∧
      s1.visited.length ≤ s.visited.length + 1) :
    GreedyInv m start
      ((sortEntries (((getNeighbors m cur).filter fun np =>
          decide (np ∉ s1.visited)).map fun np => (manhattan np goal, np))).foldl
        (fun t e =>
          let np := e.2
          if np ∉ t.visited ∧ np ∉ akeys t.cameFrom then
            { t with
              cameFrom := (np, some cur) :: t.cameFrom
              queue := t.queue ++ [(manhattan np goal, np)] }
          else t) s1) ∧
    greedyMeasure m
      ((sortEntries (((getNeighbors m cur).filter fun np =>
          decide (np ∉ s1.visited)).map fun np => (manhattan np goal, np))).foldl
        (fun t e =>
          let np := e.2
          if np ∉ t.visited ∧ np ∉ akeys t.cameFrom then
            { t with
              cameFrom := (np, some cur) :: t.cameFrom
              queue := t.queue ++ [(manhattan np goal, np)] }
          else t) s1) < greedyMeasure m s := by
  obtain ⟨newly, hstate, hnd, hsub, hcover⟩ :=
    greedyDiscover_char cur goal
      (sortEntries (((getNeighbors m cur).filter fun np =>
        decide (np ∉ s1.visited)).map fun np => (manhattan np goal, np))) s1
  rw [hstate, hs1cf, hs1q]
  have hesmem : ∀ e, e ∈ sortEntries (((getNeighbors m cur).filter fun np =>
      decide (np ∉ s1.visited)).map fun np => (manhattan np goal, np)) ↔
      e ∈ ((getNeighbors m cur).filter fun np =>
        decide (np ∉ s1.visited)).map fun np => (manhattan np goal, np) :=
    fun e => (sortEntries_perm _).mem_iff
  have hnewlyN : ∀ p ∈ newly, p ∈ getNeighbors m cur := by
    intro p hp
    obtain ⟨⟨c', hc'⟩, -, -⟩ := hsub p hp
    rw [hesmem] at hc'
    rw [List.mem_map] at hc'
    obtain ⟨np, hnp, heq⟩ := hc'
    have : np = p := congrArg Prod.snd heq
    subst this
    exact List.mem_of_mem_filter hnp
  have hnewlyNotDom : ∀ p ∈ newly, alookup s.cameFrom p = none := by
    intro p hp
    obtain ⟨-, -, h3⟩ := hsub p hp
    rw [hs1cf] at h3
    by_contra hne
    exact h3 ((mem_akeys_iff _ _).mpr hne)
  have hnewlyNotVis1 : ∀ p ∈ newly, p ∉ s1.visited := fun p hp => (hsub p hp).2.1
  have hkeys : ((newly.map fun np => (np, (some cur : Option Pos))).reverse).map
      (·.1) = newly.reverse := by
    rw [List.map_reverse, List.map_map]
    simp [Function.comp_def]
  have hlookOld : ∀ p, p ∉ newly →
      alookup ((newly.map fun np => (np, (some cur : Option Pos))).reverse ++
        s.cameFrom) p = alookup s.cameFrom p := by
    intro p hp
    exact alookup_append_not_mem _ _ _ (by rw [hkeys]; simpa using hp)
  have hlookNew : ∀ p ∈ newly,
      alookup ((newly.map fun np => (np, (some cur : Option Pos))).reverse ++
        s.cameFrom) p = some (some cur) := by
    intro p hp
    refine alookup_append_mem_const _ _ _ _ ?_ (by rw [hkeys]; simpa using hp)
    intro b hb
    rw [List.mem_reverse, List.mem_map] at hb
    obtain ⟨np, -, hnp⟩ := hb
    rw [← hnp]
  have hdomMono : ∀ p, alookup s.cameFrom p ≠ none →
      alookup ((newly.map fun np => (np, (some cur : Option Pos))).reverse ++
        s.cameFrom) p ≠ none := by
    intro p hp
    by_cases hn : p ∈ newly
    · rw [hlookNew p hn]
      simp
    · rw [hlookOld p hn]
      exact hp
  have hcurNotNew : cur ∉ newly := fun hcn => hcurdom (hnewlyNotDom cur hcn)
  have hstartNotNew : start ∉ newly := fun hsn =>
    hc.startDom (hnewlyNotDom start hsn)
  set d' : Pos → Nat :=
    fun p => if alookup s.cameFrom p ≠ none then d p else d cur + 1 with hd'
  have hd'dom : ∀ p, alookup s.cameFrom p ≠ none → d' p = d p := by
    intro p hp
    simp only [hd', if_pos hp]
  have hd'new : ∀ p ∈ newly, d' p = d cur + 1 := by
    intro p hp
    simp only [hd']
    rw [if_neg]
    simp [hnewlyNotDom p hp]
  have hcoverN : ∀ w ∈ getNeighbors m cur,
      w ∈ newly ∨ w ∈ s1.visited ∨ alookup s.cameFrom w ≠ none := by
    intro w hw
    by_cases hwv : w ∈ s1.visited
    · exact Or.inr (Or.inl hwv)
    · have hmem : (manhattan w goal, w) ∈ ((getNeighbors m cur).filter fun np =>
          decide (np ∉ s1.visited)).map fun np => (manhattan np goal, np) := by
        rw [List.mem_map]
        exact ⟨w, List.mem_filter.mpr ⟨hw, by simpa using hwv⟩, rfl⟩
      rcases hcover (manhattan w goal, w) ((hesmem _).mpr hmem) with hcc | hcc | hcc
      · exact Or.inl hcc
      · exact Or.inr (Or.inl hcc)
      · rw [hs1cf] at hcc
        exact Or.inr (Or.inr ((mem_akeys_iff _ _).mp hcc))
  have hvisDom : ∀ p ∈ s1.visited, alookup s.cameFrom p ≠ none := by
    intro p hp
    rcases (hs1vis p).mp hp with hp | hp
    · exact hp ▸ hcurdom
    · exact hc.visSub p hp
  constructor
  · refine ⟨d', ?_⟩
    constructor
    · -- CFInv
      obtain ⟨hcf1, hcf2, hcf3, hcf4⟩ := hc.cf
      refine ⟨?_, ?_, ?_, ?_⟩
      · rw [hlookOld start hstartNotNew]
        exact hcf1
      · rw [hd'dom start hc.startDom]
        exact hcf2
      · intro p hp
        by_cases hpn : p ∈ newly
        · rw [hlookNew p hpn] at hp
          cases hp
        · rw [hlookOld p hpn] at hp
          exact hcf3 p hp
      · intro p q hpq
        by_cases hpn : p ∈ newly
        · rw [hlookNew p hpn] at hpq
          have hqc : q = cur := by
            injection hpq with h1
            injection h1 with h2
            exact h2.symm
          subst hqc
          refine ⟨hdomMono q hcurdom, hnewlyN p hpn, ?_, ?_⟩
          · rw [hd'new p hpn, hd'dom q hcurdom]
          · intro hps
            exact hstartNotNew (hps ▸ hpn)
        · rw [hlookOld p hpn] at hpq
          obtain ⟨hq1, hq2, hq3, hq4⟩ := hcf4 p q hpq
          refine ⟨hdomMono q hq1, hq2, ?_, hq4⟩
          rw [hd'dom p (by rw [hpq]; simp), hd'dom q hq1]
          exact hq3
    · -- keysNodup
      rw [List.map_append, hkeys]
      refine List.Nodup.append (List.nodup_reverse.mpr hnd) hc.keysNodup ?_
      intro p hp hpk
      rw [List.mem_reverse] at hp
      exact (hnewlyNotDom p hp ▸ (mem_akeys_iff _ _).mp hpk) rfl
    · -- keysValid
      intro p hp
      by_cases hpn : p ∈ newly
      · exact mem_getNeighbors_valid (hnewlyN p hpn)
      · rw [hlookOld p hpn] at hp
        exact hc.keysValid p hp
    · -- visSub
      intro p hp
      exact hdomMono p (hvisDom p hp)
    · exact hs1nodup
    · -- queueDom
      intro e he
      rw [List.mem_append] at he
      rcases he with he | he
      · exact hdomMono e.2 (hc.queueDom e ((hmemq e).mpr (Or.inr he)))
      · rw [List.mem_map] at he
        obtain ⟨np, hnp, heq⟩ := he
        have : np = e.2 := congrArg Prod.snd heq
        subst this
        rw [hlookNew e.2 hnp]
        simp
    · -- pending
      intro p hp hpv
      by_cases hpn : p ∈ newly
      · refine ⟨manhattan p goal, ?_⟩
        rw [List.mem_append, List.mem_map]
        exact Or.inr ⟨p, hpn, rfl⟩
      · rw [hlookOld p hpn] at hp
        have hpsv : p ∉ s.visited := fun hsv => hpv ((hs1vis p).mpr (Or.inr hsv))
        obtain ⟨c', hc'⟩ := hc.pending p hp hpsv
        rcases (hmemq (c', p)).mp hc' with heq | hmem
        · injection heq with h1 h2
          exact absurd ((hs1vis p).mpr (Or.inl h2)) hpv
        · exact ⟨c', List.mem_append_left _ hmem⟩
    · -- closure
      intro p hp hcond
      by_cases hpc : p = cur
      · subst hpc
        intro w hw
        rcases hcoverN w hw with hcc | hcc | hcc
        · rw [hlookNew w hcc]
          simp
        · exact hdomMono w (hvisDom w hcc)
        · exact hdomMono w hcc
      · have hpv : p ∈ s.visited := by
          rcases (hs1vis p).mp hp with hp' | hp'
          · exact absurd hp' hpc
          · exact hp'
        intro w hw
        refine hdomMono w (hc.closure p hpv ?_ w hw)
        intro hps c'' hmem
        rcases (hmemq (c'', start)).mp hmem with heq | hmem'
        · injection heq with h1 h2
          exact hpc (hps.trans h2)
        · exact hcond hps c'' (List.mem_append_left _ hmem')
    · -- startDom
      exact hdomMono start hc.startDom
  · -- measure
    unfold greedyMeasure
    simp only [List.length_append, List.length_map, List.length_reverse]
    have hkeyBound : ((((newly.map fun np => (np, (some cur : Option Pos))).reverse ++
        s.cameFrom)).map (·.1)).length ≤ cellCount m := by
      refine nodup_valid_le_cellCount m _ ?_ ?_
      · rw [List.map_append, hkeys]
        refine List.Nodup.append (List.nodup_reverse.mpr hnd) hc.keysNodup ?_
        intro p hp hpk
        rw [List.mem_reverse] at hp
        exact (hnewlyNotDom p hp ▸ (mem_akeys_iff _ _).mp hpk) rfl
      · intro p hp
        have : alookup ((newly.map fun np => (np, (some cur : Option Pos))).reverse ++
            s.cameFrom) p ≠ none := (mem_akeys_iff _ _).mp hp
        by_cases hpn : p ∈ newly
        · exact mem_getNeighbors_valid (hnewlyN p hpn)
        · rw [hlookOld p hpn] at this
          exact hc.keysValid p this
    rw [List.length_map, List.length_append, List.length_reverse,
      List.length_map] at hkeyBound
    have hvisBound : s1.visited.length ≤ cellCount m := by
      refine nodup_valid_le_cellCount m _ hs1nodup ?_
      intro p hp
      exact hc.keysValid p (hvisDom p hp)
    omega

theorem greedyStep_progress (m : GameMap) (start goal : Pos) (u : Bool)
    (s : GreedyState) (h : GreedyInv m start s) :
    (∃ t, greedyStep m start goal u s = .done t) ∨
    (∃ t, greedyStep m start goal u s = .cont t ∧ GreedyInv m start t ∧
      greedyMeasure m t < greedyMeasure m s) := by
  obtain ⟨d, hc⟩ := h
  cases hpop : heapPop s.queue with
  | none => exact Or.inl ⟨s, by unfold greedyStep; rw [hpop]⟩
  | some pr =>
    obtain ⟨⟨c, cur⟩, rest⟩ := pr
    obtain ⟨hperm, hmin⟩ := heapPop_spec _ _ _ hpop
    have hlen : s.queue.length = rest.length + 1 := by
      have := hperm.length_eq
      simpa using this
    have hmemq : ∀ e, e ∈ s.queue ↔ e = (c, cur) ∨ e ∈ rest := by
      intro e
      rw [hperm.mem_iff]
      simp
    have hcurdom : alookup s.cameFrom cur ≠ none :=
      hc.queueDom (c, cur) ((hmemq _).mpr (Or.inl rfl))
    by_cases hg : cur = goal
    · exact Or.inl ⟨_, by unfold greedyStep; rw [hpop]; dsimp only; rw [if_pos hg]⟩
    · by_cases hskip : cur ≠ start ∧ cur ∈ s.visited
      · refine Or.inr ⟨_,
          by unfold greedyStep; rw [hpop]; dsimp only; rw [if_neg hg, if_pos hskip],
          ⟨d, ?_⟩, ?_⟩
        · constructor
          · exact hc.cf
          · exact hc.keysNodup
          · exact hc.keysValid
          · exact hc.visSub
          · exact hc.visNodup
          · exact fun e he => hc.queueDom e ((hmemq e).mpr (Or.inr he))
          · intro p hp hpv
            obtain ⟨c', hc'⟩ := hc.pending p hp hpv
            rcases (hmemq (c', p)).mp hc' with heq | hmem
            · injection heq with h1 h2
              exact absurd (h2 ▸ hskip.2) hpv
            · exact ⟨c', hmem⟩
          · intro p hp hcond
            refine hc.closure p hp ?_
            intro hps c'
            intro hmem
            rcases (hmemq (c', start)).mp hmem with heq | hmem'
            · injection heq with h1 h2
              exact hskip.1 h2.symm
            · exact hcond hps c' hmem'
          · exact hc.startDom
        · unfold greedyMeasure
          dsimp only
          omega
      · refine Or.inr ⟨_,
          by unfold greedyStep; rw [hpop]; dsimp only; rw [if_neg hg, if_neg hskip],
          ?_⟩
        by_cases hv : cur ∈ s.visited
        · rw [if_pos hv]
          refine greedyExpand_inv m start goal s d hc c cur rest hmemq hlen hcurdom
            _ rfl rfl ?_ ?_ ?_
          · intro p
            constructor
            · intro hp
              exact Or.inr hp
            · intro hp
              rcases hp with hp | hp
              · exact hp ▸ hv
              · exact hp
          · exact hc.visNodup
          · dsimp only
            omega
        · rw [if_neg hv]
          refine greedyExpand_inv m start goal s d hc c cur rest hmemq hlen hcurdom
            _ rfl rfl ?_ ?_ ?_
          · intro p
            simp [List.mem_cons]
          · exact List.nodup_cons.mpr ⟨hv, hc.visNodup⟩
          · simp only [List.length_cons]
            omega

theorem greedyInv_exhausted_complete {m : GameMap} {start : Pos}
    {s : GreedyState} (h : GreedyInv m start s) (hq : s.queue = []) :
    ∀ v k, NReach m start v k → alookup s.cameFrom v ≠ none := by
  obtain ⟨d, hc⟩ := h
  intro v k hr
  induction hr with
  | refl => exact hc.startDom
  | step hw hadj ihw =>
    rename_i p q n
    have hpvis : p ∈ s.visited := by
      by_contra hpv
      obtain ⟨c, hcq⟩ := hc.pending p ihw hpv
      rw [hq] at hcq
      exact List.not_mem_nil _ hcq
    exact hc.closure p hpvis
      (fun _ c hmem => by rw [hq] at hmem; exact List.not_mem_nil _ hmem) _ hadj

/-- Run the greedy best-first loop from the initial state: it completes within
the fuel, leaving an invariant state whose queue is exhausted or whose
predecessor map already contains the goal. -/
theorem greedy_run (m : GameMap) (start goal : Pos) (u : Bool)
    (hs : m.validPos start = true) :
    ∃ s' t, runLoop (greedyStep m start goal u) (greedyFuel m)
        ⟨[(manhattan start goal, start)], [(start, none)],
          if u then [start] else [], if u then 1 else 0⟩ = some t ∧
      GreedyInv m start s' ∧
      t.cameFrom = s'.cameFrom ∧ t.explored = s'.explored ∧
      (s'.queue = [] ∨ alookup s'.cameFrom goal ≠ none) := by
  obtain ⟨s', t, hrun, hinv, hdone⟩ :=
    runLoop_total (greedyStep m start goal u) (GreedyInv m start)
      (greedyMeasure m)
      (fun s hI => greedyStep_progress m start goal u s hI) (greedyFuel m)
      ⟨[(manhattan start goal, start)], [(start, none)],
        if u then [start] else [], if u then 1 else 0⟩
      (greedyInv_init m start goal u hs)
      (by
        unfold greedyMeasure greedyFuel
        cases u <;>
          simp only [List.length_cons, List.length_nil] <;>
          omega)
  refine ⟨s', t, hrun, hinv, ?_⟩
  unfold greedyStep at hdone
  cases hpop : heapPop s'.queue with
  | none =>
    rw [hpop] at hdone
    dsimp only at hdone
    cases hdone
    exact ⟨rfl, rfl, Or.inl ((heapPop_nil_iff _).mp hpop)⟩
  | some pr =>
    obtain ⟨⟨c, cur⟩, rest⟩ := pr
    rw [hpop] at hdone
    dsimp only at hdone
    obtain ⟨d, hc⟩ := hinv
    obtain ⟨hperm, -⟩ := heapPop_spec _ _ _ hpop
    have hcurdom : alookup s'.cameFrom cur ≠ none :=
      hc.queueDom (c, cur) (hperm.mem_iff.mpr (List.mem_cons_self _ _))
    by_cases hg : cur = goal
    · rw [if_pos hg] at hdone
      cases hdone
      exact ⟨rfl, rfl, Or.inr (hg ▸ hcurdom)⟩
    · rw [if_neg hg] at hdone
      by_cases hskip : cur ≠ start ∧ cur ∈ s'.visited
      · rw [if_pos hskip] at hdone
        cases hdone
      · rw [if_neg hskip] at hdone
        cases hdone

/-- Greedy best-first `find_path` on invalid endpoints or an unreachable goal:
empty path, infinite cost, no exception. -/
theorem greedyFindPath_fail (m : GameMap) (u : Bool) (start goal : Pos)
    (h : ¬(m.validPos start = true ∧ m.validPos goal = true ∧
      Reaches m start goal)) :
    ∃ e, greedyFindPath m u start goal = some ⟨[], none, e⟩ := by
  by_cases hs : m.validPos start = true
  · by_cases hg : m.validPos goal = true
    · have hnr : ¬ Reaches m start goal := fun hr => h ⟨hs, hg, hr⟩
      obtain ⟨s', t, hrun, hinv, hcf, hexp, hshape⟩ := greedy_run m start goal u hs
      have hlook : alookup t.cameFrom goal = none := by
        rw [hcf]
        by_contra hlk
        obtain ⟨d, hc⟩ := hinv
        exact hnr (cfInv_reaches hc.cf hlk)
      refine ⟨t.explored, ?_⟩
      unfold greedyFindPath
      simp only [hs, hg, Bool.and_self, Bool.not_true, Bool.false_eq_true,
        if_false, hrun, hlook]
    · have hg' : m.validPos goal = false := by simpa using hg
      refine ⟨0, ?_⟩
      unfold greedyFindPath
      simp [hs, hg']
  · have hs' : m.validPos start = false := by simpa using hs
    refine ⟨0, ?_⟩
    unfold greedyFindPath
    simp [hs']

/-- Greedy best-first `find_path` on valid endpoints with a reachable goal:
the returned path realizes some walk of `dval` unit steps and the returned
cost is exactly that step count. -/
theorem greedyFindPath_spec (m : GameMap) (u : Bool) (start goal : Pos)
    (hs : m.validPos start = true) (hg : m.validPos goal = true)
    (hreach : Reaches m start goal) :
    ∃ out dval,
      greedyFindPath m u start goal = some out ∧
      out.path.length = dval + 1 ∧
      out.cost = some (dval : Int) ∧
      NReach m start goal dval := by
  obtain ⟨s', t, hrun, hinv, hcf, hexp, hshape⟩ := greedy_run m start goal u hs
  have hgdom : alookup s'.cameFrom goal ≠ none := by
    rcases hshape with hq | hgd
    · obtain ⟨n, hn⟩ := hreach
      exact greedyInv_exhausted_complete hinv hq goal n hn
    · exact hgd
  obtain ⟨d, hc⟩ := hinv
  have hdlt := cfInv_d_lt_length hc.cf hgdom
  obtain ⟨chain, hwb, hlen, hhead, hlast, hfilt, hnr, -, -, -⟩ :=
    walkBack_correct hc.cf (s'.cameFrom.length + 1) goal hgdom (by omega)
  refine ⟨⟨chain.reverse,
      some ((chain.filter fun p => decide (p ≠ start)).length : Int),
      t.explored⟩, d goal, ?_, ?_, ?_, hnr⟩
  · unfold greedyFindPath
    simp only [hs, hg, Bool.and_self, Bool.not_true, Bool.false_eq_true,
      if_false, hrun, hcf]
    cases hv : alookup s'.cameFrom goal with
    | none => exact absurd hv hgdom
    | some v =>
      rw [hwb]
  · simp only [List.length_reverse]
    omega
  · simp only [hfilt]

/-! ### The Dijkstra invariant stack -/

theorem first_unvisited {m : GameMap} {start : Pos} (S : List Pos)
    (hstart : start ∈ S) :
    ∀ {v : Pos} {k : Nat}, NReach m start v k → v ∉ S →
      ∃ u z j k2, u ∈ S ∧ z ∉ S ∧ z ∈ getNeighbors m u ∧
        NReach m start u j ∧ NReach m z v k2 ∧ j + 1 + k2 ≤ k := by
  intro v k h
  induction h with
  | refl => intro hv; exact absurd hstart hv
  | step hw hadj ih =>
    rename_i p q n
    intro hq
    by_cases hp : p ∈ S
    · exact ⟨p, q, n, 0, hp, hq, hadj, hw, NReach.refl, by omega⟩
    · obtain ⟨u, z, j, k2, h1, h2, h3, h4, h5, h6⟩ := ih hp
      exact ⟨u, z, j, k2 + 1, h1, h2, h3, h4, NReach.step h5 hadj, by omega⟩

theorem getNeighbors_ne_self {m : GameMap} {p q : Pos}
    (h : q ∈ getNeighbors m p) : q ≠ p := by
  intro he
  have h1 := mem_getNeighbors_manhattan h
  rw [he, manhattan_self] at h1
  exact absurd h1 (by decide)

theorem getNeighbors_nodup (m : GameMap) (p : Pos) : (getNeighbors m p).Nodup := by
  unfold getNeighbors
  refine List.Nodup.filter _ ?_
  obtain ⟨x, y⟩ := p
  simp [Prod.ext_iff]
  omega

theorem getNeighbors_length_le (m : GameMap) (p : Pos) :
    (getNeighbors m p).length ≤ 4 := by
  unfold getNeighbors
  have := List.length_filter_le (fun q => m.validPos q)
    [(p.1 + 1, p.2), (p.1 - 1, p.2), (p.1, p.2 + 1), (p.1, p.2 - 1)]
  simpa using this

theorem dijkstraRelaxOne_visited {cur np : Pos} {t : DijkstraState}
    (hv : np ∈ t.visited) : dijkstraRelaxOne cur (some t) np = some t := by
  unfold dijkstraRelaxOne
  dsimp only
  rw [if_pos hv]

theorem dijkstraRelaxOne_improve {cur np : Pos} {gc : Int} {t : DijkstraState}
    (hv : np ∉ t.visited) (hgc : alookup t.costSoFar cur = some gc)
    (himp : alookup t.costSoFar np = none ∨
      ∃ old, alookup t.costSoFar np = some old ∧ gc + 1 < old) :
    dijkstraRelaxOne cur (some t) np =
      some { t with
             costSoFar := (np, gc + 1) :: t.costSoFar
             cameFrom := (np, some cur) :: t.cameFrom
             queue := t.queue ++ [(gc + 1, np)] } := by
  unfold dijkstraRelaxOne
  dsimp only
  rw [if_neg hv, hgc]
  dsimp only
  rcases himp with hnone | ⟨old, hold, hlt⟩
  · simp [hnone]
  · simp [hold, hlt]

theorem dijkstraRelaxOne_keep {cur np : Pos} {gc old : Int} {t : DijkstraState}
    (hv : np ∉ t.visited) (hgc : alookup t.costSoFar cur = some gc)
    (hold : alookup t.costSoFar np = some old) (h : ¬(gc + 1 < old)) :
    dijkstraRelaxOne cur (some t) np = some t := by
  unfold dijkstraRelaxOne
  dsimp only
  rw [if_neg hv, hgc]
  dsimp only
  simp [hold, decide_eq_false h]

/-- Characterization of Dijkstra's relaxation fold over a duplicate-free list
of neighbours distinct from `cur`: the improved ones get cost `gc + 1`, are
re-bound to `cur` and pushed; the rest leave the state unchanged. -/
theorem dijkstraRelax_char (cur : Pos) (gc : Int) :
    ∀ (es : List Pos) (t : DijkstraState),
      alookup t.costSoFar cur = some gc →
      (∀ np ∈ es, np ≠ cur) →
      es.Nodup →
      ∃ imp : List Pos,
        es.foldl (dijkstraRelaxOne cur) (some t) =
          some { queue := t.queue ++ imp.map fun np => (gc + 1, np)
                 cameFrom := (imp.map fun np => (np, some cur)).reverse ++ t.cameFrom
                 costSoFar := (imp.map fun np => (np, gc + 1)).reverse ++ t.costSoFar
                 visited := t.visited
                 explored := t.explored } ∧
        imp.Nodup ∧
        (∀ np ∈ imp, np ∈ es ∧ np ∉ t.visited ∧
          (alookup t.costSoFar np = none ∨
            ∃ old, alookup t.costSoFar np = some old ∧ gc + 1 < old)) ∧
        (∀ np ∈ es, np ∉ imp →
          np ∈ t.visited ∨
            ∃ old, alookup t.costSoFar np = some old ∧ ¬(gc + 1 < old)) := by
  intro es
  induction es with
  | nil =>
    intro t hgc hne hnd
    refine ⟨[], ?_, List.nodup_nil, by simp, by simp⟩
    cases t
    simp
  | cons np es' ih =>
    intro t hgc hne hnd
    have hnpc : np ≠ cur := hne np (List.mem_cons_self _ _)
    have hne' : ∀ q ∈ es', q ≠ cur := fun q hq => hne q (List.mem_cons_of_mem _ hq)
    have hnd' : es'.Nodup := (List.nodup_cons.mp hnd).2
    have hnpes' : np ∉ es' := (List.nodup_cons.mp hnd).1
    simp only [List.foldl_cons]
    by_cases hv : np ∈ t.visited
    · rw [dijkstraRelaxOne_visited hv]
      obtain ⟨imp, hstate, hnodup, hsub, hcov⟩ := ih t hgc hne' hnd'
      refine ⟨imp, hstate, hnodup, ?_, ?_⟩
      · intro q hq
        obtain ⟨h1, h2, h3⟩ := hsub q hq
        exact ⟨List.mem_cons_of_mem _ h1, h2, h3⟩
      · intro q hq hqi
        rcases List.mem_cons.mp hq with hq | hq
        · exact Or.inl (hq ▸ hv)
        · exact hcov q hq hqi
    · have himpOrKeep : alookup t.costSoFar np = none ∨
          ∃ old, alookup t.costSoFar np = some old := by
        cases h : alookup t.costSoFar np with
        | none => exact Or.inl rfl
        | some old => exact Or.inr ⟨old, rfl⟩
      by_cases himp : alookup t.costSoFar np = none ∨
          ∃ old, alookup t.costSoFar np = some old ∧ gc + 1 < old
      · rw [dijkstraRelaxOne_improve hv hgc himp]
        obtain ⟨imp', hstate, hnodup, hsub, hcov⟩ := ih
          { t with
            costSoFar := (np, gc + 1) :: t.costSoFar
            cameFrom := (np, some cur) :: t.cameFrom
            queue := t.queue ++ [(gc + 1, np)] }
          (by
            dsimp only
            rw [alookup_cons_ne _ _ _ _ hnpc]
            exact hgc)
          hne' hnd'
        have htrans : ∀ q, q ∈ es' →
            alookup ((np, gc + 1) :: t.costSoFar) q = alookup t.costSoFar q := by
          intro q hq
          exact alookup_cons_ne _ _ _ _ (fun he => hnpes' (he ▸ hq))
        refine ⟨np :: imp', ?_, ?_, ?_, ?_⟩
        · rw [hstate]
          simp [List.append_assoc]
        · refine List.nodup_cons.mpr ⟨fun hc => ?_, hnodup⟩
          exact hnpes' (hsub np hc).1
        · intro q hq
          rcases List.mem_cons.mp hq with hq | hq
          · subst hq
            exact ⟨List.mem_cons_self _ _, hv, himp⟩
          · obtain ⟨h1, h2, h3⟩ := hsub q hq
            rw [htrans q h1] at h3
            exact ⟨List.mem_cons_of_mem _ h1, h2, h3⟩
        · intro q hq hqi
          rcases List.mem_cons.mp hq with hq | hq
          · exact absurd (hq ▸ List.mem_cons_self np imp') (hq ▸ hqi)
          · have := hcov q hq (fun hc => hqi (List.mem_cons_of_mem _ hc))
            rcases this with hc | ⟨old, hold, hle⟩
            · exact Or.inl hc
            · rw [htrans q hq] at hold
              exact Or.inr ⟨old, hold, hle⟩
      · obtain ⟨old, hold⟩ : ∃ old, alookup t.costSoFar np = some old := by
          rcases himpOrKeep with hn | ho
          · exact absurd (Or.inl hn) himp
          · exact ho
        have hnlt : ¬(gc + 1 < old) := fun hlt => himp (Or.inr ⟨old, hold, hlt⟩)
        rw [dijkstraRelaxOne_keep hv hgc hold hnlt]
        obtain ⟨imp, hstate, hnodup, hsub, hcov⟩ := ih t hgc hne' hnd'
        refine ⟨imp, hstate, hnodup, ?_, ?_⟩
        · intro q hq
          obtain ⟨h1, h2, h3⟩ := hsub q hq
          exact ⟨List.mem_cons_of_mem _ h1, h2, h3⟩
        · intro q hq hqi
          rcases List.mem_cons.mp hq with hq | hq
          · subst hq
            exact Or.inr ⟨old, hold, hnlt⟩
          · exact hcov q hq hqi

theorem cfInv_startDom {m : GameMap} {start : Pos}
    {cf : List (Pos × Option Pos)} {d : Pos → Nat} (h : CFInv m start cf d) :
    alookup cf start ≠ none := by
  rw [h.1]
  simp

theorem heapPop_min_fst {q : List (Int × Pos)} {c0 : Int} {cur : Pos}
    {rest : List (Int × Pos)} (hpop : heapPop q = some ((c0, cur), rest)) :
    ∀ c z, (c, z) ∈ q → c0 ≤ c := by
  obtain ⟨-, hmin⟩ := heapPop_spec _ _ _ hpop
  intro c z hm
  have h := hmin _ hm
  simp only [entryLt_iff] at h
  push_neg at h
  exact h.1

/-- The Dijkstra master invariant. `d` is the ghost depth: the current
`cost_so_far` value of every discovered position. -/
structure DijkInvCore (m : GameMap) (start : Pos) (s : DijkstraState)
    (d : Pos → Nat) : Prop where
  cf : CFInv m start s.cameFrom d
  costEq : ∀ p, alookup s.cameFrom p ≠ none →
    alookup s.costSoFar p = some ((d p : Int))
  costNone : ∀ p, alookup s.cameFrom p = none → alookup s.costSoFar p = none
  keysValid : ∀ p, alookup s.cameFrom p ≠ none → m.validPos p = true
  visSub : ∀ p ∈ s.visited, alookup s.cameFrom p ≠ none
  visNodup : s.visited.Nodup
  predVis : ∀ p q, alookup s.cameFrom p = some (some q) → q ∈ s.visited
  queueDom : ∀ e ∈ s.queue, alookup s.cameFrom e.2 ≠ none
  queueLB : ∀ e ∈ s.queue, ((d e.2 : Int)) ≤ e.1
  entryFor : ∀ p, alookup s.cameFrom p ≠ none → p ∉ s.visited →
    (((d p : Int)), p) ∈ s.queue
  startKey : ∀ c : Int, (c, start) ∈ s.queue → c = 0
  distMin : ∀ p ∈ s.visited, ∀ k, NReach m start p k → d p ≤ k
  visEdge : ∀ u ∈ s.visited, (u = start → ∀ c : Int, (c, start) ∉ s.queue) →
    ∀ w ∈ getNeighbors m u,
      alookup s.cameFrom w ≠ none ∧ (w ∉ s.visited → d w ≤ d u + 1)

def DijkInv (m : GameMap) (start : Pos) (s : DijkstraState) : Prop :=
  ∃ d, DijkInvCore m start s d

def dijkStartCount (start : Pos) (q : List (Int × Pos)) : Nat :=
  (q.filter fun e => decide (e.2 = start)).length

def dijkMeasure (m : GameMap) (start : Pos) (s : DijkstraState) : Nat :=
  s.queue.length + 4 * (cellCount m - s.visited.length) +
    4 * dijkStartCount start s.queue

theorem dijkInv_init (m : GameMap) (start : Pos) (u : Bool)
    (hs : m.validPos start = true) :
    DijkInv m start
      ⟨[(0, start)], [(start, none)], [(start, 0)],
        if u then [start] else [], if u then 1 else 0⟩ := by
  have hlook : ∀ p, alookup [(start, (none : Option Pos))] p =
      if start = p then some none else none := by
    intro p
    unfold alookup
    split <;> rfl
  have hdom : ∀ p, alookup [(start, (none : Option Pos))] p ≠ none →
      p = start := by
    intro p hp
    rw [hlook] at hp
    by_cases h : start = p
    · exact h.symm
    · rw [if_neg h] at hp
      exact absurd rfl hp
  have hclook : ∀ p, alookup [(start, (0 : Int))] p =
      if start = p then some 0 else none := by
    intro p
    unfold alookup
    split <;> rfl
  refine ⟨fun _ => 0, ?_⟩
  constructor
  · refine ⟨alookup_cons_self _ _ _, rfl, ?_, ?_⟩
    · intro p hp
      rw [hlook] at hp
      by_cases h : start = p
      · exact h.symm
      · rw [if_neg h] at hp; cases hp
    · intro p q hpq
      rw [hlook] at hpq
      by_cases h : start = p
      · rw [if_pos h] at hpq; cases hpq
      · rw [if_neg h] at hpq; cases hpq
  · intro p hp
    rw [hdom p hp, hclook, if_pos rfl]
    simp
  · intro p hp
    rw [hclook]
    rw [hlook] at hp
    by_cases h : start = p
    · rw [if_pos h] at hp; cases hp
    · rw [if_neg h]
  · intro p hp
    rw [hdom p hp]
    exact hs
  · intro p hp
    cases u with
    | false => cases hp
    | true =>
      rw [show p = start by simpa using hp, hlook, if_pos rfl]
      simp
  · cases u <;> simp
  · intro p q hpq
    rw [hlook] at hpq
    by_cases h : start = p
    · rw [if_pos h] at hpq; cases hpq
    · rw [if_neg h] at hpq; cases hpq
  · intro e he
    rw [List.mem_singleton] at he
    subst he
    rw [hlook, if_pos rfl]
    simp
  · intro e he
    rw [List.mem_singleton] at he
    subst he
    simp
  · intro p hp hpv
    rw [hdom p hp]
    exact List.mem_singleton.mpr rfl
  · intro c hc
    rw [List.mem_singleton, Prod.mk.injEq] at hc
    exact hc.1
  · intro p hp k hk
    omega
  · intro p hp hcond
    cases u with
    | false => simp at hp
    | true =>
      have hps : p = start := by simpa using hp
      subst hps
      exact absurd (List.mem_singleton.mpr rfl) (hcond rfl 0)

/-- When a fresh position is popped from the Dijkstra heap, its current cost
is optimal: the heap minimum popped a closest frontier node. -/
theorem dijk_pop_optimal {m : GameMap} {start : Pos} {s : DijkstraState}
    {d : Pos → Nat} (hc : DijkInvCore m start s d) {c0 : Int} {cur : Pos}
    {rest : List (Int × Pos)} (hpop : heapPop s.queue = some ((c0, cur), rest))
    (hfresh : cur ∉ s.visited) : ∀ k, NReach m start cur k → d cur ≤ k := by
  obtain ⟨hperm, -⟩ := heapPop_spec _ _ _ hpop
  have hcurq : (c0, cur) ∈ s.queue := hperm.mem_iff.mpr (List.mem_cons_self _ _)
  have hdc0 : (d cur : Int) ≤ c0 := hc.queueLB _ hcurq
  intro k hk
  by_cases hstart : ∃ c : Int, (c, start) ∈ s.queue
  · obtain ⟨c, hcs⟩ := hstart
    have hc0 : c = 0 := hc.startKey c hcs
    subst hc0
    have hle : c0 ≤ 0 := heapPop_min_fst hpop 0 start hcs
    omega
  · push_neg at hstart
    have hsvis : start ∈ s.visited := by
      by_contra hsv
      exact hstart _ (hc.entryFor start (cfInv_startDom hc.cf) hsv)
    obtain ⟨u, z, j, k2, hu, hz, hzn, hru, hrz, hjk⟩ :=
      first_unvisited s.visited hsvis hk hfresh
    have hdu : d u ≤ j := hc.distMin u hu j hru
    obtain ⟨hzdom, hdz⟩ := hc.visEdge u hu (fun _ c hcs => hstart c hcs) z hzn
    have hdzj : d z ≤ d u + 1 := hdz hz
    have hentry := hc.entryFor z hzdom hz
    have hle : c0 ≤ (d z : Int) := heapPop_min_fst hpop _ z hentry
    omega

/-- Invariant preservation and measure decrease for one Dijkstra expansion,
with the post-pop state `s1` abstract (covering both the fresh pop and the
already-visited start pop). The relaxation fold never raises a `KeyError`. -/
theorem dijkstraExpand_inv (m : GameMap) (start : Pos) (s : DijkstraState)
    (d : Pos → Nat) (hc : DijkInvCore m start s d) (c0 : Int) (cur : Pos)
    (rest : List (Int × Pos))
    (hpop : heapPop s.queue = some ((c0, cur), rest))
    (s1 : DijkstraState)
    (hs1cf : s1.cameFrom = s.cameFrom)
    (hs1cost : s1.costSoFar = s.costSoFar)
    (hs1q : s1.queue = rest)
    (hs1vis : ∀ p, p ∈ s1.visited ↔ p = cur ∨ p ∈ s.visited)
    (hs1nodup : s1.visited.Nodup)
    (hs1len : s1.visited.length =
      s.visited.length + (if cur ∈ s.visited then 0 else 1))
    (hskip : cur = start ∨ cur ∉ s.visited) :
    ∃ t, (getNeighbors m cur).foldl (dijkstraRelaxOne cur) (some s1) = some t ∧
      DijkInv m start t ∧ dijkMeasure m start t < dijkMeasure m start s := by
  obtain ⟨hperm, -⟩ := heapPop_spec _ _ _ hpop
  have hmemq : ∀ e, e ∈ s.queue ↔ e = (c0, cur) ∨ e ∈ rest := by
    intro e
    rw [hperm.mem_iff]
    simp
  have hlen : s.queue.length = rest.length + 1 := by
    have := hperm.length_eq
    simpa using this
  have hcurdom : alookup s.cameFrom cur ≠ none :=
    hc.queueDom (c0, cur) ((hmemq _).mpr (Or.inl rfl))
  have hgc : alookup s1.costSoFar cur = some ((d cur : Int)) := by
    rw [hs1cost]
    exact hc.costEq cur hcurdom
  obtain ⟨imp, hstate, hnd, hsub, hcov⟩ :=
    dijkstraRelax_char cur ((d cur : Int)) (getNeighbors m cur) s1 hgc
      (fun np hnp => getNeighbors_ne_self hnp) (getNeighbors_nodup m cur)
  rw [hs1cf, hs1cost, hs1q] at hstate
  have hsub' : ∀ np ∈ imp, np ∈ getNeighbors m cur ∧ np ∉ s1.visited ∧
      (alookup s.costSoFar np = none ∨
        ∃ old, alookup s.costSoFar np = some old ∧ (d cur : Int) + 1 < old) := by
    intro np hnp
    obtain ⟨h1, h2, h3⟩ := hsub np hnp
    rw [hs1cost] at h3
    exact ⟨h1, h2, h3⟩
  have hcov' : ∀ np ∈ getNeighbors m cur, np ∉ imp →
      np ∈ s1.visited ∨
        ∃ old, alookup s.costSoFar np = some old ∧
          ¬((d cur : Int) + 1 < old) := by
    intro np hnp hni
    have h := hcov np hnp hni
    rw [hs1cost] at h
    exact h
  have himpN : ∀ np ∈ imp, np ∈ getNeighbors m cur := fun np hnp => (hsub' np hnp).1
  have himpNotVis1 : ∀ np ∈ imp, np ∉ s1.visited := fun np hnp => (hsub' np hnp).2.1
  have himpNotVis : ∀ np ∈ imp, np ∉ s.visited := by
    intro np hnp hv
    exact himpNotVis1 np hnp ((hs1vis np).mpr (Or.inr hv))
  have hcurNotImp : cur ∉ imp := by
    intro hcn
    exact himpNotVis1 cur hcn ((hs1vis cur).mpr (Or.inl rfl))
  have hstartNotImp : start ∉ imp := by
    intro hsn
    have hsd : alookup s.cameFrom start ≠ none := cfInv_startDom hc.cf
    have hce := hc.costEq start hsd
    rw [hc.cf.2.1] at hce
    rcases (hsub' start hsn).2.2 with hn | ⟨old, hold, hlt⟩
    · rw [hce] at hn
      cases hn
    · rw [hce] at hold
      injection hold with ho
      rw [← ho] at hlt
      have : (0 : Int) ≤ (d cur : Int) := Int.ofNat_nonneg _
      omega
  have hkeys : ((imp.map fun np => (np, (some cur : Option Pos))).reverse).map
      (·.1) = imp.reverse := by
    rw [List.map_reverse, List.map_map]
    simp [Function.comp_def]
  have hkeysC : ((imp.map fun np => (np, (d cur : Int) + 1)).reverse).map
      (·.1) = imp.reverse := by
    rw [List.map_reverse, List.map_map]
    simp [Function.comp_def]
  have hlookCFold : ∀ p, p ∉ imp →
      alookup ((imp.map fun np => (np, (some cur : Option Pos))).reverse ++
        s.cameFrom) p = alookup s.cameFrom p := by
    intro p hp
    exact alookup_append_not_mem _ _ _ (by rw [hkeys]; simpa using hp)
  have hlookCFnew : ∀ p ∈ imp,
      alookup ((imp.map fun np => (np, (some cur : Option Pos))).reverse ++
        s.cameFrom) p = some (some cur) := by
    intro p hp
    refine alookup_append_mem_const _ _ _ _ ?_ (by rw [hkeys]; simpa using hp)
    intro b hb
    rw [List.mem_reverse, List.mem_map] at hb
    obtain ⟨np, -, hnp⟩ := hb
    rw [← hnp]
  have hlookCold : ∀ p, p ∉ imp →
      alookup ((imp.map fun np => (np, (d cur : Int) + 1)).reverse ++
        s.costSoFar) p = alookup s.costSoFar p := by
    intro p hp
    exact alookup_append_not_mem _ _ _ (by rw [hkeysC]; simpa using hp)
  have hlookCnew : ∀ p ∈ imp,
      alookup ((imp.map fun np => (np, (d cur : Int) + 1)).reverse ++
        s.costSoFar) p = some ((d cur : Int) + 1) := by
    intro p hp
    refine alookup_append_mem_const _ _ _ _ ?_ (by rw [hkeysC]; simpa using hp)
    intro b hb
    rw [List.mem_reverse, List.mem_map] at hb
    obtain ⟨np, -, hnp⟩ := hb
    rw [← hnp]
  have hdomMono : ∀ p, alookup s.cameFrom p ≠ none →
      alookup ((imp.map fun np => (np, (some cur : Option Pos))).reverse ++
        s.cameFrom) p ≠ none := by
    intro p hp
    by_cases hn : p ∈ imp
    · rw [hlookCFnew p hn]
      simp
    · rw [hlookCFold p hn]
      exact hp
  set d' : Pos → Nat := fun p => if p ∈ imp then d cur + 1 else d p with hd'
  have hd'new : ∀ p ∈ imp, d' p = d cur + 1 := by
    intro p hp
    simp only [hd', if_pos hp]
  have hd'old : ∀ p, p ∉ imp → d' p = d p := by
    intro p hp
    simp only [hd', if_neg hp]
  have hd'le : ∀ p, alookup s.cameFrom p ≠ none → d' p ≤ d p := by
    intro p hp
    by_cases hpi : p ∈ imp
    · have hce := hc.costEq p hp
      rcases (hsub' p hpi).2.2 with hn | ⟨old, hold, hlt⟩
      · rw [hce] at hn
        cases hn
      · rw [hce] at hold
        injection hold with ho
        rw [← ho] at hlt
        rw [hd'new p hpi]
        omega
    · rw [hd'old p hpi]
  refine ⟨_, hstate, ⟨d', ?_⟩, ?_⟩
  · constructor
    · -- CFInv
      obtain ⟨hcf1, hcf2, hcf3, hcf4⟩ := hc.cf
      refine ⟨?_, ?_, ?_, ?_⟩
      · rw [hlookCFold start hstartNotImp]
        exact hcf1
      · rw [hd'old start hstartNotImp]
        exact hcf2
      · intro p hp
        by_cases hpi : p ∈ imp
        · rw [hlookCFnew p hpi] at hp
          injection hp with h1
          cases h1
        · rw [hlookCFold p hpi] at hp
          exact hcf3 p hp
      · intro p q hpq
        by_cases hpi : p ∈ imp
        · rw [hlookCFnew p hpi] at hpq
          have hqc : q = cur := by
            injection hpq with h1
            injection h1 with h2
            exact h2.symm
          subst hqc
          refine ⟨hdomMono q hcurdom, himpN p hpi, ?_, ?_⟩
          · rw [hd'new p hpi, hd'old q hcurNotImp]
          · intro hps
            exact hstartNotImp (hps ▸ hpi)
        · rw [hlookCFold p hpi] at hpq
          obtain ⟨hq1, hq2, hq3, hq4⟩ := hcf4 p q hpq
          have hqvis : q ∈ s.visited := hc.predVis p q hpq
          have hqni : q ∉ imp := fun hq => himpNotVis q hq hqvis
          refine ⟨hdomMono q hq1, hq2, ?_, hq4⟩
          rw [hd'old p hpi, hd'old q hqni]
          exact hq3
    · -- costEq
      intro p hp
      by_cases hpi : p ∈ imp
      · rw [hlookCnew p hpi, hd'new p hpi]
        norm_cast
      · rw [hlookCFold p hpi] at hp
        rw [hlookCold p hpi, hd'old p hpi]
        exact hc.costEq p hp
    · -- costNone
      intro p hp
      have hpi : p ∉ imp := by
        intro h
        rw [hlookCFnew p h] at hp
        cases hp
      rw [hlookCFold p hpi] at hp
      rw [hlookCold p hpi]
      exact hc.costNone p hp
    · -- keysValid
      intro p hp
      by_cases hpi : p ∈ imp
      · exact mem_getNeighbors_valid (himpN p hpi)
      · rw [hlookCFold p hpi] at hp
        exact hc.keysValid p hp
    · -- visSub
      intro p hp
      rcases (hs1vis p).mp hp with hp | hp
      · exact hp ▸ hdomMono cur hcurdom
      · exact hdomMono p (hc.visSub p hp)
    · exact hs1nodup
    · -- predVis
      intro p q hpq
      by_cases hpi : p ∈ imp
      · rw [hlookCFnew p hpi] at hpq
        have hqc : q = cur := by
          injection hpq with h1
          injection h1 with h2
          exact h2.symm
        subst hqc
        exact (hs1vis q).mpr (Or.inl rfl)
      · rw [hlookCFold p hpi] at hpq
        exact (hs1vis q).mpr (Or.inr (hc.predVis p q hpq))
    · -- queueDom
      intro e he
      rw [List.mem_append] at he
      rcases he with he | he
      · exact hdomMono e.2 (hc.queueDom e ((hmemq e).mpr (Or.inr he)))
      · rw [List.mem_map] at he
        obtain ⟨np, hnp, heq⟩ := he
        have : np = e.2 := congrArg Prod.snd heq
        subst this
        rw [hlookCFnew e.2 hnp]
        simp
    · -- queueLB
      intro e he
      rw [List.mem_append] at he
      rcases he with he | he
      · have h1 := hc.queueLB e ((hmemq e).mpr (Or.inr he))
        have h2 := hd'le e.2 (hc.queueDom e ((hmemq e).mpr (Or.inr he)))
        omega
      · rw [List.mem_map] at he
        obtain ⟨np, hnp, heq⟩ := he
        rw [← heq]
        rw [hd'new np hnp]
        push_cast
        omega
    · -- entryFor
      intro p hp hpv
      by_cases hpi : p ∈ imp
      · rw [hd'new p hpi]
        refine List.mem_append_right _ ?_
        rw [List.mem_map]
        refine ⟨p, hpi, ?_⟩
        rw [Prod.mk.injEq]
        refine ⟨?_, rfl⟩
        push_cast
        omega
      · rw [hlookCFold p hpi] at hp
        have hpsv : p ∉ s.visited := fun h => hpv ((hs1vis p).mpr (Or.inr h))
        have hold := hc.entryFor p hp hpsv
        rcases (hmemq _).mp hold with heq | hmem
        · have hpc : p = cur := congrArg Prod.snd heq
          exact absurd ((hs1vis p).mpr (Or.inl hpc)) hpv
        · rw [hd'old p hpi]
          exact List.mem_append_left _ hmem
    · -- startKey
      intro c hcq
      rw [List.mem_append] at hcq
      rcases hcq with hcq | hcq
      · exact hc.startKey c ((hmemq _).mpr (Or.inr hcq))
      · rw [List.mem_map] at hcq
        obtain ⟨np, hnp, heq⟩ := hcq
        have : np = start := congrArg Prod.snd heq
        exact absurd (this ▸ hnp) hstartNotImp
    · -- distMin
      intro p hp k hk
      rcases (hs1vis p).mp hp with hpc | hpv
      · subst hpc
        rw [hd'old p hcurNotImp]
        by_cases hv : p ∈ s.visited
        · exact hc.distMin p hv k hk
        · exact dijk_pop_optimal hc hpop hv k hk
      · rw [hd'old p (fun hpi => himpNotVis p hpi hpv)]
        exact hc.distMin p hpv k hk
    · -- visEdge
      intro u hu hcond w hw
      by_cases huc : u = cur
      · subst huc
        constructor
        · by_cases hwi : w ∈ imp
          · rw [hlookCFnew w hwi]
            simp
          · rcases hcov' w hw hwi with hwv | ⟨old, hold, -⟩
            · have hwd : alookup s.cameFrom w ≠ none := by
                rcases (hs1vis w).mp hwv with h | h
                · exact h ▸ hcurdom
                · exact hc.visSub w h
              rw [hlookCFold w hwi]
              exact hwd
            · have hwd : alookup s.cameFrom w ≠ none := by
                intro hn
                rw [hc.costNone w hn] at hold
                cases hold
              rw [hlookCFold w hwi]
              exact hwd
        · intro hwv
          by_cases hwi : w ∈ imp
          · rw [hd'new w hwi, hd'old u hcurNotImp]
          · rcases hcov' w hw hwi with hwv' | ⟨old, hold, hnlt⟩
            · exact absurd hwv' hwv
            · have hwd : alookup s.cameFrom w ≠ none := by
                intro hn
                rw [hc.costNone w hn] at hold
                cases hold
              have hce := hc.costEq w hwd
              rw [hce] at hold
              injection hold with ho
              rw [hd'old w hwi, hd'old u hcurNotImp]
              omega
      · have huv : u ∈ s.visited := by
          rcases (hs1vis u).mp hu with h | h
          · exact absurd h huc
          · exact h
        have hcond' : u = start → ∀ c : Int, (c, start) ∉ s.queue := by
          intro hus c hcs
          rcases (hmemq _).mp hcs with heq | hmem
          · have : start = cur := congrArg Prod.snd heq
            exact huc (hus.trans this)
          · exact hcond hus c (List.mem_append_left _ hmem)
        obtain ⟨hwd, hdw⟩ := hc.visEdge u huv hcond' w hw
        refine ⟨hdomMono w hwd, ?_⟩
        intro hwv
        have hwsv : w ∉ s.visited := fun h => hwv ((hs1vis w).mpr (Or.inr h))
        have h1 := hdw hwsv
        have h2 := hd'le w hwd
        have h3 : d' u = d u := hd'old u (fun hui => himpNotVis u hui huv)
        omega
  · -- measure decrease
    have hk4 : imp.length ≤ 4 := by
      have h1 : imp.Subperm (getNeighbors m cur) := hnd.subperm himpN
      have := h1.length_le
      have := getNeighbors_length_le m cur
      omega
    have hvisBound : s1.visited.length ≤ cellCount m := by
      refine nodup_valid_le_cellCount m _ hs1nodup ?_
      intro p hp
      rcases (hs1vis p).mp hp with hp | hp
      · exact hp ▸ hc.keysValid cur hcurdom
      · exact hc.keysValid p (hc.visSub p hp)
    have hpush0 : ((imp.map fun np => ((d cur : Int) + 1, np)).filter
        fun e => decide (e.2 = start)) = [] := by
      rw [List.filter_eq_nil_iff]
      intro e he
      rw [List.mem_map] at he
      obtain ⟨np, hnp, heq⟩ := he
      have : np = e.2 := congrArg Prod.snd heq
      subst this
      simp only [decide_eq_true_eq]
      intro hes
      exact hstartNotImp (hes ▸ hnp)
    have hsc : dijkStartCount start s.queue =
        (if cur = start then 1 else 0) + dijkStartCount start rest := by
      unfold dijkStartCount
      rw [(hperm.filter _).length_eq, List.filter_cons]
      by_cases hcs : cur = start
      · simp [hcs]
        omega
      · simp [hcs]
    unfold dijkMeasure dijkStartCount
    dsimp only
    rw [List.filter_append, hpush0, List.append_nil]
    simp only [List.length_append, List.length_map]
    unfold dijkStartCount at hsc
    by_cases hv : cur ∈ s.visited
    · have hcs : cur = start := by
        rcases hskip with h | h
        · exact h
        · exact absurd hv h
      rw [if_pos hv] at hs1len
      rw [if_pos hcs] at hsc
      omega
    · rw [if_neg hv] at hs1len
      by_cases hcs : cur = start
      · rw [if_pos hcs] at hsc
        omega
      · rw [if_neg hcs] at hsc
        omega

theorem dijkstraStep_progress (m : GameMap) (start goal : Pos) (u : Bool)
    (s : DijkstraState) (h : DijkInv m start s) :
    (∃ t, dijkstraStep m start goal u s = .done t) ∨
    (∃ t, dijkstraStep m start goal u s = .cont t ∧ DijkInv m start t ∧
      dijkMeasure m start t < dijkMeasure m start s) := by
  obtain ⟨d, hc⟩ := h
  cases hpop : heapPop s.queue with
  | none => exact Or.inl ⟨s, by unfold dijkstraStep; rw [hpop]⟩
  | some pr =>
    obtain ⟨⟨c0, cur⟩, rest⟩ := pr
    obtain ⟨hperm, -⟩ := heapPop_spec _ _ _ hpop
    have hlen : s.queue.length = rest.length + 1 := by
      have := hperm.length_eq
      simpa using this
    have hmemq : ∀ e, e ∈ s.queue ↔ e = (c0, cur) ∨ e ∈ rest := by
      intro e
      rw [hperm.mem_iff]
      simp
    by_cases hg : cur = goal
    · exact Or.inl ⟨_,
        by unfold dijkstraStep; rw [hpop]; dsimp only; rw [if_pos hg]⟩
    · by_cases hskip : cur ≠ start ∧ cur ∈ s.visited
      · refine Or.inr ⟨_,
          by unfold dijkstraStep; rw [hpop]; dsimp only; rw [if_neg hg, if_pos hskip],
          ⟨d, ?_⟩, ?_⟩
        · constructor
          · exact hc.cf
          · exact hc.costEq
          · exact hc.costNone
          · exact hc.keysValid
          · exact hc.visSub
          · exact hc.visNodup
          · exact hc.predVis
          · exact fun e he => hc.queueDom e ((hmemq e).mpr (Or.inr he))
          · exact fun e he => hc.queueLB e ((hmemq e).mpr (Or.inr he))
          · intro p hp hpv
            have hold := hc.entryFor p hp hpv
            rcases (hmemq _).mp hold with heq | hmem
            · have hpc : p = cur := congrArg Prod.snd heq
              exact absurd (hpc ▸ hskip.2) hpv
            · exact hmem
          · exact fun c hcq => hc.startKey c ((hmemq _).mpr (Or.inr hcq))
          · exact hc.distMin
          · intro p hp hcond w hw
            refine hc.visEdge p hp ?_ w hw
            intro hps c hcs
            rcases (hmemq _).mp hcs with heq | hmem
            · exact hskip.1 (congrArg Prod.snd heq).symm
            · exact hcond hps c hmem
        · unfold dijkMeasure dijkStartCount
          dsimp only
          have hsc : (List.filter (fun e => decide (e.2 = start)) s.queue).length =
              (List.filter (fun e => decide (e.2 = start)) rest).length := by
            rw [(hperm.filter _).length_eq, List.filter_cons]
            simp [hskip.1]
          omega
      · by_cases hv : cur ∈ s.visited
        · have hcs : cur = start := by
            rcases not_and_or.mp hskip with h | h
            · push_neg at h
              exact h
            · exact absurd hv h
          obtain ⟨t, hfold, hinv, hmeas⟩ :=
            dijkstraExpand_inv m start s d hc c0 cur rest hpop
              { s with queue := rest } rfl rfl rfl
              (fun p => ⟨fun hp => Or.inr hp,
                fun hp => hp.elim (fun he => he ▸ hv) id⟩)
              hc.visNodup (by simp [hv]) (Or.inl hcs)
          refine Or.inr ⟨t, ?_, hinv, hmeas⟩
          unfold dijkstraStep
          rw [hpop]
          dsimp only
          rw [if_neg hg, if_neg hskip, if_pos hv, hfold]
        · obtain ⟨t, hfold, hinv, hmeas⟩ :=
            dijkstraExpand_inv m start s d hc c0 cur rest hpop
              { s with
                queue := rest
                visited := cur :: s.visited
                explored := s.explored + (if u then 1 else 0) } rfl rfl rfl
              (fun p => by simp [List.mem_cons])
              (List.nodup_cons.mpr ⟨hv, hc.visNodup⟩) (by simp [hv]) (Or.inr hv)
          refine Or.inr ⟨t, ?_, hinv, hmeas⟩
          unfold dijkstraStep
          rw [hpop]
          dsimp only
          rw [if_neg hg, if_neg hskip, if_neg hv, hfold]

theorem dijkInv_exhausted_complete {m : GameMap} {start : Pos}
    {s : DijkstraState} {d : Pos → Nat} (hc : DijkInvCore m start s d)
    (hq : s.queue = []) :
    ∀ v k, NReach m start v k → alookup s.cameFrom v ≠ none := by
  intro v k hr
  induction hr with
  | refl => exact cfInv_startDom hc.cf
  | step hw hadj ihw =>
    rename_i p q n
    have hpvis : p ∈ s.visited := by
      by_contra hpv
      have hmem := hc.entryFor p ihw hpv
      rw [hq] at hmem
      exact List.not_mem_nil _ hmem
    exact (hc.visEdge p hpvis
      (fun _ c hcs => by rw [hq] at hcs; exact List.not_mem_nil _ hcs) q hadj).1

/-- Run the Dijkstra loop from the initial state: it completes within the
fuel (no `KeyError` is raised), leaving an invariant state that either
exhausted its queue or popped the goal with an optimal recorded depth. -/
theorem dijkstra_run (m : GameMap) (start goal : Pos) (u : Bool)
    (hs : m.validPos start = true) :
    ∃ s' t d, runLoop (dijkstraStep m start goal u) (dijkstraFuel m)
        ⟨[(0, start)], [(start, none)], [(start, 0)],
          if u then [start] else [], if u then 1 else 0⟩ = some t ∧
      DijkInvCore m start s' d ∧
      t.cameFrom = s'.cameFrom ∧ t.costSoFar = s'.costSoFar ∧
      t.explored = s'.explored ∧
      (s'.queue = [] ∨
        (alookup s'.cameFrom goal ≠ none ∧
          ∀ k, NReach m start goal k → d goal ≤ k)) := by
  obtain ⟨s', t, hrun, hinv, hdone⟩ :=
    runLoop_total (dijkstraStep m start goal u) (DijkInv m start)
      (dijkMeasure m start)
      (fun s hI => dijkstraStep_progress m start goal u s hI) (dijkstraFuel m)
      ⟨[(0, start)], [(start, none)], [(start, 0)],
        if u then [start] else [], if u then 1 else 0⟩
      (dijkInv_init m start u hs)
      (by
        unfold dijkMeasure dijkStartCount dijkstraFuel
        cases u <;> simp <;> omega)
  obtain ⟨d, hc⟩ := hinv
  refine ⟨s', t, d, hrun, hc, ?_⟩
  unfold dijkstraStep at hdone
  cases hpop : heapPop s'.queue with
  | none =>
    rw [hpop] at hdone
    dsimp only at hdone
    cases hdone
    exact ⟨rfl, rfl, rfl, Or.inl ((heapPop_nil_iff _).mp hpop)⟩
  | some pr =>
    obtain ⟨⟨c0, cur⟩, rest⟩ := pr
    rw [hpop] at hdone
    dsimp only at hdone
    obtain ⟨hperm, -⟩ := heapPop_spec _ _ _ hpop
    have hcurdom : alookup s'.cameFrom cur ≠ none :=
      hc.queueDom (c0, cur) (hperm.mem_iff.mpr (List.mem_cons_self _ _))
    by_cases hg : cur = goal
    · rw [if_pos hg] at hdone
      cases hdone
      subst hg
      refine ⟨rfl, rfl, rfl, Or.inr ⟨hcurdom, ?_⟩⟩
      intro k hk
      by_cases hv : cur ∈ s'.visited
      · exact hc.distMin cur hv k hk
      · exact dijk_pop_optimal hc hpop hv k hk
    · rw [if_neg hg] at hdone
      by_cases hskip : cur ≠ start ∧ cur ∈ s'.visited
      · rw [if_pos hskip] at hdone
        cases hdone
      · rw [if_neg hskip] at hdone
        split at hdone <;> cases hdone

/-- Dijkstra `find_path` on invalid endpoints or an unreachable goal: empty
path, infinite cost, no exception. -/
theorem dijkstraFindPath_fail (m : GameMap) (u : Bool) (start goal : Pos)
    (h : ¬(m.validPos start = true ∧ m.validPos goal = true ∧
      Reaches m start goal)) :
    ∃ e, dijkstraFindPath m u start goal = some ⟨[], none, e⟩ := by
  by_cases hs : m.validPos start = true
  · by_cases hg : m.validPos goal = true
    · have hnr : ¬ Reaches m start goal := fun hr => h ⟨hs, hg, hr⟩
      obtain ⟨s', t, d, hrun, hc, hcf, hcost, hexp, hshape⟩ :=
        dijkstra_run m start goal u hs
      have hlook : alookup t.cameFrom goal = none := by
        rw [hcf]
        by_contra hlk
        exact hnr (cfInv_reaches hc.cf hlk)
      refine ⟨t.explored, ?_⟩
      unfold dijkstraFindPath
      simp only [hs, hg, Bool.and_self, Bool.not_true, Bool.false_eq_true,
        if_false, hrun, hlook]
    · have hg' : m.validPos goal = false := by simpa using hg
      refine ⟨0, ?_⟩
      unfold dijkstraFindPath
      simp [hs, hg']
  · have hs' : m.validPos start = false := by simpa using hs
    refine ⟨0, ?_⟩
    unfold dijkstraFindPath
    simp [hs']

/-- Dijkstra `find_path` on valid endpoints with a reachable goal: the
returned path realizes the minimal number of steps `dval` and the returned
cost is exactly that step count. -/
theorem dijkstraFindPath_spec (m : GameMap) (u : Bool) (start goal : Pos)
    (hs : m.validPos start = true) (hg : m.validPos goal = true)
    (hreach : Reaches m start goal) :
    ∃ out dval,
      dijkstraFindPath m u start goal = some out ∧
      out.path.length = dval + 1 ∧
      out.cost = some (dval : Int) ∧
      NReach m start goal dval ∧
      (∀ k, NReach m start goal k → dval ≤ k) := by
  obtain ⟨s', t, d, hrun, hc, hcf, hcost, hexp, hshape⟩ :=
    dijkstra_run m start goal u hs
  have hgdom : alookup s'.cameFrom goal ≠ none := by
    rcases hshape with hq | ⟨hgd, -⟩
    · obtain ⟨n, hn⟩ := hreach
      exact dijkInv_exhausted_complete hc hq goal n hn
    · exact hgd
  have hgopt : ∀ k, NReach m start goal k → d goal ≤ k := by
    rcases hshape with hq | ⟨-, hopt⟩
    · have hgvis : goal ∈ s'.visited := by
        by_contra hgv
        have hmem := hc.entryFor goal hgdom hgv
        rw [hq] at hmem
        exact List.not_mem_nil _ hmem
      exact hc.distMin goal hgvis
    · exact hopt
  have hdlt := cfInv_d_lt_length hc.cf hgdom
  obtain ⟨chain, hwb, hlen, hhead, hlast, hfilt, hnr, -, -, -⟩ :=
    walkBack_correct hc.cf (s'.cameFrom.length + 1) goal hgdom (by omega)
  have hcostg := hc.costEq goal hgdom
  refine ⟨⟨chain.reverse, some ((d goal : Int)), t.explored⟩, d goal,
    ?_, ?_, rfl, hnr, hgopt⟩
  · unfold dijkstraFindPath
    simp only [hs, hg, Bool.and_self, Bool.not_true, Bool.false_eq_true,
      if_false, hrun, hcf, hcost]
    cases hv : alookup s'.cameFrom goal with
    | none => exact absurd hv hgdom
    | some v =>
      rw [hwb, hcostg]
  · simp only [List.length_reverse]
    omega

/-! ### The A* invariant stack -/

theorem astarRelaxOne_improve {goal cur np : Pos} {gc : Int} {t : AStarState}
    (hgc : alookup t.gCosts cur = some gc)
    (himp : alookup t.gCosts np = none ∨
      ∃ old, alookup t.gCosts np = some old ∧ gc + 1 < old) :
    astarRelaxOne goal cur (some t) np =
      some { t with
             gCosts := (np, gc + 1) :: t.gCosts
             cameFrom := (np, some cur) :: t.cameFrom
             queue := t.queue ++ [(gc + 1 + manhattan np goal, np)] } := by
  unfold astarRelaxOne
  dsimp only
  rw [hgc]
  dsimp only
  rcases himp with hnone | ⟨old, hold, hlt⟩
  · simp [hnone]
  · simp [hold, hlt]

theorem astarRelaxOne_keep {goal cur np : Pos} {gc old : Int} {t : AStarState}
    (hgc : alookup t.gCosts cur = some gc)
    (hold : alookup t.gCosts np = some old) (h : ¬(gc + 1 < old)) :
    astarRelaxOne goal cur (some t) np = some t := by
  unfold astarRelaxOne
  dsimp only
  rw [hgc]
  dsimp only
  simp [hold, decide_eq_false h]

/-- Characterization of the A* relaxation fold over a duplicate-free list of
neighbours distinct from `cur`: the improved positions get g-cost `gc + 1`,
are re-bound to `cur` and pushed with their f-value; the rest leave the
state unchanged. Unlike Dijkstra there is no `visited` skip. -/
theorem astarRelax_char (goal cur : Pos) (gc : Int) :
    ∀ (es : List Pos) (t : AStarState),
      alookup t.gCosts cur = some gc →
      (∀ np ∈ es, np ≠ cur) →
      es.Nodup →
      ∃ imp : List Pos,
        es.foldl (astarRelaxOne goal cur) (some t) =
          some { queue := t.queue ++ imp.map fun np =>
                   (gc + 1 + manhattan np goal, np)
                 cameFrom := (imp.map fun np => (np, some cur)).reverse ++ t.cameFrom
                 gCosts := (imp.map fun np => (np, gc + 1)).reverse ++ t.gCosts
                 visited := t.visited } ∧
        imp.Nodup ∧
        (∀ np ∈ imp, np ∈ es ∧
          (alookup t.gCosts np = none ∨
            ∃ old, alookup t.gCosts np = some old ∧ gc + 1 < old)) ∧
        (∀ np ∈ es, np ∉ imp →
          ∃ old, alookup t.gCosts np = some old ∧ ¬(gc + 1 < old)) := by
  intro es
  induction es with
  | nil =>
    intro t hgc hne hnd
    refine ⟨[], ?_, List.nodup_nil, by simp, by simp⟩
    cases t
    simp
  | cons np es' ih =>
    intro t hgc hne hnd
    have hnpc : np ≠ cur := hne np (List.mem_cons_self _ _)
    have hne' : ∀ q ∈ es', q ≠ cur := fun q hq => hne q (List.mem_cons_of_mem _ hq)
    have hnd' : es'.Nodup := (List.nodup_cons.mp hnd).2
    have hnpes' : np ∉ es' := (List.nodup_cons.mp hnd).1
    simp only [List.foldl_cons]
    by_cases himp : alookup t.gCosts np = none ∨
        ∃ old, alookup t.gCosts np = some old ∧ gc + 1 < old
    · rw [astarRelaxOne_improve hgc himp]
      obtain ⟨imp', hstate, hnodup, hsub, hcov⟩ := ih
        { t with
          gCosts := (np, gc + 1) :: t.gCosts
          cameFrom := (np, some cur) :: t.cameFrom
          queue := t.queue ++ [(gc + 1 + manhattan np goal, np)] }
        (by
          dsimp only
          rw [alookup_cons_ne _ _ _ _ hnpc]
          exact hgc)
        hne' hnd'
      have htrans : ∀ q, q ∈ es' →
          alookup ((np, gc + 1) :: t.gCosts) q = alookup t.gCosts q := by
        intro q hq
        exact alookup_cons_ne _ _ _ _ (fun he => hnpes' (he ▸ hq))
      refine ⟨np :: imp', ?_, ?_, ?_, ?_⟩
      · rw [hstate]
        simp [List.append_assoc]
      · refine List.nodup_cons.mpr ⟨fun hc => ?_, hnodup⟩
        exact hnpes' (hsub np hc).1
      · intro q hq
        rcases List.mem_cons.mp hq with hq | hq
        · subst hq
          exact ⟨List.mem_cons_self _ _, himp⟩
        · obtain ⟨h1, h3⟩ := hsub q hq
          rw [htrans q h1] at h3
          exact ⟨List.mem_cons_of_mem _ h1, h3⟩
      · intro q hq hqi
        rcases List.mem_cons.mp hq with hq | hq
        · exact absurd (hq ▸ List.mem_cons_self np imp') (hq ▸ hqi)
        · obtain ⟨old, hold, hle⟩ := hcov q hq (fun hc => hqi (List.mem_cons_of_mem _ hc))
          rw [htrans q hq] at hold
          exact ⟨old, hold, hle⟩
    · obtain ⟨old, hold⟩ : ∃ old, alookup t.gCosts np = some old := by
        cases h : alookup t.gCosts np with
        | none => exact absurd (Or.inl h) himp
        | some o => exact ⟨o, rfl⟩
      have hnlt : ¬(gc + 1 < old) := fun hlt => himp (Or.inr ⟨old, hold, hlt⟩)
      rw [astarRelaxOne_keep hgc hold hnlt]
      obtain ⟨imp, hstate, hnodup, hsub, hcov⟩ := ih t hgc hne' hnd'
      refine ⟨imp, hstate, hnodup, ?_, ?_⟩
      · intro q hq
        obtain ⟨h1, h3⟩ := hsub q hq
        exact ⟨List.mem_cons_of_mem _ h1, h3⟩
      · intro q hq hqi
        rcases List.mem_cons.mp hq with hq | hq
        · subst hq
          exact ⟨old, hold, hnlt⟩
        · exact hcov q hq hqi

/-- The A* master invariant. `d` is the ghost depth: the current `g_costs`
value of every discovered position; queue keys carry the admissible and
consistent Manhattan heuristic on top. -/
structure AStarInvCore (m : GameMap) (start goal : Pos) (s : AStarState)
    (d : Pos → Nat) : Prop where
  cf : CFInv m start s.cameFrom d
  costEq : ∀ p, alookup s.cameFrom p ≠ none →
    alookup s.gCosts p = some ((d p : Int))
  costNone : ∀ p, alookup s.cameFrom p = none → alookup s.gCosts p = none
  keysValid : ∀ p, alookup s.cameFrom p ≠ none → m.validPos p = true
  visSub : ∀ p ∈ s.visited, alookup s.cameFrom p ≠ none
  visNodup : s.visited.Nodup
  predVis : ∀ p q, alookup s.cameFrom p = some (some q) → q ∈ s.visited
  queueDom : ∀ e ∈ s.queue, alookup s.cameFrom e.2 ≠ none
  queueLB : ∀ e ∈ s.queue, ((d e.2 : Int)) + manhattan e.2 goal ≤ e.1
  entryFor : ∀ p, alookup s.cameFrom p ≠ none → p ∉ s.visited →
    (((d p : Int)) + manhattan p goal, p) ∈ s.queue
  distMin : ∀ p ∈ s.visited, ∀ k, NReach m start p k → d p ≤ k
  visEdge : ∀ u ∈ s.visited, ∀ w ∈ getNeighbors m u,
    alookup s.cameFrom w ≠ none ∧ (w ∉ s.visited → d w ≤ d u + 1)

def AStarInv (m : GameMap) (start goal : Pos) (s : AStarState) : Prop :=
  ∃ d, AStarInvCore m start goal s d

def astarMeasure (m : GameMap) (s : AStarState) : Nat :=
  s.queue.length + 4 * (cellCount m - s.visited.length)

theorem astarInv_init (m : GameMap) (start goal : Pos)
    (hs : m.validPos start = true) :
    AStarInv m start goal
      ⟨[(manhattan start goal, start)], [(start, none)], [(start, 0)], []⟩ := by
  have hlook : ∀ p, alookup [(start, (none : Option Pos))] p =
      if start = p then some none else none := by
    intro p
    unfold alookup
    split <;> rfl
  have hdom : ∀ p, alookup [(start, (none : Option Pos))] p ≠ none →
      p = start := by
    intro p hp
    rw [hlook] at hp
    by_cases h : start = p
    · exact h.symm
    · rw [if_neg h] at hp
      exact absurd rfl hp
  have hclook : ∀ p, alookup [(start, (0 : Int))] p =
      if start = p then some 0 else none := by
    intro p
    unfold alookup
    split <;> rfl
  refine ⟨fun _ => 0, ?_⟩
  constructor
  · refine ⟨alookup_cons_self _ _ _, rfl, ?_, ?_⟩
    · intro p hp
      rw [hlook] at hp
      by_cases h : start = p
      · exact h.symm
      · rw [if_neg h] at hp; cases hp
    · intro p q hpq
      rw [hlook] at hpq
      by_cases h : start = p
      · rw [if_pos h] at hpq; cases hpq
      · rw [if_neg h] at hpq; cases hpq
  · intro p hp
    rw [hdom p hp, hclook, if_pos rfl]
    simp
  · intro p hp
    rw [hclook]
    rw [hlook] at hp
    by_cases h : start = p
    · rw [if_pos h] at hp; cases hp
    · rw [if_neg h]
  · intro p hp
    rw [hdom p hp]
    exact hs
  · intro p hp
    cases hp
  · exact List.nodup_nil
  · intro p q hpq
    rw [hlook] at hpq
    by_cases h : start = p
    · rw [if_pos h] at hpq; cases hpq
    · rw [if_neg h] at hpq; cases hpq
  · intro e he
    rw [List.mem_singleton] at he
    subst he
    rw [hlook, if_pos rfl]
    simp
  · intro e he
    rw [List.mem_singleton] at he
    subst he
    simp
  · intro p hp hpv
    rw [hdom p hp]
    rw [List.mem_singleton, Prod.mk.injEq]
    constructor
    · simp
    · rfl
  · intro p hp
    cases hp
  · intro u hu
    cases hu

/-- When a fresh position is popped from the A* heap, its current g-cost is
optimal: consistency of the Manhattan heuristic on the unit grid. -/
theorem astar_pop_optimal {m : GameMap} {start goal : Pos} {s : AStarState}
    {d : Pos → Nat} (hc : AStarInvCore m start goal s d) {c0 : Int} {cur : Pos}
    {rest : List (Int × Pos)} (hpop : heapPop s.queue = some ((c0, cur), rest))
    (hfresh : cur ∉ s.visited) : ∀ k, NReach m start cur k → d cur ≤ k := by
  obtain ⟨hperm, -⟩ := heapPop_spec _ _ _ hpop
  have hcurq : (c0, cur) ∈ s.queue := hperm.mem_iff.mpr (List.mem_cons_self _ _)
  have hdc0 : (d cur : Int) + manhattan cur goal ≤ c0 := hc.queueLB _ hcurq
  intro k hk
  by_cases hsvis : start ∈ s.visited
  · obtain ⟨u, z, j, k2, hu, hz, hzn, hru, hrz, hjk⟩ :=
      first_unvisited s.visited hsvis hk hfresh
    have hdu : d u ≤ j := hc.distMin u hu j hru
    obtain ⟨hzdom, hdz⟩ := hc.visEdge u hu z hzn
    have hdzj : d z ≤ d u + 1 := hdz hz
    have hentry := hc.entryFor z hzdom hz
    have hle : c0 ≤ (d z : Int) + manhattan z goal :=
      heapPop_min_fst hpop _ z hentry
    have hmh1 : manhattan z goal ≤ manhattan z cur + manhattan cur goal :=
      manhattan_triangle z cur goal
    have hmh2 : manhattan z cur ≤ (k2 : Int) := nreach_manhattan_le hrz
    omega
  · have hentry := hc.entryFor start (cfInv_startDom hc.cf) hsvis
    have hle : c0 ≤ (d start : Int) + manhattan start goal :=
      heapPop_min_fst hpop _ start hentry
    have hds : d start = 0 := hc.cf.2.1
    have hmh1 : manhattan start goal ≤ manhattan start cur + manhattan cur goal :=
      manhattan_triangle start cur goal
    have hmh2 : manhattan start cur ≤ (k : Int) := nreach_manhattan_le hk
    omega

/-- Invariant preservation and measure decrease for one A* expansion.
The popped node is always fresh (visited nodes are skipped before
expansion); no re-improvement of a visited node can occur because the
Manhattan heuristic is consistent, so the relaxation fold never rebinds a
frozen predecessor. -/
theorem astarExpand_inv (m : GameMap) (start goal : Pos) (s : AStarState)
    (d : Pos → Nat) (hc : AStarInvCore m start goal s d) (c0 : Int) (cur : Pos)
    (rest : List (Int × Pos))
    (hpop : heapPop s.queue = some ((c0, cur), rest))
    (hfresh : cur ∉ s.visited) :
    ∃ t, (getNeighbors m cur).foldl (astarRelaxOne goal cur)
        (some { s with queue := rest, visited := cur :: s.visited }) = some t ∧
      AStarInv m start goal t ∧ astarMeasure m t < astarMeasure m s := by
  obtain ⟨hperm, -⟩ := heapPop_spec _ _ _ hpop
  have hmemq : ∀ e, e ∈ s.queue ↔ e = (c0, cur) ∨ e ∈ rest := by
    intro e
    rw [hperm.mem_iff]
    simp
  have hlen : s.queue.length = rest.length + 1 := by
    have := hperm.length_eq
    simpa using this
  have hcurdom : alookup s.cameFrom cur ≠ none :=
    hc.queueDom (c0, cur) ((hmemq _).mpr (Or.inl rfl))
  have hgc : alookup ({ s with
      queue := rest
      visited := cur :: s.visited } : AStarState).gCosts cur =
      some ((d cur : Int)) := hc.costEq cur hcurdom
  obtain ⟨imp, hstate, hnd, hsub, hcov⟩ :=
    astarRelax_char goal cur ((d cur : Int)) (getNeighbors m cur)
      { s with queue := rest, visited := cur :: s.visited } hgc
      (fun np hnp => getNeighbors_ne_self hnp) (getNeighbors_nodup m cur)
  dsimp only at hstate hsub hcov
  have himpN : ∀ np ∈ imp, np ∈ getNeighbors m cur := fun np hnp => (hsub np hnp).1
  have hnrCur : NReach m start cur (d cur) := by
    obtain ⟨ch, -, -, -, -, -, hnr, -, -, -⟩ :=
      walkBack_correct hc.cf (d cur + 1) cur hcurdom (by omega)
    exact hnr
  have himpNotVis : ∀ np ∈ imp, np ∉ s.visited := by
    intro np hnp hv
    have hdom : alookup s.cameFrom np ≠ none := hc.visSub np hv
    have hce := hc.costEq np hdom
    rcases (hsub np hnp).2 with hn | ⟨old, hold, hlt⟩
    · rw [hce] at hn
      cases hn
    · rw [hce] at hold
      injection hold with ho
      rw [← ho] at hlt
      have hstepr : NReach m start np (d cur + 1) :=
        NReach.step hnrCur (himpN np hnp)
      have := hc.distMin np hv (d cur + 1) hstepr
      omega
  have himpNotVis1 : ∀ np ∈ imp, np ∉ cur :: s.visited := by
    intro np hnp hmem
    rcases List.mem_cons.mp hmem with h | h
    · exact getNeighbors_ne_self (himpN np hnp) h
    · exact himpNotVis np hnp h
  have hcurNotImp : cur ∉ imp := by
    intro hcn
    exact himpNotVis1 cur hcn (List.mem_cons_self _ _)
  have hstartNotImp : start ∉ imp := by
    intro hsn
    have hsd : alookup s.cameFrom start ≠ none := cfInv_startDom hc.cf
    have hce := hc.costEq start hsd
    rw [hc.cf.2.1] at hce
    rcases (hsub start hsn).2 with hn | ⟨old, hold, hlt⟩
    · rw [hce] at hn
      cases hn
    · rw [hce] at hold
      injection hold with ho
      rw [← ho] at hlt
      have : (0 : Int) ≤ (d cur : Int) := Int.ofNat_nonneg _
      omega
  have hkeys : ((imp.map fun np => (np, (some cur : Option Pos))).reverse).map
      (·.1) = imp.reverse := by
    rw [List.map_reverse, List.map_map]
    simp [Function.comp_def]
  have hkeysC : ((imp.map fun np => (np, (d cur : Int) + 1)).reverse).map
      (·.1) = imp.reverse := by
    rw [List.map_reverse, List.map_map]
    simp [Function.comp_def]
  have hlookCFold : ∀ p, p ∉ imp →
      alookup ((imp.map fun np => (np, (some cur : Option Pos))).reverse ++
        s.cameFrom) p = alookup s.cameFrom p := by
    intro p hp
    exact alookup_append_not_mem _ _ _ (by rw [hkeys]; simpa using hp)
  have hlookCFnew : ∀ p ∈ imp,
      alookup ((imp.map fun np => (np, (some cur : Option Pos))).reverse ++
        s.cameFrom) p = some (some cur) := by
    intro p hp
    refine alookup_append_mem_const _ _ _ _ ?_ (by rw [hkeys]; simpa using hp)
    intro b hb
    rw [List.mem_reverse, List.mem_map] at hb
    obtain ⟨np, -, hnp⟩ := hb
    rw [← hnp]
  have hlookCold : ∀ p, p ∉ imp →
      alookup ((imp.map fun np => (np, (d cur : Int) + 1)).reverse ++
        s.gCosts) p = alookup s.gCosts p := by
    intro p hp
    exact alookup_append_not_mem _ _ _ (by rw [hkeysC]; simpa using hp)
  have hlookCnew : ∀ p ∈ imp,
      alookup ((imp.map fun np => (np, (d cur : Int) + 1)).reverse ++
        s.gCosts) p = some ((d cur : Int) + 1) := by
    intro p hp
    refine alookup_append_mem_const _ _ _ _ ?_ (by rw [hkeysC]; simpa using hp)
    intro b hb
    rw [List.mem_reverse, List.mem_map] at hb
    obtain ⟨np, -, hnp⟩ := hb
    rw [← hnp]
  have hdomMono : ∀ p, alookup s.cameFrom p ≠ none →
      alookup ((imp.map fun np => (np, (some cur : Option Pos))).reverse ++
        s.cameFrom) p ≠ none := by
    intro p hp
    by_cases hn : p ∈ imp
    · rw [hlookCFnew p hn]
      simp
    · rw [hlookCFold p hn]
      exact hp
  set d' : Pos → Nat := fun p => if p ∈ imp then d cur + 1 else d p with hd'
  have hd'new : ∀ p ∈ imp, d' p = d cur + 1 := by
    intro p hp
    simp only [hd', if_pos hp]
  have hd'old : ∀ p, p ∉ imp → d' p = d p := by
    intro p hp
    simp only [hd', if_neg hp]
  have hd'le : ∀ p, alookup s.cameFrom p ≠ none → d' p ≤ d p := by
    intro p hp
    by_cases hpi : p ∈ imp
    · have hce := hc.costEq p hp
      rcases (hsub p hpi).2 with hn | ⟨old, hold, hlt⟩
      · rw [hce] at hn
        cases hn
      · rw [hce] at hold
        injection hold with ho
        rw [← ho] at hlt
        rw [hd'new p hpi]
        omega
    · rw [hd'old p hpi]
  refine ⟨_, hstate, ⟨d', ?_⟩, ?_⟩
  · constructor
    · obtain ⟨hcf1, hcf2, hcf3, hcf4⟩ := hc.cf
      refine ⟨?_, ?_, ?_, ?_⟩
      · rw [hlookCFold start hstartNotImp]
        exact hcf1
      · rw [hd'old start hstartNotImp]
        exact hcf2
      · intro p hp
        by_cases hpi : p ∈ imp
        · rw [hlookCFnew p hpi] at hp
          injection hp with h1
          cases h1
        · rw [hlookCFold p hpi] at hp
          exact hcf3 p hp
      · intro p q hpq
        by_cases hpi : p ∈ imp
        · rw [hlookCFnew p hpi] at hpq
          have hqc : q = cur := by
            injection hpq with h1
            injection h1 with h2
            exact h2.symm
          subst hqc
          refine ⟨hdomMono q hcurdom, himpN p hpi, ?_, ?_⟩
          · rw [hd'new p hpi, hd'old q hcurNotImp]
          · intro hps
            exact hstartNotImp (hps ▸ hpi)
        · rw [hlookCFold p hpi] at hpq
          obtain ⟨hq1, hq2, hq3, hq4⟩ := hcf4 p q hpq
          have hqvis : q ∈ s.visited := hc.predVis p q hpq
          have hqni : q ∉ imp := fun hq => himpNotVis q hq hqvis
          refine ⟨hdomMono q hq1, hq2, ?_, hq4⟩
          rw [hd'old p hpi, hd'old q hqni]
          exact hq3
    · intro p hp
      by_cases hpi : p ∈ imp
      · rw [hlookCnew p hpi, hd'new p hpi]
        norm_cast
      · rw [hlookCFold p hpi] at hp
        rw [hlookCold p hpi, hd'old p hpi]
        exact hc.costEq p hp
    · intro p hp
      have hpi : p ∉ imp := by
        intro h
        rw [hlookCFnew p h] at hp
        cases hp
      rw [hlookCFold p hpi] at hp
      rw [hlookCold p hpi]
      exact hc.costNone p hp
    · intro p hp
      by_cases hpi : p ∈ imp
      · exact mem_getNeighbors_valid (himpN p hpi)
      · rw [hlookCFold p hpi] at hp
        exact hc.keysValid p hp
    · intro p hp
      rcases List.mem_cons.mp hp with hp | hp
      · exact hp ▸ hdomMono cur hcurdom
      · exact hdomMono p (hc.visSub p hp)
    · exact List.nodup_cons.mpr ⟨hfresh, hc.visNodup⟩
    · intro p q hpq
      by_cases hpi : p ∈ imp
      · rw [hlookCFnew p hpi] at hpq
        have hqc : q = cur := by
          injection hpq with h1
          injection h1 with h2
          exact h2.symm
        subst hqc
        exact List.mem_cons_self _ _
      · rw [hlookCFold p hpi] at hpq
        exact List.mem_cons_of_mem _ (hc.predVis p q hpq)
    · intro e he
      rw [List.mem_append] at he
      rcases he with he | he
      · exact hdomMono e.2 (hc.queueDom e ((hmemq e).mpr (Or.inr he)))
      · rw [List.mem_map] at he
        obtain ⟨np, hnp, heq⟩ := he
        have : np = e.2 := congrArg Prod.snd heq
        subst this
        rw [hlookCFnew e.2 hnp]
        simp
    · intro e he
      rw [List.mem_append] at he
      rcases he with he | he
      · have h1 := hc.queueLB e ((hmemq e).mpr (Or.inr he))
        have h2 := hd'le e.2 (hc.queueDom e ((hmemq e).mpr (Or.inr he)))
        omega
      · rw [List.mem_map] at he
        obtain ⟨np, hnp, heq⟩ := he
        rw [← heq]
        rw [hd'new np hnp]
        push_cast
        omega
    · intro p hp hpv
      by_cases hpi : p ∈ imp
      · rw [hd'new p hpi]
        refine List.mem_append_right _ ?_
        rw [List.mem_map]
        refine ⟨p, hpi, ?_⟩
        rw [Prod.mk.injEq]
        refine ⟨?_, rfl⟩
        push_cast
        omega
      · rw [hlookCFold p hpi] at hp
        have hpsv : p ∉ s.visited := fun h => hpv (List.mem_cons_of_mem _ h)
        have hold := hc.entryFor p hp hpsv
        rcases (hmemq _).mp hold with heq | hmem
        · have hpc : p = cur := congrArg Prod.snd heq
          exact absurd (hpc ▸ List.mem_cons_self cur s.visited) hpv
        · rw [hd'old p hpi]
          exact List.mem_append_left _ hmem
    · intro p hp k hk
      rcases List.mem_cons.mp hp with hpc | hpv
      · subst hpc
        rw [hd'old p hcurNotImp]
        exact astar_pop_optimal hc hpop hfresh k hk
      · rw [hd'old p (fun hpi => himpNotVis p hpi hpv)]
        exact hc.distMin p hpv k hk
    · intro u hu w hw
      rcases List.mem_cons.mp hu with huc | huv
      · subst huc
        constructor
        · by_cases hwi : w ∈ imp
          · rw [hlookCFnew w hwi]
            simp
          · obtain ⟨old, hold, -⟩ := hcov w hw hwi
            have hwd : alookup s.cameFrom w ≠ none := by
              intro hn
              rw [hc.costNone w hn] at hold
              cases hold
            rw [hlookCFold w hwi]
            exact hwd
        · intro hwv
          by_cases hwi : w ∈ imp
          · rw [hd'new w hwi, hd'old u hcurNotImp]
          · obtain ⟨old, hold, hnlt⟩ := hcov w hw hwi
            have hwd : alookup s.cameFrom w ≠ none := by
              intro hn
              rw [hc.costNone w hn] at hold
              cases hold
            have hce := hc.costEq w hwd
            rw [hce] at hold
            injection hold with ho
            rw [hd'old w hwi, hd'old u hcurNotImp]
            omega
      · obtain ⟨hwd, hdw⟩ := hc.visEdge u huv w hw
        refine ⟨hdomMono w hwd, ?_⟩
        intro hwv
        have hwsv : w ∉ s.visited := fun h => hwv (List.mem_cons_of_mem _ h)
        have h1 := hdw hwsv
        have h2 := hd'le w hwd
        have h3 : d' u = d u := hd'old u (fun hui => himpNotVis u hui huv)
        omega
  · have hk4 : imp.length ≤ 4 := by
      have h1 : imp.Subperm (getNeighbors m cur) := hnd.subperm himpN
      have := h1.length_le
      have := getNeighbors_length_le m cur
      omega
    have hvisBound : (cur :: s.visited).length ≤ cellCount m := by
      refine nodup_valid_le_cellCount m _
        (List.nodup_cons.mpr ⟨hfresh, hc.visNodup⟩) ?_
      intro p hp
      rcases List.mem_cons.mp hp with hp | hp
      · exact hp ▸ hc.keysValid cur hcurdom
      · exact hc.keysValid p (hc.visSub p hp)
    unfold astarMeasure
    dsimp only
    simp only [List.length_append, List.length_map, List.length_cons] at *
    omega

theorem astarStep_progress (m : GameMap) (start goal : Pos)
    (s : AStarState) (h : AStarInv m start goal s) :
    (∃ t, astarStep m goal s = .done t) ∨
    (∃ t, astarStep m goal s = .cont t ∧ AStarInv m start goal t ∧
      astarMeasure m t < astarMeasure m s) := by
  obtain ⟨d, hc⟩ := h
  cases hpop : heapPop s.queue with
  | none => exact Or.inl ⟨s, by unfold astarStep; rw [hpop]⟩
  | some pr =>
    obtain ⟨⟨c0, cur⟩, rest⟩ := pr
    obtain ⟨hperm, -⟩ := heapPop_spec _ _ _ hpop
    have hlen : s.queue.length = rest.length + 1 := by
      have := hperm.length_eq
      simpa using this
    have hmemq : ∀ e, e ∈ s.queue ↔ e = (c0, cur) ∨ e ∈ rest := by
      intro e
      rw [hperm.mem_iff]
      simp
    by_cases hg : cur = goal
    · exact Or.inl ⟨_,
        by unfold astarStep; rw [hpop]; dsimp only; rw [if_pos hg]⟩
    · by_cases hv : cur ∈ s.visited
      · refine Or.inr ⟨_,
          by unfold astarStep; rw [hpop]; dsimp only; rw [if_neg hg, if_pos hv],
          ⟨d, ?_⟩, ?_⟩
        · constructor
          · exact hc.cf
          · exact hc.costEq
          · exact hc.costNone
          · exact hc.keysValid
          · exact hc.visSub
          · exact hc.visNodup
          · exact hc.predVis
          · exact fun e he => hc.queueDom e ((hmemq e).mpr (Or.inr he))
          · exact fun e he => hc.queueLB e ((hmemq e).mpr (Or.inr he))
          · intro p hp hpv
            have hold := hc.entryFor p hp hpv
            rcases (hmemq _).mp hold with heq | hmem
            · have hpc : p = cur := congrArg Prod.snd heq
              exact absurd (hpc ▸ hv) hpv
            · exact hmem
          · exact hc.distMin
          · exact hc.visEdge
        · unfold astarMeasure
          dsimp only
          omega
      · obtain ⟨t, hfold, hinv, hmeas⟩ :=
          astarExpand_inv m start goal s d hc c0 cur rest hpop hv
        refine Or.inr ⟨t, ?_, hinv, hmeas⟩
        unfold astarStep
        rw [hpop]
        dsimp only
        rw [if_neg hg, if_neg hv, hfold]

theorem astarInv_exhausted_complete {m : GameMap} {start goal : Pos}
    {s : AStarState} {d : Pos → Nat} (hc : AStarInvCore m start goal s d)
    (hq : s.queue = []) :
    ∀ v k, NReach m start v k → alookup s.cameFrom v ≠ none := by
  intro v k hr
  induction hr with
  | refl => exact cfInv_startDom hc.cf
  | step hw hadj ihw =>
    rename_i p q n
    have hpvis : p ∈ s.visited := by
      by_contra hpv
      have hmem := hc.entryFor p ihw hpv
      rw [hq] at hmem
      exact List.not_mem_nil _ hmem
    exact (hc.visEdge p hpvis q hadj).1

/-- Run the A* loop from the initial state: it completes within the fuel
(no `KeyError` is raised), leaving an invariant state that either exhausted
its queue or popped the goal with an optimal recorded depth. -/
theorem astar_run (m : GameMap) (start goal : Pos)
    (hs : m.validPos start = true) :
    ∃ s' t d, runLoop (astarStep m goal) (astarFuel m)
        ⟨[(manhattan start goal, start)], [(start, none)], [(start, 0)], []⟩ =
          some t ∧
      AStarInvCore m start goal s' d ∧
      t.cameFrom = s'.cameFrom ∧ t.gCosts = s'.gCosts ∧
      (s'.queue = [] ∨
        (alookup s'.cameFrom goal ≠ none ∧
          ∀ k, NReach m start goal k → d goal ≤ k)) := by
  obtain ⟨s', t, hrun, hinv, hdone⟩ :=
    runLoop_total (astarStep m goal) (AStarInv m start goal)
      (astarMeasure m)
      (fun s hI => astarStep_progress m start goal s hI) (astarFuel m)
      ⟨[(manhattan start goal, start)], [(start, none)], [(start, 0)], []⟩
      (astarInv_init m start goal hs)
      (by
        unfold astarMeasure astarFuel
        simp only [List.length_cons, List.length_nil]
        omega)
  obtain ⟨d, hc⟩ := hinv
  refine ⟨s', t, d, hrun, hc, ?_⟩
  unfold astarStep at hdone
  cases hpop : heapPop s'.queue with
  | none =>
    rw [hpop] at hdone
    dsimp only at hdone
    cases hdone
    exact ⟨rfl, rfl, Or.inl ((heapPop_nil_iff _).mp hpop)⟩
  | some pr =>
    obtain ⟨⟨c0, cur⟩, rest⟩ := pr
    rw [hpop] at hdone
    dsimp only at hdone
    obtain ⟨hperm, -⟩ := heapPop_spec _ _ _ hpop
    have hcurdom : alookup s'.cameFrom cur ≠ none :=
      hc.queueDom (c0, cur) (hperm.mem_iff.mpr (List.mem_cons_self _ _))
    by_cases hg : cur = goal
    · rw [if_pos hg] at hdone
      cases hdone
      subst hg
      refine ⟨rfl, rfl, Or.inr ⟨hcurdom, ?_⟩⟩
      intro k hk
      by_cases hv : cur ∈ s'.visited
      · exact hc.distMin cur hv k hk
      · exact astar_pop_optimal hc hpop hv k hk
    · rw [if_neg hg] at hdone
      by_cases hv : cur ∈ s'.visited
      · rw [if_pos hv] at hdone
        cases hdone
      · rw [if_neg hv] at hdone
        split at hdone <;> cases hdone

/-- A* `find_path` on invalid endpoints or an unreachable goal: empty path,
infinite cost, no exception. -/
theorem astarFindPath_fail (m : GameMap) (start goal : Pos)
    (h : ¬(m.validPos start = true ∧ m.validPos goal = true ∧
      Reaches m start goal)) :
    astarFindPath m start goal = some ⟨[], none⟩ := by
  by_cases hs : m.validPos start = true
  · by_cases hg : m.validPos goal = true
    · have hnr : ¬ Reaches m start goal := fun hr => h ⟨hs, hg, hr⟩
      obtain ⟨s', t, d, hrun, hc, hcf, hcost, hshape⟩ := astar_run m start goal hs
      have hlook : alookup t.cameFrom goal = none := by
        rw [hcf]
        by_contra hlk
        exact hnr (cfInv_reaches hc.cf hlk)
      unfold astarFindPath
      simp only [hs, hg, Bool.and_self, Bool.not_true, Bool.false_eq_true,
        if_false, hrun, hlook]
    · have hg' : m.validPos goal = false := by simpa using hg
      unfold astarFindPath
      simp [hs, hg']
  · have hs' : m.validPos start = false := by simpa using hs
    unfold astarFindPath
    simp [hs']

/-- A* `find_path` on valid endpoints with a reachable goal: the returned
path realizes the minimal number of steps `dval` and the returned cost is
exactly that step count. -/
theorem astarFindPath_spec (m : GameMap) (start goal : Pos)
    (hs : m.validPos start = true) (hg : m.validPos goal = true)
    (hreach : Reaches m start goal) :
    ∃ out dval,
      astarFindPath m start goal = some out ∧
      out.path.length = dval + 1 ∧
      out.cost = some (dval : Int) ∧
      NReach m start goal dval ∧
      (∀ k, NReach m start goal k → dval ≤ k) := by
  obtain ⟨s', t, d, hrun, hc, hcf, hcost, hshape⟩ := astar_run m start goal hs
  have hgdom : alookup s'.cameFrom goal ≠ none := by
    rcases hshape with hq | ⟨hgd, -⟩
    · obtain ⟨n, hn⟩ := hreach
      exact astarInv_exhausted_complete hc hq goal n hn
    · exact hgd
  have hgopt : ∀ k, NReach m start goal k → d goal ≤ k := by
    rcases hshape with hq | ⟨-, hopt⟩
    · have hgvis : goal ∈ s'.visited := by
        by_contra hgv
        have hmem := hc.entryFor goal hgdom hgv
        rw [hq] at hmem
        exact List.not_mem_nil _ hmem
      exact hc.distMin goal hgvis
    · exact hopt
  have hdlt := cfInv_d_lt_length hc.cf hgdom
  obtain ⟨chain, hwb, hlen, hhead, hlast, hfilt, hnr, -, -, -⟩ :=
    walkBack_correct hc.cf (s'.cameFrom.length + 1) goal hgdom (by omega)
  have hcostg := hc.costEq goal hgdom
  refine ⟨⟨chain.reverse, some ((d goal : Int))⟩, d goal,
    ?_, ?_, rfl, hnr, hgopt⟩
  · unfold astarFindPath
    simp only [hs, hg, Bool.and_self, Bool.not_true, Bool.false_eq_true,
      if_false, hrun, hcf, hcost]
    cases hv : alookup s'.cameFrom goal with
    | none => exact absurd hv hgdom
    | some v =>
      rw [hwb, hcostg]
  · simp only [List.length_reverse]
    omega

/-! ### Obstacle-free grids: the Manhattan distance is realizable -/

theorem validPos_bounds {m : GameMap} {p : Pos} (h : m.validPos p = true) :
    0 ≤ p.1 ∧ p.1 < m.width ∧ 0 ≤ p.2 ∧ p.2 < m.height := by
  unfold GameMap.validPos GameMap.isValidMove at h
  simp only [Bool.and_eq_true, decide_eq_true_eq] at h
  exact ⟨h.1.1.1.1, h.1.1.1.2, h.1.1.2, h.1.2⟩

theorem validPos_free {m : GameMap} (hfree : ∀ x y, m.obstacle x y = false)
    {p : Pos} (h1 : 0 ≤ p.1) (h2 : p.1 < m.width) (h3 : 0 ≤ p.2)
    (h4 : p.2 < m.height) : m.validPos p = true := by
  unfold GameMap.validPos GameMap.isValidMove
  simp [h1, h2, h3, h4, hfree]

/-- On an obstacle-free grid every pair of in-bounds cells is joined by a
walk of exactly the Manhattan distance (move along x, then along y). -/
theorem nreach_free (m : GameMap) (hfree : ∀ x y, m.obstacle x y = false) :
    ∀ (n : Nat) (a b : Pos), m.validPos a = true → m.validPos b = true →
      manhattan a b = (n : Int) → NReach m a b n := by
  intro n
  induction n with
  | zero =>
    intro a b ha hb hm
    have hab : a = b := manhattan_eq_zero (by exact_mod_cast hm)
    subst hab
    exact NReach.refl
  | succ k ih =>
    intro a b ha hb hm
    obtain ⟨a1, a2⟩ := a
    obtain ⟨b1, b2⟩ := b
    obtain ⟨ha1, ha2, ha3, ha4⟩ := validPos_bounds ha
    obtain ⟨hb1, hb2, hb3, hb4⟩ := validPos_bounds hb
    dsimp only at ha1 ha2 ha3 ha4 hb1 hb2 hb3 hb4
    unfold manhattan at hm
    dsimp only at hm
    rcases lt_trichotomy a1 b1 with hx | hx | hx
    · have hcv : m.validPos (b1 - 1, b2) = true :=
        validPos_free hfree (by dsimp only; omega) (by dsimp only; omega)
          (by dsimp only; omega) (by dsimp only; omega)
      have hm1 : |a1 - b1| = -(a1 - b1) := abs_of_nonpos (by omega)
      have hm2 : |a1 - (b1 - 1)| = -(a1 - (b1 - 1)) := abs_of_nonpos (by omega)
      have hmc : manhattan (a1, a2) (b1 - 1, b2) = (k : Int) := by
        unfold manhattan
        dsimp only
        rw [hm2]
        rw [hm1] at hm
        push_cast at hm ⊢
        omega
      have hbn : (b1, b2) ∈ getNeighbors m (b1 - 1, b2) := by
        unfold getNeighbors
        refine List.mem_filter.mpr ⟨?_, hb⟩
        dsimp only
        simp only [List.mem_cons]
        left
        rw [Prod.mk.injEq]
        exact ⟨by omega, rfl⟩
      exact NReach.step (ih (a1, a2) (b1 - 1, b2) ha hcv hmc) hbn
    · subst hx
      rcases lt_trichotomy a2 b2 with hy | hy | hy
      · have hcv : m.validPos (a1, b2 - 1) = true :=
          validPos_free hfree (by dsimp only; omega) (by dsimp only; omega)
            (by dsimp only; omega) (by dsimp only; omega)
        have hm1 : |a2 - b2| = -(a2 - b2) := abs_of_nonpos (by omega)
        have hm2 : |a2 - (b2 - 1)| = -(a2 - (b2 - 1)) := abs_of_nonpos (by omega)
        have hmc : manhattan (a1, a2) (a1, b2 - 1) = (k : Int) := by
          unfold manhattan
          dsimp only
          rw [hm2]
          rw [hm1] at hm
          push_cast at hm ⊢
          omega
        have hbn : (a1, b2) ∈ getNeighbors m (a1, b2 - 1) := by
          unfold getNeighbors
          refine List.mem_filter.mpr ⟨?_, hb⟩
          dsimp only
          simp only [List.mem_cons]
          right
          right
          left
          rw [Prod.mk.injEq]
          exact ⟨rfl, by omega⟩
        exact NReach.step (ih (a1, a2) (a1, b2 - 1) ha hcv hmc) hbn
      · exfalso
        rw [hy] at hm
        simp only [sub_self, abs_zero, add_zero, zero_add] at hm
        push_cast at hm
        omega
      · have hcv : m.validPos (a1, b2 + 1) = true :=
          validPos_free hfree (by dsimp only; omega) (by dsimp only; omega)
            (by dsimp only; omega) (by dsimp only; omega)
        have hm1 : |a2 - b2| = a2 - b2 := abs_of_nonneg (by omega)
        have hm2 : |a2 - (b2 + 1)| = a2 - (b2 + 1) := abs_of_nonneg (by omega)
        have hmc : manhattan (a1, a2) (a1, b2 + 1) = (k : Int) := by
          unfold manhattan
          dsimp only
          rw [hm2]
          rw [hm1] at hm
          push_cast at hm ⊢
          omega
        have hbn : (a1, b2) ∈ getNeighbors m (a1, b2 + 1) := by
          unfold getNeighbors
          refine List.mem_filter.mpr ⟨?_, hb⟩
          dsimp only
          simp only [List.mem_cons]
          right
          right
          right
          left
          rw [Prod.mk.injEq]
          exact ⟨rfl, by omega⟩
        exact NReach.step (ih (a1, a2) (a1, b2 + 1) ha hcv hmc) hbn
    · have hcv : m.validPos (b1 + 1, b2) = true :=
        validPos_free hfree (by dsimp only; omega) (by dsimp only; omega)
          (by dsimp only; omega) (by dsimp only; omega)
      have hm1 : |a1 - b1| = a1 - b1 := abs_of_nonneg (by omega)
      have hm2 : |a1 - (b1 + 1)| = a1 - (b1 + 1) := abs_of_nonneg (by omega)
      have hmc : manhattan (a1, a2) (b1 + 1, b2) = (k : Int) := by
        unfold manhattan
        dsimp only
        rw [hm2]
        rw [hm1] at hm
        push_cast at hm ⊢
        omega
      have hbn : (b1, b2) ∈ getNeighbors m (b1 + 1, b2) := by
        unfold getNeighbors
        refine List.mem_filter.mpr ⟨?_, hb⟩
        dsimp only
        simp only [List.mem_cons]
        right
        left
        rw [Prod.mk.injEq]
        exact ⟨by omega, rfl⟩
      exact NReach.step (ih (a1, a2) (b1 + 1, b2) ha hcv hmc) hbn

/-- C2: for each of the four search strategies, if start or goal is out of
bounds or an obstacle, or the goal is unreachable through non-obstacle
cells, `find_path` returns the empty path with infinite cost and raises no
exception; in particular the fully blocking wall (column `x = 2` of a 5×5
grid) separating `(0,0)` from `(4,4)` produces exactly that outcome for all
four strategies. -/
theorem claim2_invalid_or_unreachable (m : GameMap) (u : Bool)
    (start goal : Pos)
    (h : ¬(m.validPos start = true ∧ m.validPos goal = true ∧
      Reaches m start goal)) :
    ((∃ e, bfsFindPath m u start goal = some ⟨[], none, e⟩) ∧
     (∃ e, dijkstraFindPath m u start goal = some ⟨[], none, e⟩) ∧
     astarFindPath m start goal = some ⟨[], none⟩ ∧
     (∃ e, greedyFindPath m u start goal = some ⟨[], none, e⟩)) ∧
    (bfsFindPath ⟨5, 5, fun x _ => decide (x = 2)⟩ false (0, 0) (4, 4) =
       some ⟨[], none, 0⟩ ∧
     dijkstraFindPath ⟨5, 5, fun x _ => decide (x = 2)⟩ false (0, 0) (4, 4) =
       some ⟨[], none, 0⟩ ∧
     astarFindPath ⟨5, 5, fun x _ => decide (x = 2)⟩ (0, 0) (4, 4) =
       some ⟨[], none⟩ ∧
     greedyFindPath ⟨5, 5, fun x _ => decide (x = 2)⟩ false (0, 0) (4, 4) =
       some ⟨[], none, 0⟩) :=
  ⟨⟨bfsFindPath_fail m u start goal h, dijkstraFindPath_fail m u start goal h,
    astarFindPath_fail m start goal h, greedyFindPath_fail m u start goal h⟩,
   by decide, by decide, by decide, by decide⟩

/-- Witness for C2: an out-of-bounds start on a free 5×5 grid. -/
theorem claim2_invalid_or_unreachable_witness :
    ¬(((⟨5, 5, fun _ _ => false⟩ : GameMap).validPos (-1, 0) = true) ∧
       ((⟨5, 5, fun _ _ => false⟩ : GameMap).validPos (4, 4) = true) ∧
       Reaches ⟨5, 5, fun _ _ => false⟩ (-1, 0) (4, 4)) ∧
    (∃ e, bfsFindPath ⟨5, 5, fun _ _ => false⟩ false (-1, 0) (4, 4) =
      some ⟨[], none, e⟩) :=
  ⟨fun hx => absurd hx.1 (by decide),
   (claim2_invalid_or_unreachable ⟨5, 5, fun _ _ => false⟩ false (-1, 0) (4, 4)
     (fun hx => absurd hx.1 (by decide))).1.1⟩

/-- C10: for each of the four search strategies, on valid endpoints with a
reachable goal the cost component returned by `find_path` equals the number
of positions of the returned path minus one. -/
theorem claim10_cost_is_steps (m : GameMap) (u : Bool) (start goal : Pos)
    (hs : m.validPos start = true) (hg : m.validPos goal = true)
    (hreach : Reaches m start goal) :
    (∃ out, bfsFindPath m u start goal = some out ∧
      out.cost = some ((out.path.length : Int) - 1)) ∧
    (∃ out, dijkstraFindPath m u start goal = some out ∧
      out.cost = some ((out.path.length : Int) - 1)) ∧
    (∃ out, astarFindPath m start goal = some out ∧
      out.cost = some ((out.path.length : Int) - 1)) ∧
    (∃ out, greedyFindPath m u start goal = some out ∧
      out.cost = some ((out.path.length : Int) - 1)) := by
  obtain ⟨o1, d1, he1, hl1, hc1, -, -⟩ :=
    bfsFindPath_spec m u start goal hs hg hreach
  obtain ⟨o2, d2, he2, hl2, hc2, -, -⟩ :=
    dijkstraFindPath_spec m u start goal hs hg hreach
  obtain ⟨o3, d3, he3, hl3, hc3, -, -⟩ :=
    astarFindPath_spec m start goal hs hg hreach
  obtain ⟨o4, d4, he4, hl4, hc4, -⟩ :=
    greedyFindPath_spec m u start goal hs hg hreach
  refine ⟨⟨o1, he1, ?_⟩, ⟨o2, he2, ?_⟩, ⟨o3, he3, ?_⟩, ⟨o4, he4, ?_⟩⟩ <;>
    first
    | (rw [hc1, hl1]; congr 1; push_cast; ring)
    | (rw [hc2, hl2]; congr 1; push_cast; ring)
    | (rw [hc3, hl3]; congr 1; push_cast; ring)
    | (rw [hc4, hl4]; congr 1; push_cast; ring)

/-- Witness for C10 at coincident endpoints on a free 5×5 grid. -/
theorem claim10_cost_is_steps_witness :
    ∃ out, bfsFindPath ⟨5, 5, fun _ _ => false⟩ false (2, 2) (2, 2) =
      some out ∧ out.cost = some ((out.path.length : Int) - 1) :=
  (claim10_cost_is_steps ⟨5, 5, fun _ _ => false⟩ false (2, 2) (2, 2)
    (by decide) (by decide) ⟨0, NReach.refl⟩).1

/-- C1: on an obstacle-free rectangular grid with valid endpoints, BFS,
Dijkstra and A* return a path whose step count (positions minus one) equals
the Manhattan distance between start and goal, and greedy best-first
returns a path of at least that many steps; in particular on a free 5×5
grid from `(0,0)` to `(4,4)` the first three return 9 positions and greedy
best-first returns at least 9 positions. -/
theorem claim1_manhattan_optimal (m : GameMap) (u : Bool) (start goal : Pos)
    (hfree : ∀ x y, m.obstacle x y = false)
    (hs : m.validPos start = true) (hg : m.validPos goal = true) :
    ((∃ out, bfsFindPath m u start goal = some out ∧
       (out.path.length : Int) = manhattan start goal + 1) ∧
     (∃ out, dijkstraFindPath m u start goal = some out ∧
       (out.path.length : Int) = manhattan start goal + 1) ∧
     (∃ out, astarFindPath m start goal = some out ∧
       (out.path.length : Int) = manhattan start goal + 1) ∧
     (∃ out, greedyFindPath m u start goal = some out ∧
       manhattan start goal + 1 ≤ (out.path.length : Int))) ∧
    ((bfsFindPath ⟨5, 5, fun _ _ => false⟩ false (0, 0) (4, 4)).map
        (fun o => o.path.length) = some 9 ∧
     (dijkstraFindPath ⟨5, 5, fun _ _ => false⟩ false (0, 0) (4, 4)).map
        (fun o => o.path.length) = some 9 ∧
     (astarFindPath ⟨5, 5, fun _ _ => false⟩ (0, 0) (4, 4)).map
        (fun o => o.path.length) = some 9 ∧
     ∃ L, (greedyFindPath ⟨5, 5, fun _ _ => false⟩ false (0, 0) (4, 4)).map
        (fun o => o.path.length) = some L ∧ 9 ≤ L) := by
  have hnn := manhattan_nonneg start goal
  have hmn : manhattan start goal = ((manhattan start goal).toNat : Int) :=
    (Int.toNat_of_nonneg hnn).symm
  have hwalk : NReach m start goal (manhattan start goal).toNat :=
    nreach_free m hfree _ start goal hs hg hmn
  have hreach : Reaches m start goal := ⟨_, hwalk⟩
  obtain ⟨o1, d1, he1, hl1, hc1, hnr1, hmin1⟩ :=
    bfsFindPath_spec m u start goal hs hg hreach
  obtain ⟨o2, d2, he2, hl2, hc2, hnr2, hmin2⟩ :=
    dijkstraFindPath_spec m u start goal hs hg hreach
  obtain ⟨o3, d3, he3, hl3, hc3, hnr3, hmin3⟩ :=
    astarFindPath_spec m start goal hs hg hreach
  obtain ⟨o4, d4, he4, hl4, hc4, hnr4⟩ :=
    greedyFindPath_spec m u start goal hs hg hreach
  have heq1 : (d1 : Int) = manhattan start goal := by
    have h1 : manhattan start goal ≤ (d1 : Int) := nreach_manhattan_le hnr1
    have h2 : d1 ≤ (manhattan start goal).toNat := hmin1 _ hwalk
    omega
  have heq2 : (d2 : Int) = manhattan start goal := by
    have h1 : manhattan start goal ≤ (d2 : Int) := nreach_manhattan_le hnr2
    have h2 : d2 ≤ (manhattan start goal).toNat := hmin2 _ hwalk
    omega
  have heq3 : (d3 : Int) = manhattan start goal := by
    have h1 : manhattan start goal ≤ (d3 : Int) := nreach_manhattan_le hnr3
    have h2 : d3 ≤ (manhattan start goal).toNat := hmin3 _ hwalk
    omega
  have hge4 : manhattan start goal ≤ (d4 : Int) := nreach_manhattan_le hnr4
  refine ⟨⟨⟨o1, he1, ?_⟩, ⟨o2, he2, ?_⟩, ⟨o3, he3, ?_⟩, ⟨o4, he4, ?_⟩⟩,
    by decide, by decide, by decide, ⟨9, by decide, le_refl 9⟩⟩
  · rw [hl1]
    push_cast
    omega
  · rw [hl2]
    push_cast
    omega
  · rw [hl3]
    push_cast
    omega
  · rw [hl4]
    push_cast
    omega

/-- Witness for C1 on the free 5×5 grid from `(0,0)` to `(4,4)`. -/
theorem claim1_manhattan_optimal_witness :
    ∃ out, bfsFindPath ⟨5, 5, fun _ _ => false⟩ false (0, 0) (4, 4) =
      some out ∧ (out.path.length : Int) = manhattan (0, 0) (4, 4) + 1 :=
  (claim1_manhattan_optimal ⟨5, 5, fun _ _ => false⟩ false (0, 0) (4, 4)
    (fun _ _ => rfl) (by decide) (by decide)).1.1
